import Mathlib

/-!
# goweb: namespaces, filter lists and route trees

A shallow embedding of `namespace.go` (package `goweb`).

* Go strings are lists of characters, Go maps are association lists with
  `mapGet` / `mapSet`, Go slices are lists.
* A Go pointer is represented by the value it points to.  Where the Go code
  updates an object through a pointer that the caller still holds (the trees of a
  namespace that is merged into a parent), the operation returns the updated
  object next to its result.
* Where one object is held in several places that are read afterwards, the
  objects are in a heap, a list indexed by addresses: the filter entries that a
  namespace and its parent both hold after a merge (`RegisterRef`,
  `NamespaceRef`), and a controller bound in the trees of several methods
  (`RefTree`).
* `namespace.go` calls into `tree.go` and `router.go`, which are not part of the
  sources at hand.  The definitions that stand for them are marked
  `Modelled from the spec:`; constants and callbacks declared there
  (`BeforeRouter`, `FinishRouter`, `exception`) are parameters.
* A Go panic during registration is the result `none`.
-/

namespace Goweb

/-- A Go string, as the list of its characters. -/
abbrev GoString := List Char

/-- The Go call `strings.HasPrefix(s, p)`. -/
def HasPrefix (s p : GoString) : Bool := p.isPrefixOf s

section GoMap

variable {K V : Type} [DecidableEq K]

/-- The Go lookup `v, ok := m[k]`: `some v` when the key is present. -/
def mapGet : List (K × V) → K → Option V
  | [], _ => none
  | (k', v) :: rest, k => if k' = k then some v else mapGet rest k

/-- The Go assignment `m[k] = v`. -/
def mapSet : List (K × V) → K → V → List (K × V)
  | [], k, v => [(k, v)]
  | (k', v') :: rest, k, v =>
    if k' = k then (k', v) :: rest else (k', v') :: mapSet rest k v

/-- The keys of a map, in the order in which the model iterates over it. -/
def mapKeys (m : List (K × V)) : List K := m.map Prod.fst

end GoMap

/-! ## Route trees -/

/-- The type `controllerInfo`: `namespace.go` reads and writes its field `pattern`;
`handler` stands for the unit bound to the route (function, controller or raw
handler), of which only the identity matters here. -/
structure controllerInfo where
  pattern : GoString
  handler : Nat
deriving DecidableEq

/-- The `runObject` of a leaf, an `interface{}` in Go: a `*controllerInfo` in a
route tree, the value `true` in the tree of a filter entry. -/
inductive RunObject where
  | controller (c : controllerInfo)
  | flag (b : Bool)
deriving DecidableEq

/-- The type `leafInfo`: the payload and the names of the captures on the way to it. -/
structure leafInfo where
  wildcards : List GoString
  runObject : RunObject
deriving DecidableEq

/-- The type `Tree`, with the three fields `addPrefix` walks: `fixrouters` (the
children under a literal segment, each with its segment), `wildcard` (the child
under a capturing segment, if any) and `leaves`. -/
inductive Tree where
  | node (fixrouters : List (GoString × Tree)) (wildcard : Option Tree)
      (leaves : List leafInfo)

/-- Modelled from the spec: `NewTree` (tree.go), a node without children and leaves. -/
def NewTree : Tree := .node [] none []

/-- The field `fixrouters`. -/
def Tree.fixrouters : Tree → List (GoString × Tree)
  | .node fs _ _ => fs

/-- The field `wildcard`. -/
def Tree.wildcard : Tree → Option Tree
  | .node _ w _ => w

/-- The field `leaves`. -/
def Tree.leaves : Tree → List leafInfo
  | .node _ _ ls => ls

/-- The pieces of a string between the occurrences of `/` (Go `strings.Split`). -/
def splitSlash : GoString → List GoString
  | [] => [[]]
  | c :: cs =>
    if c = '/' then [] :: splitSlash cs
    else
      match splitSlash cs with
      | [] => [[c]]
      | s :: ss => (c :: s) :: ss

/-- Modelled from the spec: the segments of a pattern or path (§4.1 "Splits on `/`";
glossary: a segment is one `/`-delimited token).  Empty tokens, as a leading or a
trailing `/` gives them, are no segments (§8: `/user/` has no segment for `:id`). -/
def splitPath (key : GoString) : List GoString :=
  (splitSlash key).filter (fun s => !s.isEmpty)

/-- Modelled from the spec: the kinds of segment of §4.1 that this development
covers: a literal, a named parameter, the trailing wildcard. -/
inductive Segment where
  | literal (s : GoString)
  | param (name : GoString)
  | wildcard
deriving DecidableEq

/-- The name under which a wildcard capture is recorded. -/
def splat : GoString := ['s', 'p', 'l', 'a', 't']

/-- Modelled from the spec: the classification of one segment (§4.1): `*` and
`:splat` are the wildcard, `:name` is a parameter whose name must not be empty,
anything else is a literal.  The result is `none` on a configuration error and on
the two forms left out here, a regex constraint `:name(regex)` and the optional
marker `?`. -/
def classify (seg : GoString) : Option Segment :=
  if seg = ['*'] ∨ seg = ':' :: splat then some .wildcard
  else
    match seg with
    | ':' :: name => if name = [] ∨ '(' ∈ name then none else some (.param name)
    | '?' :: _ => none
    | _ => some (.literal seg)

/-- The wildcard, if there is one, is the last segment. -/
def wildcardTerminal : List Segment → Bool
  | [] => true
  | [_] => true
  | s :: rest => s != .wildcard && wildcardTerminal rest

/-- Modelled from the spec: `Compile` of §4.1, the ordered typed segments of a
pattern, `none` being the configuration error. -/
def Compile (pattern : GoString) : Option (List Segment) :=
  match (splitPath pattern).mapM classify with
  | some segs => if wildcardTerminal segs then some segs else none
  | none => none

/-- The first child under the literal `s` is replaced by `f` of it; without such a
child a new one, `f` of an empty tree, is added after the others. -/
def insertFixed (s : GoString) (f : Tree → Tree) :
    List (GoString × Tree) → List (GoString × Tree)
  | [] => [(s, f NewTree)]
  | (k, t) :: more =>
    if k = s then (k, f t) :: more else (k, t) :: insertFixed s f more

/-- Modelled from the spec: `Insert` of §4.2 on a compiled pattern: walk or create
one node per segment; the node of the final segment receives a new leaf after the
leaves it has.  A capturing segment leads to the `wildcard` child and adds its name
to the captures of the leaf. -/
def Insert : List Segment → List GoString → RunObject → Tree → Tree
  | [], caps, payload, .node fs w ls => .node fs w (ls ++ [⟨caps, payload⟩])
  | .literal s :: rest, caps, payload, .node fs w ls =>
    .node (insertFixed s (Insert rest caps payload) fs) w ls
  | .param name :: rest, caps, payload, .node fs w ls =>
    .node fs (some (Insert rest (caps ++ [name]) payload (w.getD NewTree))) ls
  | .wildcard :: rest, caps, payload, .node fs w ls =>
    .node fs (some (Insert rest (caps ++ [splat]) payload (w.getD NewTree))) ls

/-- Modelled from the spec: `Tree.AddRouter` (tree.go), the `Insert(pattern, payload)`
of §4.2: compile the pattern, then insert. -/
def Tree.AddRouter (t : Tree) (pattern : GoString) (runObject : RunObject) :
    Option Tree :=
  (Compile pattern).map (fun segs => Insert segs [] runObject t)

/-- The tree of the pattern `*`: one leaf below the capturing child. -/
def starTree : Tree :=
  .node [] (some (.node [] none [⟨[splat], .flag true⟩])) []

/-- The leaf part of `addPrefix`: a leaf whose payload is a `*controllerInfo` gets
`prefix + c.pattern` as its pattern unless `strings.HasPrefix(c.pattern, prefix)`. -/
def addPrefixLeaf (pfx : GoString) (l : leafInfo) : leafInfo :=
  match l.runObject with
  | .controller c =>
    if !HasPrefix c.pattern pfx then
      { l with runObject := .controller { c with pattern := pfx ++ c.pattern } }
    else l
  | .flag _ => l

mutual

/-- The function `addPrefix`: it visits the `fixrouters`, the `wildcard` child and
the leaves of the tree. -/
def addPrefix : Tree → GoString → Tree
  | .node fs w ls, pfx =>
    .node (addPrefixFix fs pfx) (addPrefixWild w pfx) (ls.map (addPrefixLeaf pfx))

/-- The loop `for _, v := range t.fixrouters` of `addPrefix`. -/
def addPrefixFix : List (GoString × Tree) → GoString → List (GoString × Tree)
  | [], _ => []
  | (k, t) :: more, pfx => (k, addPrefix t pfx) :: addPrefixFix more pfx

/-- The step `if t.wildcard != nil` of `addPrefix`. -/
def addPrefixWild : Option Tree → GoString → Option Tree
  | none, _ => none
  | some t, pfx => some (addPrefix t pfx)

end

/-- Every segment of the prefix is a literal (§4.2: the prefix is a path). -/
def literalPath (pfx : GoString) : Option (List GoString) :=
  let segs := splitPath pfx
  if segs.all (fun s => classify s == some (.literal s)) then some segs else none

/-- The tree `other` at the end of a path of new nodes, one per segment. -/
def chain : List GoString → Tree → Tree
  | [], other => other
  | s :: ss, other => .node [(s, chain ss other)] none []

/-- Modelled from the spec: `Tree.AddTree` (tree.go), the `Merge(prefix, otherTree)`
of §4.2: the nodes of `other` are relinked "under a synthetic path equal to `prefix`
split into segments", added after the children the tree has.  The rewriting of the
recorded patterns, which §4.2 counts to the merge, is the work of `addPrefix` in
`namespace.go` and no part of this function.  The spec gives the merge no meaning
for a prefix without a segment or with a capturing segment: the result is `none`. -/
def Tree.AddTree (t : Tree) (pfx : GoString) (other : Tree) : Option Tree :=
  match literalPath pfx, t with
  | some (s :: ss), .node fs w ls => some (.node (fs ++ [(s, chain ss other)]) w ls)
  | _, _ => none

/-- One step on the way from the root of a tree to a leaf. -/
inductive Step where
  | fixed (s : GoString)
  | capture
deriving DecidableEq

mutual

/-- The leaves reachable in a tree, each with the path that leads to it: the leaves
of the node, those below the `wildcard` child, those below the `fixrouters`. -/
def Tree.routes : Tree → List (List Step × leafInfo)
  | .node fs w ls => ls.map (fun l => ([], l)) ++ (routesWild w ++ routesFix fs)

/-- The leaves reachable through the `wildcard` child. -/
def routesWild : Option Tree → List (List Step × leafInfo)
  | none => []
  | some t => (Tree.routes t).map (fun r => (Step.capture :: r.1, r.2))

/-- The leaves reachable through the `fixrouters`. -/
def routesFix : List (GoString × Tree) → List (List Step × leafInfo)
  | [] => []
  | (k, t) :: more =>
    (Tree.routes t).map (fun r => (Step.fixed k :: r.1, r.2)) ++ routesFix more

end

/-- The recorded pattern of a leaf, when it is bound to a controller. -/
def leafPattern (l : leafInfo) : Option GoString :=
  match l.runObject with
  | .controller c => some c.pattern
  | .flag _ => none

/-- The recorded patterns of the controller-bound leaves reachable in a tree. -/
def Tree.patterns (t : Tree) : List GoString :=
  t.routes.filterMap (fun r => leafPattern r.2)

/-- A route reachable in `other` as it is reached below the path `segs`. -/
def under (segs : List GoString) (r : List Step × leafInfo) : List Step × leafInfo :=
  (segs.map Step.fixed ++ r.1, r.2)

/-- The segments of a prefix that is a path of literals, none otherwise. -/
def pathOf (pfx : GoString) : List GoString := (literalPath pfx).getD []

/-- What a lookup finds: the payload and the captured parameters by name. -/
abbrev Match := RunObject × List (GoString × GoString)

/-- The first leaf whose captures are parameters, as many as there are values. -/
def pickExact (ls : List leafInfo) (vals : List GoString) : Option Match :=
  (ls.find? (fun l => l.wildcards.length == vals.length && !l.wildcards.contains splat)).map
    (fun l => (l.runObject, l.wildcards.zip vals))

/-- The first leaf whose last capture is the wildcard, with as many captures as
there are values. -/
def pickSplat (ls : List leafInfo) (vals : List GoString) : Option Match :=
  (ls.find? (fun l => l.wildcards.length == vals.length &&
    l.wildcards.getLast? == some splat)).map
    (fun l => (l.runObject, l.wildcards.zip vals))

/-- Segments joined by `/`. -/
def joinSlash : List GoString → GoString
  | [] => []
  | [s] => s
  | s :: rest => s ++ '/' :: joinSlash rest

/-- The leaves of the `wildcard` child, none when there is no such child. -/
def wildLeaves : Option Tree → List leafInfo
  | none => []
  | some t => t.leaves

mutual

/-- Modelled from the spec: the walk of `Lookup` (§3, §4.2) over the segments of a
path, with the values captured so far.  At each level the literal children are tried
first, in their order; when none leads to a leaf the same remaining path is tried on
the capturing child, first with the segment as one parameter, then with the whole
remaining path as the wildcard. -/
def Tree.lookup : Tree → List GoString → List GoString → Option Match
  | .node _ w ls, [], vals =>
    match pickExact ls vals with
    | some m => some m
    | none => pickSplat (wildLeaves w) (vals ++ [[]])
  | .node fs w _, seg :: rest, vals =>
    match lookupFix fs seg rest vals with
    | some m => some m
    | none => lookupWild w seg rest vals

/-- The literal children whose segment is `seg`, in their order. -/
def lookupFix : List (GoString × Tree) → GoString → List GoString → List GoString →
    Option Match
  | [], _, _, _ => none
  | (k, t) :: more, seg, rest, vals =>
    match (if k = seg then Tree.lookup t rest vals else none) with
    | some m => some m
    | none => lookupFix more seg rest vals

/-- The capturing child. -/
def lookupWild : Option Tree → GoString → List GoString → List GoString → Option Match
  | none, _, _, _ => none
  | some t, seg, rest, vals =>
    match Tree.lookup t rest (vals ++ [seg]) with
    | some m => some m
    | none => pickSplat t.leaves (vals ++ [joinSlash (seg :: rest)])

end

/-- Modelled from the spec: `Lookup(path)` of §4.2 (`Tree.Match` in tree.go):
`none` is the outcome NoMatch. -/
def Tree.Lookup (t : Tree) (path : GoString) : Option Match :=
  t.lookup (splitPath path) []

/-- What one visit of `addPrefix` does to a recorded pattern. -/
def pfxOnce (pfx p : GoString) : GoString := if HasPrefix p pfx then p else pfx ++ p

/-- The leaves reachable in the tree of a map entry, none when the entry is absent. -/
def routesOf (o : Option Tree) : List (List Step × leafInfo) :=
  (o.map Tree.routes).getD []

/-- The recorded patterns of the controller-bound leaves in the tree of a map entry,
none when the entry is absent. -/
def patternsOf (o : Option Tree) : List GoString :=
  (o.map Tree.patterns).getD []

/-- A route of a merged namespace as the receiving tree holds it: below the
segments of the prefix, its leaf visited by `addPrefix`. -/
def prefixed (pfx : GoString) (segs : List GoString) (r : List Step × leafInfo) :
    List Step × leafInfo :=
  (segs.map Step.fixed ++ r.1, addPrefixLeaf pfx r.2)

/-- The tree a registry holds for a method after one round of the loop over the
trees of a merged namespace: `old` is what it held before, `v` the tree merged. -/
def mergedTree (pfx : GoString) (old : Option Tree) (v : Tree) : Option Tree :=
  match old with
  | some t => t.AddTree pfx (addPrefix v pfx)
  | none => (NewTree.AddTree pfx v).map (fun t => addPrefix t pfx)

/-! ## Filter entries, registries, namespaces -/

section Registry

variable {Ctx : Type}

/-- The type `FilterRouter`, with the three fields `Cond` sets.  A filter function
`func(*Context)` is a function from the context before to the context after. -/
structure FilterRouter (Ctx : Type) where
  filterFunc : Ctx → Ctx
  tree : Tree
  pattern : GoString

/-- The type `ControllerRegister`, with the fields `namespace.go` uses: one tree
per HTTP method, one filter list per interception point, and `enableFilter`. -/
structure ControllerRegister (Ctx : Type) where
  routers : List (GoString × Tree)
  filters : List (Int × List (FilterRouter Ctx))
  enableFilter : Bool

/-- The type `Namespace`; `pfx` is the field `prefix`. -/
structure Namespace (Ctx : Type) where
  pfx : GoString
  handlers : ControllerRegister Ctx

/-- Modelled from the spec: `NewControllerRegister` (router.go), a registry without
trees and without filters (§3 Registry, "created once ... per namespace"). -/
def NewControllerRegister : ControllerRegister Ctx :=
  { routers := [], filters := [], enableFilter := false }

/-- Modelled from the spec: `ControllerRegister.insertFilterRouter` (router.go):
the entry is added at the end of the ordered list of its interception point
(§4.4 "adds an entry to the ordered list for `point`", §4.5 "append").  The flag
`enableFilter`, which the merge in `namespace.go` reads, records that the registry
has a filter. -/
def ControllerRegister.insertFilterRouter (p : ControllerRegister Ctx) (pos : Int)
    (mr : FilterRouter Ctx) : ControllerRegister Ctx :=
  { p with
    filters := mapSet p.filters pos (((mapGet p.filters pos).getD []) ++ [mr])
    enableFilter := true }

/-- Modelled from the spec: `ControllerRegister.InsertFilter` (router.go), §4.4: an
entry with the pattern compiled into a tree of its own (§3 FilterEntry), built as
`Cond` builds its entry, is added to the list of the interception point. -/
def ControllerRegister.InsertFilter (p : ControllerRegister Ctx) (pattern : GoString)
    (pos : Int) (filter : Ctx → Ctx) : Option (ControllerRegister Ctx) := do
  let tree ← NewTree.AddRouter pattern (.flag true)
  pure (p.insertFilterRouter pos { filterFunc := filter, tree := tree, pattern := pattern })

/-- A link action, `type LinkNamespace func(*Namespace)`. -/
abbrev LinkNamespace (Ctx : Type) := Namespace Ctx → Option (Namespace Ctx)

/-- The function `NewNamespace`. -/
def NewNamespace (pfx : GoString) (params : List (LinkNamespace Ctx)) :
    Option (Namespace Ctx) :=
  params.foldlM (fun ns p => p ns) { pfx := pfx, handlers := NewControllerRegister }

/-- Modelled from the spec: `ControllerRegister.Get` (router.go): the route is
inserted (§4.2) in the tree the registry owns for the method GET, a tree that is
created when absent (§3 Registry); the payload records the pattern as written. -/
def ControllerRegister.Get (p : ControllerRegister Ctx) (rootpath : GoString) (f : Nat) :
    Option (ControllerRegister Ctx) := do
  let t ← ((mapGet p.routers ['G', 'E', 'T']).getD NewTree).AddRouter rootpath
    (.controller { pattern := rootpath, handler := f })
  pure { p with routers := mapSet p.routers ['G', 'E', 'T'] t }

/-- The method `Namespace.Get`; the function `f` is given by its identity. -/
def Namespace.Get (n : Namespace Ctx) (rootpath : GoString) (f : Nat) :
    Option (Namespace Ctx) :=
  (n.handlers.Get rootpath f).map (fun h => { n with handlers := h })

/-- A condition, `type namespaceCond func(*Context) bool`: its answer and the
context as it leaves it. -/
abbrev namespaceCond (Ctx : Type) := Ctx → Bool × Ctx

variable (exception : GoString → Ctx → Ctx) (BeforeRouter FinishRouter : Int)

/-- The closure `fn` of `Cond`: `if !cond(ctx) { exception("405", ctx) }`. -/
def condFn (cond : namespaceCond Ctx) : Ctx → Ctx := fun ctx =>
  let r := cond ctx
  if !r.1 then exception ['4', '0', '5'] r.2 else r.2

/-- The method `Namespace.Cond`. -/
def Namespace.Cond (n : Namespace Ctx) (cond : namespaceCond Ctx) :
    Option (Namespace Ctx) :=
  let fn := condFn exception cond
  match mapGet n.handlers.filters BeforeRouter with
  | some v => do
    let tree ← NewTree.AddRouter ['*'] (.flag true)
    let mr : FilterRouter Ctx := { filterFunc := fn, tree := tree, pattern := ['*'] }
    pure { n with
      handlers := { n.handlers with
        filters := mapSet n.handlers.filters BeforeRouter (mr :: v) } }
  | none => do
    let h ← n.handlers.InsertFilter ['*'] BeforeRouter fn
    pure { n with handlers := h }

/-- The method `Namespace.Filter`. -/
def Namespace.Filter (n : Namespace Ctx) (action : GoString)
    (filter : List (Ctx → Ctx)) : Option (Namespace Ctx) :=
  let a : Int :=
    if action = ['b', 'e', 'f', 'o', 'r', 'e'] then BeforeRouter
    else if action = ['a', 'f', 't', 'e', 'r'] then FinishRouter
    else 0
  (filter.foldlM (fun (h : ControllerRegister Ctx) f => h.InsertFilter ['*'] a f)
    n.handlers).map
    (fun h => { n with handlers := h })

/-- The function `NSCond`. -/
def NSCond (cond : namespaceCond Ctx) : LinkNamespace Ctx :=
  fun ns => ns.Cond exception BeforeRouter cond

/-- The function `NSBefore`. -/
def NSBefore (filiterList : List (Ctx → Ctx)) : LinkNamespace Ctx :=
  fun ns => ns.Filter BeforeRouter FinishRouter ['b', 'e', 'f', 'o', 'r', 'e'] filiterList

/-- The function `NSAfter`. -/
def NSAfter (filiterList : List (Ctx → Ctx)) : LinkNamespace Ctx :=
  fun ns => ns.Filter BeforeRouter FinishRouter ['a', 'f', 't', 'e', 'r'] filiterList

/-- The entry `Cond` installs for a condition: the closure `fn` under the pattern `*`. -/
def condEntry (cond : namespaceCond Ctx) : FilterRouter Ctx :=
  { filterFunc := condFn exception cond, tree := starTree, pattern := ['*'] }

/-- The entry `Filter` installs for a filter function the user declares. -/
def userEntry (f : Ctx → Ctx) : FilterRouter Ctx :=
  { filterFunc := f, tree := starTree, pattern := ['*'] }

/-- A call on a namespace: `Cond(c)` or `Filter("before", fs...)`. -/
inductive Op (Ctx : Type) where
  | cond (c : namespaceCond Ctx)
  | before (fs : List (Ctx → Ctx))

/-- The call made on a namespace. -/
def Op.run (n : Namespace Ctx) : Op Ctx → Option (Namespace Ctx)
  | .cond c => n.Cond exception BeforeRouter c
  | .before fs => n.Filter BeforeRouter FinishRouter ['b', 'e', 'f', 'o', 'r', 'e'] fs

/-- A sequence of calls, made one after the other. -/
def runOps (ops : List (Op Ctx)) (n : Namespace Ctx) : Option (Namespace Ctx) :=
  ops.foldlM (fun m op => Op.run exception BeforeRouter FinishRouter m op) n

/-- The conditions of a sequence of calls, in the order of the calls. -/
def condsOf : List (Op Ctx) → List (namespaceCond Ctx)
  | [] => []
  | .cond c :: ops => c :: condsOf ops
  | .before _ :: ops => condsOf ops

/-- The filter functions declared by a sequence of calls, in the order of the calls
and, within a call, of its arguments. -/
def usersOf : List (Op Ctx) → List (Ctx → Ctx)
  | [] => []
  | .cond _ :: ops => usersOf ops
  | .before fs :: ops => fs ++ usersOf ops

/-- One round of the loop `for k, v := range ni.handlers.routers` of
`Namespace.Namespace` and of `AddNamespace`, on the trees of the receiving registry.
The second component is the tree `v` of the merged namespace after the round: its
controllers are reached by `addPrefix` in both branches. -/
def mergeRouter (pfx : GoString) (routers : List (GoString × Tree)) (k : GoString)
    (v : Tree) : Option (List (GoString × Tree) × Tree) :=
  match mapGet routers k with
  | some t => do
    let v' := addPrefix v pfx
    let t' ← t.AddTree pfx v'
    pure (mapSet routers k t', v')
  | none => do
    let t ← NewTree.AddTree pfx v
    let t' := addPrefix t pfx
    pure (mapSet routers k t', addPrefix v pfx)

/-- The loop `for k, v := range ni.handlers.routers`: the trees of the receiving
registry and the trees of the merged namespace after it. -/
def mergeRouters (pfx : GoString) :
    List (GoString × Tree) → List (GoString × Tree) →
    Option (List (GoString × Tree) × List (GoString × Tree))
  | [], routers => some (routers, [])
  | (k, v) :: rest, routers => do
    let (r1, v') ← mergeRouter pfx routers k v
    let (r2, rest') ← mergeRouters pfx rest r1
    pure (r2, (k, v') :: rest')

/-- The body of the loop `for _, mr := range filterList` on a registry that holds its
entries as values: the tree of the entry is replaced by a new tree that holds it
under the prefix, and the entry is passed to `insertFilterRouter`.  The second
component is the entry after the assignment `mr.tree = t`.  The assignment reaches
the entry of the merged namespace alone, as it does in the code when the receiving
registry does not hold that entry yet; `mergeFilterRef` below is the body of the
loop on pointers, where an entry that the receiver holds already is changed there
too. -/
def mergeFilterRouter (pfx : GoString) (h : ControllerRegister Ctx) (pos : Int)
    (mr : FilterRouter Ctx) : Option (ControllerRegister Ctx × FilterRouter Ctx) := do
  let t ← NewTree.AddTree pfx mr.tree
  let mr' := { mr with tree := t }
  pure (h.insertFilterRouter pos mr', mr')

/-- The loop `for _, mr := range filterList`. -/
def mergeFilterList (pfx : GoString) (pos : Int) :
    List (FilterRouter Ctx) → ControllerRegister Ctx →
    Option (ControllerRegister Ctx × List (FilterRouter Ctx))
  | [], h => some (h, [])
  | mr :: rest, h => do
    let (h1, mr') ← mergeFilterRouter pfx h pos mr
    let (h2, rest') ← mergeFilterList pfx pos rest h1
    pure (h2, mr' :: rest')

/-- The loop `for pos, filterList := range ni.handlers.filters`. -/
def mergeFilters (pfx : GoString) :
    List (Int × List (FilterRouter Ctx)) → ControllerRegister Ctx →
    Option (ControllerRegister Ctx × List (Int × List (FilterRouter Ctx)))
  | [], h => some (h, [])
  | (pos, filterList) :: rest, h => do
    let (h1, l') ← mergeFilterList pfx pos filterList h
    let (h2, rest') ← mergeFilters pfx rest h1
    pure (h2, (pos, l') :: rest')

/-- The body of the loop over the namespaces, which `Namespace.Namespace` runs on
`n.handlers` and `AddNamespace` on `BeeApp.Handlers`: the receiving registry and
the merged namespace after it. -/
def mergeNamespace (h : ControllerRegister Ctx) (ni : Namespace Ctx) :
    Option (ControllerRegister Ctx × Namespace Ctx) := do
  let (routers, niRouters) ← mergeRouters ni.pfx ni.handlers.routers h.routers
  let h1 := { h with routers := routers }
  if ni.handlers.enableFilter then
    let (h2, niFilters) ← mergeFilters ni.pfx ni.handlers.filters h1
    pure (h2, { ni with
      handlers := { ni.handlers with routers := niRouters, filters := niFilters } })
  else
    pure (h1, { ni with handlers := { ni.handlers with routers := niRouters } })

/-- The loop over the namespaces; the namespaces of one call are distinct objects. -/
def mergeNamespaces :
    List (Namespace Ctx) → ControllerRegister Ctx →
    Option (ControllerRegister Ctx × List (Namespace Ctx))
  | [], h => some (h, [])
  | ni :: rest, h => do
    let (h1, ni') ← mergeNamespace h ni
    let (h2, rest') ← mergeNamespaces rest h1
    pure (h2, ni' :: rest')

set_option linter.dupNamespace false in
/-- The method `Namespace.Namespace`: the receiver after the call, and the nested
namespaces as the call leaves them. -/
def Namespace.Namespace (n : Namespace Ctx) (ns : List (Namespace Ctx)) :
    Option (Namespace Ctx × List (Namespace Ctx)) :=
  (mergeNamespaces ns n.handlers).map (fun r => ({ n with handlers := r.1 }, r.2))

/-- The function `AddNamespace`; the first argument is the registry
`BeeApp.Handlers`. -/
def AddNamespace (beeAppHandlers : ControllerRegister Ctx) (nl : List (Namespace Ctx)) :
    Option (ControllerRegister Ctx × List (Namespace Ctx)) :=
  mergeNamespaces nl beeAppHandlers

/-- The function `NSGet`. -/
def NSGet (rootpath : GoString) (f : Nat) : LinkNamespace Ctx :=
  fun ns => ns.Get rootpath f

/-- The function `NSNamespace`. -/
def NSNamespace (pfx : GoString) (params : List (LinkNamespace Ctx)) : LinkNamespace Ctx :=
  fun ns => do
    let n ← NewNamespace pfx params
    let r ← ns.Namespace [n]
    pure r.1

/-- A filter entry with its tree held under the prefix in a new tree. -/
def reroot (pfx : GoString) (mr : FilterRouter Ctx) : Option (FilterRouter Ctx) :=
  (NewTree.AddTree pfx mr.tree).map (fun t => { mr with tree := t })

/-- The entries of a list, each re-rooted, in their order. -/
def rerootList (pfx : GoString) : List (FilterRouter Ctx) → Option (List (FilterRouter Ctx))
  | [] => some []
  | mr :: rest => do
    let mr' ← reroot pfx mr
    let rest' ← rerootList pfx rest
    pure (mr' :: rest')

/-- The flag `enableFilter` is set when the filter map has an entry. -/
def flagSet (p : ControllerRegister Ctx) : Bool := p.filters.isEmpty || p.enableFilter

/-- The filter list of an interception point, empty when the map has no entry. -/
def filtersAt (p : ControllerRegister Ctx) (pos : Int) : List (FilterRouter Ctx) :=
  (mapGet p.filters pos).getD []

end Registry

/-! ## Concrete namespaces -/

/-- A namespace without prefix, routes and filters, on the context type `Unit`. -/
def exParent : Namespace Unit := { pfx := [], handlers := NewControllerRegister }

/-- The namespace `NewNamespace("/a", NSGet("/ab", f))`. -/
def exNsA : Namespace Unit :=
  (NewNamespace "/a".toList [NSGet "/ab".toList 1]).getD exParent

/-- The namespace `NewNamespace("/v1", NSGet("/shop/:id", f))`. -/
def exV1Shop : Namespace Unit :=
  (NewNamespace "/v1".toList [NSGet "/shop/:id".toList 1]).getD exParent

/-- The namespace `NewNamespace("/v1")`. -/
def exV1 : Namespace Unit := { pfx := "/v1".toList, handlers := NewControllerRegister }

/-- The namespace `NewNamespace("/s")`. -/
def exS : Namespace Unit := { pfx := "/s".toList, handlers := NewControllerRegister }

/-- The namespace `NewNamespace("/shop", NSGet("/:id", f))`. -/
def exShop : Namespace Unit :=
  (NewNamespace "/shop".toList [NSGet "/:id".toList 1]).getD exParent

/-- The namespace `NewNamespace("/v1", NSGet("/shop/:id", f), NSBefore(g), NSCond(c))`,
with 1 for `BeforeRouter` and 4 for `FinishRouter`. -/
def exGuarded : Namespace Unit :=
  (NewNamespace "/v1".toList
    [NSGet "/shop/:id".toList 1, NSBefore 1 4 [id],
      NSCond (fun _ c => c) 1 (fun c => (true, c))]).getD exParent

/-- The result of merging `exV1Shop` into `exParent`. -/
def exMerged : Namespace Unit × List (Namespace Unit) :=
  (exParent.Namespace [exV1Shop]).getD (exParent, [])

/-- The tree `exV1Shop` holds for GET. -/
def exShopTree : Tree :=
  (mapGet exV1Shop.handlers.routers "GET".toList).getD NewTree

/-- The result of nesting `exShop` into `exV1`. -/
def exNested : Namespace Unit × List (Namespace Unit) :=
  (exV1.Namespace [exShop]).getD (exParent, [])

/-- The result of merging the namespace of `exNested` into `exParent`. -/
def exNestedMerged : Namespace Unit × List (Namespace Unit) :=
  (exParent.Namespace [exNested.1]).getD (exParent, [])

/-- The tree `exShop` holds for GET. -/
def exIdTree : Tree :=
  (mapGet exShop.handlers.routers "GET".toList).getD NewTree

/-- The tree of the one route `/shop/:id`, bound to `f`, recording `pattern`. -/
def shopIdTree (pattern : GoString) (f : Nat) : Tree :=
  .node [("shop".toList, .node [] (some (.node [] none
    [⟨["id".toList], .controller { pattern := pattern, handler := f }⟩])) [])] none []

/-- The namespace `NewNamespace("/v1", NSGet("/shop/:id", f))`. -/
def nsV1Shop (Ctx : Type) (f : Nat) : Namespace Ctx :=
  { pfx := "/v1".toList,
    handlers := { routers := [("GET".toList, shopIdTree "/shop/:id".toList f)],
                  filters := [], enableFilter := false } }

/-- The namespace `NewNamespace("/v1", NSGet("/shop", f))`. -/
def exL1 : Namespace Unit :=
  (NewNamespace "/v1".toList [NSGet "/shop".toList 1]).getD exParent

/-- The namespace `NewNamespace("/v1", NSGet("/shop", g))` of a second registration. -/
def exL2 : Namespace Unit :=
  (NewNamespace "/v1".toList [NSGet "/shop".toList 2]).getD exParent

/-- The result of merging `exL1` into `exParent`. -/
def exL1Merged : Namespace Unit × List (Namespace Unit) :=
  (exParent.Namespace [exL1]).getD (exParent, [])

/-- The result of merging `exL2` after `exL1`. -/
def exL12Merged : Namespace Unit × List (Namespace Unit) :=
  (exL1Merged.1.Namespace [exL2]).getD (exParent, [])

/-! ## The request input (`context/input.go`) -/

/-- The Go call `strings.Split(s, sep)` for a separator of one character: the pieces
of `s` between the occurrences of `sep`; a string without `sep` is its only piece. -/
def strSplit : GoString → Char → List GoString
  | [], _ => [[]]
  | c :: cs, sep =>
    if c = sep then [] :: strSplit cs sep
    else
      match strSplit cs sep with
      | [] => [[c]]
      | p :: ps => (c :: p) :: ps

/-- The Go call `strings.Join(parts, sep)`. -/
def strJoin : List GoString → GoString → GoString
  | [], _ => []
  | [p], _ => p
  | p :: q :: rest, sep => p ++ sep ++ strJoin (q :: rest) sep

/-- The Go call `strings.Index(s, sep)` for a separator of one character: the
position of its first occurrence, `-1` when there is none. -/
def strIndex : GoString → Char → Int
  | [], _ => -1
  | c :: cs, sep =>
    if c = sep then 0
    else
      let i := strIndex cs sep
      if i = -1 then -1 else i + 1

/-- The value of a decimal digit. -/
def digitVal (c : Char) : Option Nat :=
  if '0' ≤ c ∧ c ≤ '9' then some (c.toNat - '0'.toNat) else none

/-- The number written by a list of decimal digits, `none` when one of the
characters is no digit. -/
def digitsVal : List Char → Nat → Option Nat
  | [], acc => some acc
  | c :: cs, acc =>
    match digitVal c with
    | some d => digitsVal cs (10 * acc + d)
    | none => none

/-- The error of a conversion of `strconv`: `ErrSyntax` or `ErrRange`. -/
inductive NumError where
  | badInput
  | outOfRange
deriving DecidableEq

/-- The loop of `strconv.ParseUint(s, 10, 64)` from the value `n` on.  The bytes are
read in order: a byte that is no decimal digit gives 0 and `ErrSyntax`; a digit with
which the value leaves the range of `uint64` gives the largest `uint64` and
`ErrRange`, and the bytes after it are not read. -/
def parseUintLoop : List Char → Nat → Nat × Option NumError
  | [], n => (n, none)
  | c :: cs, n =>
    match digitVal c with
    | none => (0, some .badInput)
    | some d =>
      if n ≥ (2 ^ 64 - 1) / 10 + 1 then (2 ^ 64 - 1, some .outOfRange)
      else if n * 10 + d > 2 ^ 64 - 1 then (2 ^ 64 - 1, some .outOfRange)
      else parseUintLoop cs (n * 10 + d)

/-- The Go call `strconv.ParseUint(s, 10, 64)`: the value and the error. -/
def ParseUint (s : GoString) : Nat × Option NumError :=
  if s = [] then (0, some .badInput) else parseUintLoop s 0

/-- The Go call `strconv.ParseInt(s, 10, 64)`, which is also `ParseInt(s, 10, 0)` on
a 64-bit platform: the sign is picked off, the rest is read by `ParseUint`, and a
value out of the range of `int64` gives the nearest bound and `ErrRange`. -/
def ParseInt (s : GoString) : Int × Option NumError :=
  if s = [] then (0, some .badInput)
  else
    let neg : Bool := s.head? = some '-'
    let s1 := if s.head? = some '+' ∨ s.head? = some '-' then s.tail else s
    match ParseUint s1 with
    | (_, some .badInput) => (0, some .badInput)
    | (un, _) =>
      if neg = false ∧ un ≥ 2 ^ 63 then ((2 ^ 63 - 1 : Int), some .outOfRange)
      else if neg = true ∧ un > 2 ^ 63 then (-(2 ^ 63 : Int), some .outOfRange)
      else (if neg then -(un : Int) else (un : Int), none)

/-- The Go call `strconv.Atoi(s)`, which is `ParseInt(s, 10, 0)`: the value and the
flag `err == nil`. -/
def Atoi (s : GoString) : Int × Bool :=
  ((ParseInt s).1, (ParseInt s).2 = none)

/-- The values of a key in an `http.Header` or in `url.Values`: the Go call `Get`
gives the first one, the empty string when there is none.  The keys of a header are
taken in their canonical form, as the keys written in the source are. -/
def valuesGet (m : List (GoString × List GoString)) (key : GoString) : GoString :=
  match mapGet m key with
  | some (v :: _) => v
  | _ => []

/-- The fields of `http.Request` that `input.go` reads. -/
structure Request where
  Host : GoString
  RemoteAddr : GoString
  Header : List (GoString × List GoString)
  Form : List (GoString × List GoString)
deriving DecidableEq

/-- The type `Context` (context.go), of which `input.go` reads the request. -/
structure Context where
  Request : Request
deriving DecidableEq

/-- The type `gowebInput`: the context, a pointer that is `nil` after `NewInput`,
and the names and values of the router parameters.  The fields `CruSession`, `data`
and `RequestBody` are read by none of the functions below. -/
structure gowebInput where
  Context : Option Context
  pnames : List GoString
  pvalues : List GoString
deriving DecidableEq

/-- The function `NewInput`. -/
def NewInput : gowebInput :=
  { Context := none, pnames := [], pvalues := [] }

/-- The method `Reset`. -/
def gowebInput.Reset (_input : gowebInput) (ctx : Option Goweb.Context) : gowebInput :=
  { Context := ctx, pnames := [], pvalues := [] }

/-- The method `Host`; `none` is the panic on a `nil` context. -/
def gowebInput.Host (input : gowebInput) : Option GoString := do
  let ctx ← input.Context
  if ctx.Request.Host ≠ [] then
    match strSplit ctx.Request.Host ':' with
    | h :: _ => pure h
    | [] => pure ctx.Request.Host
  else
    pure "localhost".toList

/-- The method `Header`. -/
def gowebInput.Header (input : gowebInput) (key : GoString) : Option GoString := do
  let ctx ← input.Context
  pure (valuesGet ctx.Request.Header key)

/-- The method `Proxy`. -/
def gowebInput.Proxy (input : gowebInput) : Option (List GoString) := do
  let ips ← input.Header "X-Forwarded-For".toList
  if ips ≠ [] then pure (strSplit ips ',') else pure []

/-- The second half of `IP`, which reads `RemoteAddr`. -/
def gowebInput.remoteIP (input : gowebInput) : Option GoString := do
  let ctx ← input.Context
  match strSplit ctx.Request.RemoteAddr ':' with
  | ip0 :: _ => if ip0 ≠ ['['] then pure ip0 else pure "127.0.0.1".toList
  | [] => pure "127.0.0.1".toList

/-- The method `IP`; indexing an empty slice is the panic `none`. -/
def gowebInput.IP (input : gowebInput) : Option GoString := do
  let ips ← input.Proxy
  match ips with
  | ip0 :: _ =>
    if ip0 ≠ [] then
      match strSplit ip0 ':' with
      | r :: _ => pure r
      | [] => none
    else input.remoteIP
  | [] => input.remoteIP

/-- The method `SubDomains`. -/
def gowebInput.SubDomains (input : gowebInput) : Option GoString := do
  let host ← input.Host
  let parts := strSplit host '.'
  if parts.length ≥ 3 then pure (strJoin (parts.take (parts.length - 2)) ['.'])
  else pure []

/-- The method `Port`. -/
def gowebInput.Port (input : gowebInput) : Option Int := do
  let ctx ← input.Context
  match strSplit ctx.Request.Host ':' with
  | [_, p] => pure (Atoi p).1
  | _ => pure 80

/-- The method `ParamsLen`. -/
def gowebInput.ParamsLen (input : gowebInput) : Nat := input.pnames.length

/-- The loop of `Param` from the index `i` on; `none` is the panic of an index out
of range. -/
def paramLoop (key : GoString) (pvalues : List GoString) :
    List GoString → Nat → Option GoString
  | [], _ => some []
  | v :: rest, i =>
    if v = key ∧ i ≤ pvalues.length then pvalues[i]?
    else paramLoop key pvalues rest (i + 1)

/-- The method `Param`. -/
def gowebInput.Param (input : gowebInput) (key : GoString) : Option GoString :=
  paramLoop key input.pvalues input.pnames 0

/-- The loop of `Params` from the index `i` on, with the map built so far. -/
def paramsLoop (pvalues : List GoString) :
    List GoString → Nat → List (GoString × GoString) → Option (List (GoString × GoString))
  | [], _, m => some m
  | v :: rest, i, m =>
    if i ≤ pvalues.length then
      match pvalues[i]? with
      | some x => paramsLoop pvalues rest (i + 1) (mapSet m v x)
      | none => none
    else paramsLoop pvalues rest (i + 1) m

/-- The method `Params`. -/
def gowebInput.Params (input : gowebInput) : Option (List (GoString × GoString)) :=
  paramsLoop input.pvalues input.pnames 0 []

/-- The loop of `SetParam` from the index `i` on: the values after the assignment
when the key is found, `some none` when the loop ends without it, `none` for the
panic of an index out of range. -/
def setParamLoop (key val : GoString) (pvalues : List GoString) :
    List GoString → Nat → Option (Option (List GoString))
  | [], _ => some none
  | v :: rest, i =>
    if v = key ∧ i ≤ pvalues.length then
      if i < pvalues.length then some (some (pvalues.set i val)) else none
    else setParamLoop key val pvalues rest (i + 1)

/-- The method `SetParam`. -/
def gowebInput.SetParam (input : gowebInput) (key val : GoString) : Option gowebInput :=
  match setParamLoop key val input.pvalues input.pnames 0 with
  | none => none
  | some (some pvalues) => some { input with pvalues := pvalues }
  | some none =>
    some { input with pvalues := input.pvalues ++ [val], pnames := input.pnames ++ [key] }

/-- A call on a parameter store: `SetParam(key, val)` or `Reset(ctx)`. -/
inductive InputOp where
  | setParam (key val : GoString)
  | reset (ctx : Option Context)
deriving DecidableEq

/-- The call made on a store. -/
def InputOp.run (input : gowebInput) : InputOp → Option gowebInput
  | .setParam key val => input.SetParam key val
  | .reset ctx => some (input.Reset ctx)

/-- A sequence of calls, made one after the other. -/
def runInput (ops : List InputOp) (input : gowebInput) : Option gowebInput :=
  ops.foldlM InputOp.run input

/-- A sequence of `SetParam` calls, one for each pair of key and value. -/
def setParams (sets : List (GoString × GoString)) (input : gowebInput) :
    Option gowebInput :=
  runInput (sets.map (fun e => InputOp.setParam e.1 e.2)) input

/-- The value most recently given to a key by a sequence of pairs. -/
def lastSet : List (GoString × GoString) → GoString → Option GoString
  | [], _ => none
  | (k, v) :: rest, key =>
    match lastSet rest key with
    | some x => some x
    | none => if k = key then some v else none

/-- The method `Query`; the form is taken as parsed. -/
def gowebInput.Query (input : gowebInput) (key : GoString) : Option GoString := do
  let val ← input.Param key
  if val ≠ [] then pure val
  else
    let ctx ← input.Context
    pure (valuesGet ctx.Request.Form key)

/-- The names and values of a store match in number and no name occurs twice. -/
def gowebInput.wf (s : gowebInput) : Prop :=
  s.pnames.length = s.pvalues.length ∧ s.pnames.Nodup

/-- The pairs given by the `SetParam` calls of a sequence that come after its last
`Reset`, in the order of the calls. -/
def sinceReset (ops : List InputOp) : List (GoString × GoString) :=
  ops.foldl (fun acc op =>
    match op with
    | .setParam k v => acc ++ [(k, v)]
    | .reset _ => []) []

/-- The map that a sequence of assignments `m[k] = v` builds from `m`. -/
def mapSetAll (m : List (GoString × GoString)) (sets : List (GoString × GoString)) :
    List (GoString × GoString) :=
  sets.foldl (fun acc e => mapSet acc e.1 e.2) m

/-- The host name of a request: `Request.Host` up to its first `:`, and `localhost`
when `Request.Host` is empty. -/
def hostName (r : Request) : GoString :=
  if r.Host = [] then "localhost".toList else r.Host.takeWhile (fun c => c ≠ ':')

/-- A request with the given host, remote address and header, and an empty form. -/
def exRequest (host remoteAddr : GoString) (header : List (GoString × List GoString)) :
    Request :=
  { Host := host, RemoteAddr := remoteAddr, Header := header, Form := [] }

/-- The input of a context that holds the request `r`, as `Reset` leaves it. -/
def exInput (r : Request) : gowebInput :=
  NewInput.Reset (some { Request := r })

/-- A request that came through a proxy. -/
def exForwarded : Context :=
  { Request := exRequest "example.com".toList "1.2.3.4:55".toList
      [("X-Forwarded-For".toList, ["9.9.9.9:1, 8.8.8.8".toList])] }

/-! ## Binding a slice (`bindSlice` in `context/input.go`) -/

/-- The type `sliceValue`: the index taken from the brackets, `-1` when there is
none, and the bound value. -/
structure sliceValue (α : Type) where
  index : Int
  value : α

/-- The value of an `int` expression on a 64-bit platform: the number modulo `2^64`
in the signed range. -/
def wrapInt (x : Int) : Int := (x + 2 ^ 63) % 2 ^ 64 - 2 ^ 63

/-- The Go slice expression `s[lo:hi]` for bounds within the string. -/
def strSlice (s : GoString) (lo hi : Nat) : GoString := (s.take hi).drop lo

/-- The index that `bindSlice` extracts from a request key that begins with
`key + "["`, and the position `subKeyIndex` where a sub-key starts. -/
def sliceIndex (key reqKey : GoString) : Int × Int :=
  let leftBracket : Int := key.length
  let rightBracket : Int := strIndex (reqKey.drop key.length) ']' + key.length
  let index : Int :=
    if rightBracket > leftBracket + 1 then
      (Atoi (strSlice reqKey (leftBracket + 1).toNat rightBracket.toNat)).1
    else -1
  (index, rightBracket + 1)

/-- The variables of the first loop of `bindSlice`.  The count `numNoIndex` is a
number of values held in memory, which stays below `2^63`. -/
structure bindSliceState (α : Type) where
  maxIndex : Int
  numNoIndex : Nat
  sliceValues : List (sliceValue α)

/-- One round of the first loop of `bindSlice`, for the request key `e.1` with the
values `e.2`.  The parameters `bind` and `bindValue` are the calls
`input.bind(·, typ.Elem())` and `input.bindValue(·, typ.Elem())` for the element
type of the slice; `none` is a panic in one of them. -/
def bindSliceStep {α : Type} (bind bindValue : GoString → Option α) (key : GoString)
    (st : bindSliceState α) (e : GoString × List GoString) : Option (bindSliceState α) :=
  if ¬ HasPrefix e.1 (key ++ ['[']) then some st
  else if (sliceIndex key e.1).1 > -1 then do
    let v ← bind (e.1.take (sliceIndex key e.1).2.toNat)
    pure { maxIndex :=
             if (sliceIndex key e.1).1 > st.maxIndex then (sliceIndex key e.1).1
             else st.maxIndex,
           numNoIndex := st.numNoIndex,
           sliceValues := st.sliceValues ++ [⟨(sliceIndex key e.1).1, v⟩] }
  else do
    let svs ← e.2.foldlM
      (fun (acc : List (sliceValue α)) val => do
        let v ← bindValue val
        pure (acc ++ [⟨-1, v⟩]))
      st.sliceValues
    pure { maxIndex := st.maxIndex,
           numNoIndex := st.numNoIndex + e.2.length,
           sliceValues := svs }

/-- The Go call `reflect.MakeSlice(typ, len, cap)`: a slice of `len` zero values.
It panics on a negative length or capacity, when `len > cap`, and when the runtime
refuses the size of the array: `maxCap` is the largest capacity it allocates for
the element type.  Running out of memory below that bound is not modelled. -/
def MakeSlice {α : Type} (maxCap : Nat) (zero : α) (len cap : Int) : Option (List α) :=
  if len < 0 ∨ cap < 0 ∨ len > cap ∨ cap > maxCap then none
  else some (List.replicate len.toNat zero)

/-- One round of the second loop of `bindSlice`: `Index(sv.index).Set(sv.value)`,
which panics on an index out of range, or `reflect.Append`. -/
def fillStep {α : Type} (resultArray : List α) (sv : sliceValue α) : Option (List α) :=
  if sv.index ≠ -1 then
    if 0 ≤ sv.index ∧ sv.index < resultArray.length then
      some (resultArray.set sv.index.toNat sv.value)
    else none
  else some (resultArray ++ [sv.value])

/-- The method `bindSlice`, for the request keys `params` in the order in which the
loop over the map visits them; `maxCap` is the bound of `MakeSlice`. -/
def bindSlice {α : Type} (maxCap : Nat) (bind bindValue : GoString → Option α) (zero : α)
    (params : List (GoString × List GoString)) (key : GoString) : Option (List α) := do
  let st ← params.foldlM (bindSliceStep bind bindValue key)
    { maxIndex := -1, numNoIndex := 0, sliceValues := [] }
  let resultArray ← MakeSlice maxCap zero (wrapInt (st.maxIndex + 1))
    (wrapInt (wrapInt (st.maxIndex + 1) + st.numNoIndex))
  st.sliceValues.foldlM fillStep resultArray

/-- The method `bindString`. -/
def gowebInput.bindString (_input : gowebInput) (val : GoString) : GoString := val

/-- The method `bindInt`: the value of `strconv.ParseInt(val, 10, 64)`, and the zero
value on an error. -/
def gowebInput.bindInt (_input : gowebInput) (val : GoString) : Int :=
  if (ParseInt val).2 = none then (ParseInt val).1 else 0

/-- The method `bind` at the type `string`. -/
def gowebInput.bind_String (input : gowebInput) (key : GoString) : Option GoString := do
  let val ← input.Query key
  if val.length = 0 then pure [] else pure (input.bindString val)

/-- The method `bind` at the type `int`. -/
def gowebInput.bind_Int (input : gowebInput) (key : GoString) : Option Int := do
  let val ← input.Query key
  if val.length = 0 then pure 0 else pure (input.bindInt val)

/-- The method `bind` at the type `[]string`: the case `reflect.Slice`. -/
def gowebInput.bind_SliceString (input : gowebInput) (maxCap : Nat) (key : GoString) :
    Option (List GoString) := do
  let ctx ← input.Context
  bindSlice maxCap input.bind_String (fun val => some (input.bindString val)) []
    ctx.Request.Form key

/-- The method `bind` at the type `[]int`: the case `reflect.Slice`. -/
def gowebInput.bind_SliceInt (input : gowebInput) (maxCap : Nat) (key : GoString) :
    Option (List Int) := do
  let ctx ← input.Context
  bindSlice maxCap input.bind_Int (fun val => some (input.bindInt val)) 0
    ctx.Request.Form key

/-- The entries of a form whose request key begins with `key + "["`. -/
def sliceEntries (params : List (GoString × List GoString)) (key : GoString) :
    List (GoString × List GoString) :=
  params.filter (fun e => HasPrefix e.1 (key ++ ['[']))

/-- The bracketed indices of the request keys of a form, those above `-1`. -/
def sliceIndices (params : List (GoString × List GoString)) (key : GoString) :
    List Int :=
  ((sliceEntries params key).map (fun e => (sliceIndex key e.1).1)).filter
    (fun i => i > -1)

/-- The largest bracketed index of a form, `-1` when there is none. -/
def maxIndexOf (params : List (GoString × List GoString)) (key : GoString) : Int :=
  (sliceIndices params key).foldl max (-1)

/-- The values of a form that are given without an index, in the order of the form. -/
def noIndexValues (params : List (GoString × List GoString)) (key : GoString) :
    List GoString :=
  ((sliceEntries params key).filter
    (fun e => ¬ (sliceIndex key e.1).1 > -1)).flatMap (fun e => e.2)

/-- The slice values that the first loop of `bindSlice` collects when `bind` and
`bindValue` return `b` and `bv`. -/
def collected {α : Type} (b bv : GoString → α) (key : GoString)
    (e : GoString × List GoString) : List (sliceValue α) :=
  if ¬ HasPrefix e.1 (key ++ ['[']) then []
  else if (sliceIndex key e.1).1 > -1 then
    [⟨(sliceIndex key e.1).1, b (e.1.take (sliceIndex key e.1).2.toNat)⟩]
  else e.2.map (fun val => ⟨-1, bv val⟩)

/-- The indexed assignments of a list of slice values, made in order. -/
def setAll {α : Type} (base : List α) (svs : List (sliceValue α)) : List α :=
  svs.foldl (fun acc sv => if sv.index ≠ -1 then acc.set sv.index.toNat sv.value else acc)
    base

/-- The values of the slice values without an index, in order. -/
def appended {α : Type} (svs : List (sliceValue α)) : List α :=
  (svs.filter (fun sv => sv.index = -1)).map (fun sv => sv.value)

/-- The input of a request whose parsed form is `form`. -/
def exForm (form : List (GoString × List GoString)) : gowebInput :=
  exInput { Host := [], RemoteAddr := [], Header := [], Form := form }

/-- The form of `ol[0]=1&ol[1]=2&ul[]=str&ul[]=array`. -/
def exParseForm : List (GoString × List GoString) :=
  [("ol[0]".toList, ["1".toList]), ("ol[1]".toList, ["2".toList]),
   ("ul[]".toList, ["str".toList, "array".toList])]

/-- The form of `ol[0]=1&ol[0]=2`. -/
def exTwiceForm : List (GoString × List GoString) :=
  [("ol[0]".toList, ["1".toList, "2".toList])]

/-- A capacity for the examples, `2^44` elements. -/
def exMaxCap : Nat := 2 ^ 44

/-- The form of `ol[9223372036854775807]=x`. -/
def exHugeForm : List (GoString × List GoString) :=
  [("ol[9223372036854775807]".toList, ["x".toList])]

/-- The form of `ol[99999999999999999999x]=x`. -/
def exRangeForm : List (GoString × List GoString) :=
  [("ol[99999999999999999999x]".toList, ["x".toList])]

/-- The form of `ol[1]=b&ol[]=x&ol[]=y`. -/
def exMixedForm : List (GoString × List GoString) :=
  [("ol[1]".toList, ["b".toList]), ("ol[]".toList, ["x".toList, "y".toList])]

/-! ## The listen settings (`Run` in `goweb.go`) -/

/-- The settings `BConfig.Listen.HTTPAddr` and `BConfig.Listen.HTTPPort`, the two
fields of the configuration that `Run` writes. -/
structure Listen where
  HTTPAddr : GoString
  HTTPPort : Int
deriving DecidableEq

/-- The function `Run` between `initBeforeHTTPRun()` and `BeeApp.Run()`: the listen
settings with which the application is started, from the settings that the hooks
leave. -/
def Run (params : List GoString) (listen : Listen) : Listen :=
  match params with
  | p0 :: _ =>
    if p0 ≠ [] then
      let strs := strSplit p0 ':'
      let l1 :=
        match strs with
        | s0 :: _ => if s0 ≠ [] then { listen with HTTPAddr := s0 } else listen
        | [] => listen
      match strs with
      | _ :: s1 :: _ => if s1 ≠ [] then { l1 with HTTPPort := (Atoi s1).1 } else l1
      | _ => l1
    else listen
  | [] => listen

/-- The part of a string between its first `:` and the next one, empty when the
string has no `:`. -/
def afterColon (s : GoString) : GoString :=
  ((s.dropWhile (fun c => c ≠ ':')).drop 1).takeWhile (fun c => c ≠ ':')

/-- A store with one name and no value, which no sequence of calls reaches: at the
index 0 the guard `i <= len(input.pvalues)` holds and the index is out of range. -/
def exShortStore : gowebInput :=
  { Context := none, pnames := ["a".toList], pvalues := [] }

/-! ## Template extensions and static paths (`template.go`) -/

/-- The Go call `strings.HasSuffix(s, suffix)`. -/
def HasSuffix (s suffix : GoString) : Bool := suffix.isSuffixOf s

/-- The variable `beeTemplateExt` as it is initialised. -/
def beeTemplateExt : List GoString := ["tpl".toList, "html".toList]

/-- The function `HasTemplateExt`, on the value `exts` of `beeTemplateExt`. -/
def HasTemplateExt : List GoString → GoString → Bool
  | [], _ => false
  | v :: rest, paths =>
    if HasSuffix paths ('.' :: v) then true else HasTemplateExt rest paths

/-- The function `AddTemplateExt`: the value of `beeTemplateExt` after the call. -/
def AddTemplateExt (exts : List GoString) (ext : GoString) : List GoString :=
  if exts.any (fun v => v = ext) then exts else exts ++ [ext]

/-- The Go call `strings.TrimRight(s, cutset)` for a cutset of one character: `s`
without the characters `c` at its end. -/
def TrimRight (s : GoString) (c : Char) : GoString :=
  (s.reverse.dropWhile (fun x => x = c)).reverse

/-- The Go statement `delete(m, k)`. -/
def mapDelete {K V : Type} [DecidableEq K] (m : List (K × V)) (k : K) : List (K × V) :=
  m.filter (fun e => e.1 ≠ k)

/-- The function `SetStaticPath`: the map `BConfig.WebConfig.StaticDir` after the
call. -/
def SetStaticPath (url path : GoString) (StaticDir : List (GoString × GoString)) :
    List (GoString × GoString) :=
  let url := if !HasPrefix url ['/'] then ['/'] ++ url else url
  let url := if url ≠ ['/'] then TrimRight url '/' else url
  mapSet StaticDir url path

/-- The function `DelStaticPath`: the map `BConfig.WebConfig.StaticDir` after the
call. -/
def DelStaticPath (url : GoString) (StaticDir : List (GoString × GoString)) :
    List (GoString × GoString) :=
  let url := if !HasPrefix url ['/'] then ['/'] ++ url else url
  let url := if url ≠ ['/'] then TrimRight url '/' else url
  mapDelete StaticDir url

/-- A url with a leading `/` added when it has none. -/
def withSlash (url : GoString) : GoString :=
  if url.head? = some '/' then url else '/' :: url

/-- The normalised url: a leading `/` added when missing, the `/` at the end removed
unless the url is `/`. -/
def normalised (url : GoString) : GoString :=
  if withSlash url = ['/'] then ['/'] else TrimRight (withSlash url) '/'

/-! ## The request builder (`httplib/httplib.go`) -/

/-- The fields of `gowebHTTPRequest` that `Param`, `DoRequest` and the GET branch of
`buildURL` read and write: the url, the method of the request and the parameters. -/
structure gowebHTTPRequest where
  url : GoString
  Method : GoString
  params : List (GoString × List GoString)
deriving DecidableEq

/-- The function `NewgowebRequest`. -/
def NewgowebRequest (rawurl method : GoString) : gowebHTTPRequest :=
  { url := rawurl, Method := method, params := [] }

/-- The function `Get` of `httplib`. -/
def httplibGet (url : GoString) : gowebHTTPRequest := NewgowebRequest url "GET".toList

/-- The method `Param`. -/
def gowebHTTPRequest.Param (b : gowebHTTPRequest) (key value : GoString) :
    gowebHTTPRequest :=
  match mapGet b.params key with
  | some param => { b with params := mapSet b.params key (param ++ [value]) }
  | none => { b with params := mapSet b.params key [value] }

/-- The method `buildURL`, of which the branch for GET writes `b.url`; the branch
for POST, PUT and PATCH writes the body and a header and leaves `b.url`. -/
def gowebHTTPRequest.buildURL (b : gowebHTTPRequest) (paramBody : GoString) :
    gowebHTTPRequest :=
  if b.Method = "GET".toList ∧ paramBody.length > 0 then
    if strIndex b.url '?' ≠ -1 then { b with url := b.url ++ ['&'] ++ paramBody }
    else { b with url := b.url ++ ['?'] ++ paramBody }
  else b

/-- The two loops of `DoRequest` that fill the buffer, over the entries of
`b.params` in the order `it` in which `range` visits them; `escape` is
`url.QueryEscape`. -/
def writeParams (escape : GoString → GoString) (it : List (GoString × List GoString)) :
    GoString :=
  it.foldl (fun buf e =>
    e.2.foldl (fun buf vv => buf ++ escape e.1 ++ ['='] ++ escape vv ++ ['&']) buf) []

/-- The method `DoRequest` up to the call of `url.Parse`: the request with the url
that is parsed and used.  The slice `paramBody[0 : len(paramBody)-1]` panics on an
empty buffer. -/
def gowebHTTPRequest.DoRequest (escape : GoString → GoString) (b : gowebHTTPRequest)
    (it : List (GoString × List GoString)) : Option gowebHTTPRequest := do
  let paramBody ←
    if b.params.length > 0 then
      let buf := writeParams escape it
      if buf.length = 0 then none else some buf.dropLast
    else some []
  pure (b.buildURL paramBody)

/-- The calls `Param(k1, v1)`, ..., `Param(kn, vn)` made one after the other. -/
def addParams (adds : List (GoString × GoString)) (b : gowebHTTPRequest) :
    gowebHTTPRequest :=
  adds.foldl (fun b p => b.Param p.1 p.2) b

/-- The pairs of key and value of a map of parameters, in the order of its entries
and, for one key, of its values. -/
def pairsOf (it : List (GoString × List GoString)) : List (GoString × GoString) :=
  it.flatMap (fun e => e.2.map (fun v => (e.1, v)))

/-- An escape function for examples: a space becomes `+`. -/
def exEscape (s : GoString) : GoString := s.map (fun c => if c = ' ' then '+' else c)

/-- The parameters `a=1`, `b=x y`, `a=2` in the order of the calls. -/
def exAdds : List (GoString × GoString) :=
  [("a".toList, "1".toList), ("b".toList, "x y".toList), ("a".toList, "2".toList)]

/-- The entries of the map that `exAdds` builds, with the key `b` visited first. -/
def exOrder : List (GoString × List GoString) :=
  [("b".toList, ["x y".toList]), ("a".toList, ["1".toList, "2".toList])]

/-! ## `addPrefix` on controllers shared between trees -/

/-- The type `Tree` with the `runObject` of a leaf kept as a pointer: `some a` is the
`*controllerInfo` at the address `a` of a heap of controllers, `none` any other
payload.  In this form one controller can be bound into several trees. -/
inductive RefTree where
  | node (fixrouters : List (GoString × RefTree)) (wildcard : Option RefTree)
      (leaves : List (Option Nat))

/-- The body of the loop `for _, l := range t.leaves` of `addPrefix`, on the heap:
the controller that the leaf points to gets `prefix + c.pattern` as its pattern
unless `strings.HasPrefix(c.pattern, prefix)`. -/
def addPrefixAt (pfx : GoString) (heap : List controllerInfo) (l : Option Nat) :
    List controllerInfo :=
  match l with
  | some a =>
    match heap[a]? with
    | some c =>
      if !HasPrefix c.pattern pfx then heap.set a { c with pattern := pfx ++ c.pattern }
      else heap
    | none => heap
  | none => heap

mutual

/-- The function `addPrefix` on the heap: the `fixrouters` first, then the
`wildcard` child, then the leaves. -/
def addPrefixRef : RefTree → GoString → List controllerInfo → List controllerInfo
  | .node fs w ls, pfx, heap =>
    ls.foldl (addPrefixAt pfx) (addPrefixRefWild w pfx (addPrefixRefFix fs pfx heap))

/-- The loop `for _, v := range t.fixrouters` of `addPrefix`, on the heap. -/
def addPrefixRefFix :
    List (GoString × RefTree) → GoString → List controllerInfo → List controllerInfo
  | [], _, heap => heap
  | (_, t) :: more, pfx, heap => addPrefixRefFix more pfx (addPrefixRef t pfx heap)

/-- The step `if t.wildcard != nil` of `addPrefix`, on the heap. -/
def addPrefixRefWild : Option RefTree → GoString → List controllerInfo → List controllerInfo
  | none, _, heap => heap
  | some t, pfx, heap => addPrefixRef t pfx heap

end

/-- The calls of `addPrefix` that one merge of a namespace makes, as they change
the heap: the loop `for k, v := range ni.handlers.routers` calls it once for each
method, in one branch on `v` and in the other on the new tree that holds the nodes
of `v`. -/
def mergeRefs (pfx : GoString) (routers : List (GoString × RefTree))
    (heap : List controllerInfo) : List controllerInfo :=
  routers.foldl (fun h e => addPrefixRef e.2 pfx h) heap

mutual

/-- The addresses of the controllers that `addPrefix` visits in a tree, in the order
of the visits. -/
def RefTree.refs : RefTree → List Nat
  | .node fs w ls => refsFix fs ++ (refsWild w ++ ls.filterMap id)

/-- The addresses visited below the `fixrouters`. -/
def refsFix : List (GoString × RefTree) → List Nat
  | [] => []
  | (_, t) :: more => RefTree.refs t ++ refsFix more

/-- The addresses visited below the `wildcard` child. -/
def refsWild : Option RefTree → List Nat
  | none => []
  | some t => RefTree.refs t

end

/-- A controller after a visit of `addPrefix`. -/
def visited (pfx : GoString) (c : controllerInfo) : controllerInfo :=
  { c with pattern := pfxOnce pfx c.pattern }

/-- A tree with one leaf, which points to the controller at the address `a`. -/
def leafTree (a : Nat) : RefTree := .node [] none [some a]

/-- A heap with the controllers of the patterns `/ab` and `/b`. -/
def exHeap : List controllerInfo :=
  [{ pattern := "/ab".toList, handler := 1 }, { pattern := "/b".toList, handler := 2 }]

/-- The trees of a namespace that binds the two controllers of `exHeap` for the
methods GET and POST. -/
def exShared : List (GoString × RefTree) :=
  [("GET".toList, .node [("x".toList, leafTree 1)] none [some 0]),
   ("POST".toList, .node [("x".toList, leafTree 1)] none [some 0])]

/-! ## The merge with filter entries held as pointers -/

section RegistryRef

variable {Ctx : Type}

/-- The type `ControllerRegister` with the entries of its filter lists held as
pointers `*FilterRouter`, the addresses of entries in a heap: an entry that two
registries hold is one object, and a write to its field `tree` is seen in both. -/
structure RegisterRef where
  routers : List (GoString × Tree)
  filters : List (Int × List Nat)
  enableFilter : Bool

/-- The type `Namespace` over a registry with pointers. -/
structure NamespaceRef where
  pfx : GoString
  handlers : RegisterRef

/-- Modelled from the spec: `ControllerRegister.insertFilterRouter` (router.go), as
above, for a pointer: it is added at the end of the list of its interception point
(§4.4, §4.5). -/
def RegisterRef.insertFilterRouter (p : RegisterRef) (pos : Int) (mr : Nat) : RegisterRef :=
  { p with
    filters := mapSet p.filters pos (((mapGet p.filters pos).getD []) ++ [mr])
    enableFilter := true }

/-- The filter list of an interception point, empty when the map has no entry. -/
def RegisterRef.filtersAt (p : RegisterRef) (pos : Int) : List Nat :=
  (mapGet p.filters pos).getD []

/-- The body of the loop `for _, mr := range filterList` of `Namespace.Namespace`
and of `AddNamespace`: the tree of the entry that `mr` points to is put under the
prefix in a new tree, the new tree is written to the entry (`mr.tree = t`), and the
pointer is passed to `insertFilterRouter`. -/
def mergeFilterRef (pfx : GoString) (pos : Int)
    (st : List (FilterRouter Ctx) × RegisterRef) (mr : Nat) :
    Option (List (FilterRouter Ctx) × RegisterRef) := do
  let e ← st.1[mr]?
  let t ← NewTree.AddTree pfx e.tree
  pure (st.1.set mr { e with tree := t }, st.2.insertFilterRouter pos mr)

/-- The loop `for _, mr := range filterList`, on the heap and the receiving
registry. -/
def mergeFilterListRef (pfx : GoString) (pos : Int) (filterList : List Nat)
    (st : List (FilterRouter Ctx) × RegisterRef) :
    Option (List (FilterRouter Ctx) × RegisterRef) :=
  filterList.foldlM (mergeFilterRef pfx pos) st

/-- The loop `for pos, filterList := range ni.handlers.filters`. -/
def mergeFiltersRef (pfx : GoString) (filters : List (Int × List Nat))
    (st : List (FilterRouter Ctx) × RegisterRef) :
    Option (List (FilterRouter Ctx) × RegisterRef) :=
  filters.foldlM (fun st e => mergeFilterListRef pfx e.1 e.2 st) st

/-- The body of the loop over the namespaces, which `Namespace.Namespace` runs on
`n.handlers` and `AddNamespace` on `BeeApp.Handlers`: the heap, the receiving
registry and the merged namespace after it.  The trees are merged by the loop
`mergeRouters`. -/
def mergeNamespaceRef (heap : List (FilterRouter Ctx)) (h : RegisterRef)
    (ni : NamespaceRef) :
    Option (List (FilterRouter Ctx) × RegisterRef × NamespaceRef) := do
  let (routers, niRouters) ← mergeRouters ni.pfx ni.handlers.routers h.routers
  let h1 : RegisterRef := { h with routers := routers }
  let ni' : NamespaceRef := { ni with handlers := { ni.handlers with routers := niRouters } }
  if ni.handlers.enableFilter then
    let (heap', h2) ← mergeFiltersRef ni.pfx ni.handlers.filters (heap, h1)
    pure (heap', h2, ni')
  else
    pure (heap, h1, ni')

/-- The loop over the namespaces of one call, which are distinct objects. -/
def mergeNamespacesRef :
    List NamespaceRef → List (FilterRouter Ctx) → RegisterRef →
    Option (List (FilterRouter Ctx) × RegisterRef × List NamespaceRef)
  | [], heap, h => some (heap, h, [])
  | ni :: rest, heap, h => do
    let (heap1, h1, ni') ← mergeNamespaceRef heap h ni
    let (heap2, h2, rest') ← mergeNamespacesRef rest heap1 h1
    pure (heap2, h2, ni' :: rest')

set_option linter.dupNamespace false in
/-- The method `Namespace.Namespace` with the filter entries on a heap: the heap,
the receiver and the nested namespaces after the call. -/
def NamespaceRef.Namespace (n : NamespaceRef) (ns : List NamespaceRef)
    (heap : List (FilterRouter Ctx)) :
    Option (List (FilterRouter Ctx) × NamespaceRef × List NamespaceRef) :=
  (mergeNamespacesRef ns heap n.handlers).map
    (fun r => (r.1, { n with handlers := r.2.1 }, r.2.2))

/-- The function `AddNamespace` with the filter entries on a heap; the first
argument is the registry `BeeApp.Handlers`. -/
def AddNamespaceRef (beeAppHandlers : RegisterRef) (nl : List NamespaceRef)
    (heap : List (FilterRouter Ctx)) :
    Option (List (FilterRouter Ctx) × RegisterRef × List NamespaceRef) :=
  mergeNamespacesRef nl heap beeAppHandlers

/-- The pointers of all the filter lists of a map, in the order of the loops. -/
def allPtrs (filters : List (Int × List Nat)) : List Nat :=
  filters.flatMap (fun e => e.2)

/-- The segments of a prefix taken `k` times over, one after the other. -/
def repeatSegs : Nat → List GoString → List GoString
  | 0, _ => []
  | k + 1, segs => segs ++ repeatSegs k segs

/-- The entries of a heap after the loops of a merge with the prefix `pfx` that
visit the address `a` `k a` times: every entry keeps its filter function and its
pattern, an entry that is not visited keeps its tree, and the routes of an entry
that is visited lie below the segments of the prefix, once for each visit. -/
def Rerooted (pfx : GoString) (k : Nat → Nat) (heap heap' : List (FilterRouter Ctx)) :
    Prop :=
  heap'.length = heap.length ∧
  ∀ a e, heap[a]? = some e →
    ∃ e', heap'[a]? = some e' ∧ e'.filterFunc = e.filterFunc ∧ e'.pattern = e.pattern ∧
      (k a = 0 → e'.tree = e.tree) ∧
      (0 < k a → ∃ segs, literalPath pfx = some segs ∧ segs ≠ [] ∧
        e'.tree.routes = e.tree.routes.map (under (repeatSegs (k a) segs)))

/-- The filter lists of a registry whose entries are put at the end of a heap, each
as a new object: the lists of pointers and the heap. -/
def loadFilters :
    List (Int × List (FilterRouter Ctx)) → List (FilterRouter Ctx) →
    List (Int × List Nat) × List (FilterRouter Ctx)
  | [], heap => ([], heap)
  | (pos, l) :: rest, heap =>
    let r := loadFilters rest (heap ++ l)
    ((pos, List.range' heap.length l.length) :: r.1, r.2)

/-- A namespace whose filter entries are put at the end of a heap, each as a new
object, as they are when the namespace has been built by `NewNamespace`. -/
def Namespace.load (n : Goweb.Namespace Ctx) (heap : List (FilterRouter Ctx)) :
    NamespaceRef × List (FilterRouter Ctx) :=
  let r := loadFilters n.handlers.filters heap
  ({ pfx := n.pfx,
     handlers := { routers := n.handlers.routers, filters := r.1,
                   enableFilter := n.handlers.enableFilter } }, r.2)

end RegistryRef

/-- The namespace `exGuarded` with its two filter entries on a heap of their own. -/
def exGuardedRef : NamespaceRef × List (FilterRouter Unit) := exGuarded.load []

/-- The namespace `exParent` with pointers: it has no filter entry. -/
def exParentRef : NamespaceRef := (exParent.load []).1

/-- The result of merging `exGuardedRef` into `exParentRef`. -/
def exGuardedRefMerged : List (FilterRouter Unit) × NamespaceRef × List NamespaceRef :=
  (exParentRef.Namespace [exGuardedRef.1] exGuardedRef.2).getD ([], exParentRef, [])

/-- The result of merging the namespace of `exGuardedRefMerged` a second time. -/
def exGuardedRefTwice : List (FilterRouter Unit) × NamespaceRef × List NamespaceRef :=
  (exGuardedRefMerged.2.1.Namespace exGuardedRefMerged.2.2 exGuardedRefMerged.1).getD
    ([], exParentRef, [])

/-! ## Lemmas on maps -/

section MapLemmas

variable {K V : Type} [DecidableEq K]

theorem mapGet_mapSet_self (m : List (K × V)) (k : K) (v : V) :
    mapGet (mapSet m k v) k = some v := by
  induction m with
  | nil => simp [mapSet, mapGet]
  | cons e rest ih =>
    obtain ⟨k', v'⟩ := e
    by_cases h : k' = k
    · simp [mapSet, mapGet, h]
    · simp [mapSet, mapGet, h, ih]

theorem mapGet_mapSet_other (m : List (K × V)) (k k' : K) (v : V) (h : k ≠ k') :
    mapGet (mapSet m k v) k' = mapGet m k' := by
  induction m with
  | nil => simp [mapSet, mapGet, h]
  | cons e rest ih =>
    obtain ⟨k0, v0⟩ := e
    by_cases h0 : k0 = k
    · subst h0
      simp [mapSet, mapGet, h]
    · by_cases h1 : k0 = k'
      · subst h1
        simp [mapSet, mapGet, h0]
      · simp [mapSet, mapGet, h0, h1, ih]

end MapLemmas

/-! ## `Cond` and `Filter` -/

section CondFilter

variable {Ctx : Type} (exception : GoString → Ctx → Ctx) (BeforeRouter FinishRouter : Int)

theorem AddRouter_star : NewTree.AddRouter ['*'] (.flag true) = some starTree := by
  rfl

theorem InsertFilter_star (p : ControllerRegister Ctx) (pos : Int) (f : Ctx → Ctx) :
    p.InsertFilter ['*'] pos f =
      some (p.insertFilterRouter pos { filterFunc := f, tree := starTree, pattern := ['*'] }) := by
  simp [ControllerRegister.InsertFilter, AddRouter_star]

theorem Cond_eq (n : Namespace Ctx) (cond : namespaceCond Ctx) :
    ∃ n', n.Cond exception BeforeRouter cond = some n' ∧ n'.pfx = n.pfx ∧
      mapGet n'.handlers.filters BeforeRouter =
        some (condEntry exception cond ::
          (mapGet n.handlers.filters BeforeRouter).getD []) := by
  unfold Namespace.Cond
  cases hv : mapGet n.handlers.filters BeforeRouter with
  | none =>
    simp [InsertFilter_star, ControllerRegister.insertFilterRouter, hv,
      mapGet_mapSet_self, condEntry]
  | some v =>
    simp [AddRouter_star, mapGet_mapSet_self, condEntry]

/-- C1: after `n.Cond(c)` the first entry of the before-router list of `n` is the
condition filter, under the pattern `*`, and the entries the list had before the
call follow it in their previous order. -/
theorem Cond_first_entry (n : Namespace Ctx) (cond : namespaceCond Ctx) :
    ∃ n' mr, n.Cond exception BeforeRouter cond = some n' ∧
      mapGet n'.handlers.filters BeforeRouter =
        some (mr :: (mapGet n.handlers.filters BeforeRouter).getD []) ∧
      mr.pattern = ['*'] ∧ mr.filterFunc = condFn exception cond ∧
      NewTree.AddRouter ['*'] (.flag true) = some mr.tree := by
  obtain ⟨n', h, _, hl⟩ := Cond_eq exception BeforeRouter n cond
  exact ⟨n', condEntry exception cond, h, hl, rfl, rfl, rfl⟩

theorem insertFilterRouter_get (p : ControllerRegister Ctx) (pos : Int)
    (mr : FilterRouter Ctx) :
    (mapGet (p.insertFilterRouter pos mr).filters pos).getD [] =
      (mapGet p.filters pos).getD [] ++ [mr] := by
  simp [ControllerRegister.insertFilterRouter, mapGet_mapSet_self]

theorem insertFilterRouter_get_other (p : ControllerRegister Ctx) (pos pos' : Int)
    (mr : FilterRouter Ctx) (h : pos ≠ pos') :
    mapGet (p.insertFilterRouter pos mr).filters pos' = mapGet p.filters pos' := by
  simp [ControllerRegister.insertFilterRouter, mapGet_mapSet_other _ _ _ _ h]

theorem InsertFilter_loop (a : Int) (fs : List (Ctx → Ctx)) (p : ControllerRegister Ctx) :
    ∃ p', fs.foldlM (fun (h : ControllerRegister Ctx) f => h.InsertFilter ['*'] a f) p
        = some p' ∧
      (mapGet p'.filters a).getD [] = (mapGet p.filters a).getD [] ++ fs.map userEntry := by
  induction fs generalizing p with
  | nil => exact ⟨p, rfl, by simp⟩
  | cons f rest ih =>
    obtain ⟨p', h1, h2⟩ := ih (p.insertFilterRouter a (userEntry f))
    refine ⟨p', ?_, ?_⟩
    · simp only [List.foldlM_cons, InsertFilter_star]
      exact h1
    · rw [h2, insertFilterRouter_get]
      simp

theorem Filter_before (n : Namespace Ctx) (fs : List (Ctx → Ctx)) :
    ∃ n', n.Filter BeforeRouter FinishRouter ['b', 'e', 'f', 'o', 'r', 'e'] fs = some n' ∧
      (mapGet n'.handlers.filters BeforeRouter).getD [] =
        (mapGet n.handlers.filters BeforeRouter).getD [] ++ fs.map userEntry := by
  obtain ⟨p', h1, h2⟩ := InsertFilter_loop BeforeRouter fs n.handlers
  refine ⟨{ n with handlers := p' }, ?_, h2⟩
  simp only [Namespace.Filter, if_true]
  rw [h1]
  rfl

theorem runOps_before_list (ops : List (Op Ctx)) (n : Namespace Ctx) :
    ∃ n', runOps exception BeforeRouter FinishRouter ops n = some n' ∧
      (mapGet n'.handlers.filters BeforeRouter).getD [] =
        (condsOf ops).reverse.map (condEntry exception) ++
          ((mapGet n.handlers.filters BeforeRouter).getD [] ++
            (usersOf ops).map userEntry) := by
  induction ops generalizing n with
  | nil => exact ⟨n, rfl, by simp [condsOf, usersOf]⟩
  | cons op rest ih =>
    cases op with
    | cond c =>
      obtain ⟨n1, h1, _, l1⟩ := Cond_eq exception BeforeRouter n c
      obtain ⟨n2, h2, l2⟩ := ih n1
      refine ⟨n2, ?_, ?_⟩
      · simp only [runOps, List.foldlM_cons, Op.run, h1]
        exact h2
      · rw [l2, l1]
        simp [condsOf, usersOf]
    | before fs =>
      obtain ⟨n1, h1, l1⟩ := Filter_before BeforeRouter FinishRouter n fs
      obtain ⟨n2, h2, l2⟩ := ih n1
      refine ⟨n2, ?_, ?_⟩
      · simp only [runOps, List.foldlM_cons, Op.run, h1]
        exact h2
      · rw [l2, l1]
        simp [condsOf, usersOf]

/-- C2: in a namespace built by any sequence of `Cond` and `Filter("before", ...)`
calls, in whatever order, the before-router list consists of the condition filters
(the latest first) followed by the filters the user declared (in the order of their
declaration): every condition filter precedes every user-declared before filter. -/
theorem Cond_filters_precede_user_filters (pfx : GoString) (ops : List (Op Ctx)) :
    ∃ n0 n, NewNamespace pfx [] = some n0 ∧
      runOps exception BeforeRouter FinishRouter ops n0 = some n ∧
      (mapGet n.handlers.filters BeforeRouter).getD [] =
        (condsOf ops).reverse.map (condEntry exception) ++ (usersOf ops).map userEntry ∧
      (∀ i, i < (condsOf ops).length →
        ((mapGet n.handlers.filters BeforeRouter).getD [])[i]? =
          ((condsOf ops).reverse[i]?).map (condEntry exception)) ∧
      (∀ j, ((mapGet n.handlers.filters BeforeRouter).getD [])[(condsOf ops).length + j]? =
          ((usersOf ops)[j]?).map userEntry) := by
  obtain ⟨n, h, l⟩ := runOps_before_list exception BeforeRouter FinishRouter ops
    { pfx := pfx, handlers := NewControllerRegister }
  have l' : (mapGet n.handlers.filters BeforeRouter).getD [] =
      (condsOf ops).reverse.map (condEntry exception) ++ (usersOf ops).map userEntry := by
    rw [l]
    simp [NewControllerRegister, mapGet]
  refine ⟨_, n, rfl, h, l', ?_, ?_⟩
  · intro i hi
    rw [l', List.getElem?_append_left (by simpa using hi), List.getElem?_map]
  · intro j
    rw [l', List.getElem?_append_right (by simp)]
    simp

/-- C3: the filter that `n.Cond(c)` installs gives, on a context for which `c`
answers false, the outcome of `exception("405", ctx)`, and on a context for which
`c` answers true it adds nothing to what `c` itself has done: a condition that only
reads the context leaves the context as it was. -/
theorem Cond_filter_outcome (n : Namespace Ctx) (cond : namespaceCond Ctx) :
    ∃ n' mr rest, n.Cond exception BeforeRouter cond = some n' ∧
      mapGet n'.handlers.filters BeforeRouter = some (mr :: rest) ∧
      ∀ ctx,
        ((cond ctx).1 = false →
          mr.filterFunc ctx = exception ['4', '0', '5'] (cond ctx).2) ∧
        ((cond ctx).1 = true → mr.filterFunc ctx = (cond ctx).2) ∧
        (cond ctx = (true, ctx) → mr.filterFunc ctx = ctx) := by
  obtain ⟨n', h, _, hl⟩ := Cond_eq exception BeforeRouter n cond
  refine ⟨n', condEntry exception cond, _, h, hl, ?_⟩
  intro ctx
  refine ⟨?_, ?_, ?_⟩
  · intro hc
    simp [condEntry, condFn, hc]
  · intro hc
    simp [condEntry, condFn, hc]
  · intro hc
    simp [condEntry, condFn, hc]

theorem flagSet_new : flagSet (NewControllerRegister : ControllerRegister Ctx) = true := by
  rfl

theorem flagSet_insertFilterRouter (p : ControllerRegister Ctx) (pos : Int)
    (mr : FilterRouter Ctx) : flagSet (p.insertFilterRouter pos mr) = true := by
  simp [flagSet, ControllerRegister.insertFilterRouter]

theorem mapGet_isEmpty {K V : Type} [DecidableEq K] (m : List (K × V)) (k : K) (v : V)
    (h : mapGet m k = some v) : m.isEmpty = false := by
  cases m with
  | nil => simp [mapGet] at h
  | cons e rest => rfl

theorem flagSet_Cond (n n' : Namespace Ctx) (cond : namespaceCond Ctx)
    (h : n.Cond exception BeforeRouter cond = some n') (hf : flagSet n.handlers = true) :
    flagSet n'.handlers = true := by
  unfold Namespace.Cond at h
  cases hv : mapGet n.handlers.filters BeforeRouter with
  | none =>
    simp [hv, InsertFilter_star] at h
    subst h
    exact flagSet_insertFilterRouter _ _ _
  | some v =>
    simp [hv, AddRouter_star] at h
    subst h
    have := mapGet_isEmpty _ _ _ hv
    simp [flagSet, this] at hf
    simp [flagSet, hf]

theorem flagSet_InsertFilter_loop (a : Int) (fs : List (Ctx → Ctx)) :
    ∀ (p p' : ControllerRegister Ctx),
      fs.foldlM (fun (h : ControllerRegister Ctx) f => h.InsertFilter ['*'] a f) p = some p' →
      flagSet p = true → flagSet p' = true := by
  induction fs with
  | nil =>
    intro p p' h hf
    simp at h
    subst h
    exact hf
  | cons f rest ih =>
    intro p p' h _
    simp only [List.foldlM_cons, InsertFilter_star] at h
    exact ih _ _ h (flagSet_insertFilterRouter _ _ _)

theorem flagSet_Filter (n n' : Namespace Ctx) (action : GoString) (fs : List (Ctx → Ctx))
    (h : n.Filter BeforeRouter FinishRouter action fs = some n')
    (hf : flagSet n.handlers = true) : flagSet n'.handlers = true := by
  simp only [Namespace.Filter, Option.map_eq_some'] at h
  obtain ⟨p', h1, rfl⟩ := h
  exact flagSet_InsertFilter_loop _ fs _ _ h1 hf

theorem flagSet_runOps (ops : List (Op Ctx)) :
    ∀ (n n' : Namespace Ctx),
      runOps exception BeforeRouter FinishRouter ops n = some n' →
      flagSet n.handlers = true → flagSet n'.handlers = true := by
  induction ops with
  | nil =>
    intro n n' h hf
    simp [runOps] at h
    subst h
    exact hf
  | cons op rest ih =>
    intro n n' h hf
    simp only [runOps, List.foldlM_cons] at h
    cases h1 : Op.run exception BeforeRouter FinishRouter n op with
    | none => simp [h1] at h
    | some n1 =>
      simp only [h1] at h
      refine ih n1 n' h ?_
      cases op with
      | cond c => exact flagSet_Cond exception BeforeRouter n n1 c h1 hf
      | before fs => exact flagSet_Filter BeforeRouter FinishRouter n n1 _ fs h1 hf

theorem enableFilter_of_flagSet (p : ControllerRegister Ctx) (hf : flagSet p = true) :
    (∃ pos, filtersAt p pos ≠ []) → p.enableFilter = true := by
  rintro ⟨pos, hp⟩
  cases hg : mapGet p.filters pos with
  | none => simp [filtersAt, hg] at hp
  | some l =>
    have := mapGet_isEmpty _ _ _ hg
    simpa [flagSet, this] using hf

end CondFilter

/-! ## Trees: `addPrefix`, `AddTree` and the reachable leaves -/

mutual
theorem routes_addPrefix : ∀ (t : Tree) (q : GoString),
    (addPrefix t q).routes = t.routes.map (fun r => (r.1, addPrefixLeaf q r.2))
  | .node fs w ls, q => by
    simp [addPrefix, Tree.routes, routesWild_addPrefix w q, routesFix_addPrefix fs q,
      List.map_map, Function.comp_def]
theorem routesWild_addPrefix : ∀ (w : Option Tree) (q : GoString),
    routesWild (addPrefixWild w q) = (routesWild w).map (fun r => (r.1, addPrefixLeaf q r.2))
  | none, q => by simp [addPrefixWild, routesWild]
  | some t, q => by
    simp [addPrefixWild, routesWild, routes_addPrefix t q, List.map_map, Function.comp_def]
theorem routesFix_addPrefix : ∀ (fs : List (GoString × Tree)) (q : GoString),
    routesFix (addPrefixFix fs q) = (routesFix fs).map (fun r => (r.1, addPrefixLeaf q r.2))
  | [], q => by simp [addPrefixFix, routesFix]
  | (k, t) :: more, q => by
    simp [addPrefixFix, routesFix, routes_addPrefix t q, routesFix_addPrefix more q,
      List.map_map, Function.comp_def]
end

theorem leafPattern_addPrefixLeaf (q : GoString) (l : leafInfo) :
    leafPattern (addPrefixLeaf q l) = (leafPattern l).map (pfxOnce q) := by
  obtain ⟨ws, ro⟩ := l
  cases ro with
  | flag b => simp [addPrefixLeaf, leafPattern]
  | controller c =>
    by_cases h : HasPrefix c.pattern q
    · simp [addPrefixLeaf, leafPattern, pfxOnce, h]
    · simp [addPrefixLeaf, leafPattern, pfxOnce, h]

theorem patterns_addPrefix (t : Tree) (q : GoString) :
    (addPrefix t q).patterns = t.patterns.map (pfxOnce q) := by
  simp only [Tree.patterns, routes_addPrefix, List.filterMap_map, List.map_filterMap]
  congr 1
  funext r
  simp [leafPattern_addPrefixLeaf]

theorem routesFix_append (fs gs : List (GoString × Tree)) :
    routesFix (fs ++ gs) = routesFix fs ++ routesFix gs := by
  induction fs with
  | nil => simp [routesFix]
  | cons e rest ih =>
    obtain ⟨k, t⟩ := e
    simp [routesFix, ih]

theorem under_nil : under [] = id := by
  funext r
  obtain ⟨p, l⟩ := r
  simp [under]

theorem routes_chain (segs : List GoString) (other : Tree) :
    (chain segs other).routes = other.routes.map (under segs) := by
  induction segs with
  | nil => simp [chain, under_nil]
  | cons s ss ih =>
    simp [chain, Tree.routes, routesWild, routesFix, ih, List.map_map, Function.comp_def, under]

theorem AddTree_routes (t t' other : Tree) (pfx : GoString)
    (h : t.AddTree pfx other = some t') :
    ∃ segs, literalPath pfx = some segs ∧ segs ≠ [] ∧
      t'.routes = t.routes ++ other.routes.map (under segs) := by
  obtain ⟨fs, w, ls⟩ := t
  unfold Tree.AddTree at h
  cases hl : literalPath pfx with
  | none => simp [hl] at h
  | some segs =>
    cases segs with
    | nil => simp [hl] at h
    | cons s ss =>
      simp [hl] at h
      subst h
      refine ⟨s :: ss, rfl, by simp, ?_⟩
      simp [Tree.routes, routesFix_append, routesFix, routes_chain, List.map_map,
        Function.comp_def, under]

/-! ## The merge of a namespace -/

section Merge

variable {Ctx : Type}

theorem mergeRouter_some (pfx : GoString) (routers : List (GoString × Tree)) (k : GoString)
    (v : Tree) (r1 : List (GoString × Tree)) (v' : Tree)
    (h : mergeRouter pfx routers k v = some (r1, v')) :
    ∃ t', mergedTree pfx (mapGet routers k) v = some t' ∧ r1 = mapSet routers k t' ∧
      v' = addPrefix v pfx := by
  unfold mergeRouter at h
  cases hg : mapGet routers k with
  | none =>
    rw [hg] at h
    cases ha : NewTree.AddTree pfx v with
    | none => simp [ha] at h
    | some t =>
      simp [ha] at h
      exact ⟨addPrefix t pfx, by simp [mergedTree, ha], h.1.symm, h.2.symm⟩
  | some t =>
    rw [hg] at h
    cases ha : t.AddTree pfx (addPrefix v pfx) with
    | none => simp [ha] at h
    | some t' =>
      simp [ha] at h
      exact ⟨t', by simp [mergedTree, ha], h.1.symm, h.2.symm⟩

theorem mapGet_eq_none_of_not_mem {K V : Type} [DecidableEq K] (m : List (K × V)) (k : K)
    (h : k ∉ mapKeys m) : mapGet m k = none := by
  induction m with
  | nil => rfl
  | cons e rest ih =>
    obtain ⟨k', v⟩ := e
    simp [mapKeys] at h
    have h1 : ¬ k' = k := fun e => h.1 e.symm
    simp [mapGet, h1]
    apply ih
    simp [mapKeys]
    exact h.2

theorem mergeRouters_some (pfx : GoString) (cs : List (GoString × Tree)) :
    ∀ (routers r' cs' : List (GoString × Tree)), (mapKeys cs).Nodup →
      mergeRouters pfx cs routers = some (r', cs') →
      cs' = cs.map (fun e => (e.1, addPrefix e.2 pfx)) ∧
      ∀ k, mapGet r' k =
        match mapGet cs k with
        | none => mapGet routers k
        | some v => mergedTree pfx (mapGet routers k) v := by
  induction cs with
  | nil =>
    intro routers r' cs' _ h
    simp [mergeRouters] at h
    obtain ⟨rfl, rfl⟩ := h
    simp [mapGet]
  | cons e rest ih =>
    obtain ⟨k0, v0⟩ := e
    intro routers r' cs' hnd h
    simp only [mapKeys, List.map_cons, List.nodup_cons] at hnd
    unfold mergeRouters at h
    cases h1 : mergeRouter pfx routers k0 v0 with
    | none => simp [h1] at h
    | some p1 =>
      obtain ⟨r1, v1⟩ := p1
      cases h2 : mergeRouters pfx rest r1 with
      | none => simp [h1, h2] at h
      | some p2 =>
        obtain ⟨r2, rest'⟩ := p2
        simp [h1, h2] at h
        obtain ⟨rfl, rfl⟩ := h
        obtain ⟨t', ht, rfl, rfl⟩ := mergeRouter_some pfx routers k0 v0 r1 v1 h1
        obtain ⟨hrest, hget⟩ := ih _ _ _ hnd.2 h2
        refine ⟨by simp [hrest], ?_⟩
        intro k
        rw [hget k]
        by_cases hk : k0 = k
        · subst hk
          have : mapGet rest k0 = none := mapGet_eq_none_of_not_mem rest k0 hnd.1
          simp [this, mapGet, mapGet_mapSet_self, ht]
        · simp [mapGet, hk, mapGet_mapSet_other _ _ _ _ hk]

theorem mergeFilterRouter_some (pfx : GoString) (h h1 : ControllerRegister Ctx) (pos : Int)
    (mr mr' : FilterRouter Ctx) (hm : mergeFilterRouter pfx h pos mr = some (h1, mr')) :
    reroot pfx mr = some mr' ∧ h1 = h.insertFilterRouter pos mr' := by
  unfold mergeFilterRouter at hm
  cases ha : NewTree.AddTree pfx mr.tree with
  | none => simp [ha] at hm
  | some t =>
    simp [ha] at hm
    obtain ⟨rfl, rfl⟩ := hm
    exact ⟨by simp [reroot, ha], rfl⟩

theorem mergeFilterList_some (pfx : GoString) (pos : Int) (l : List (FilterRouter Ctx)) :
    ∀ (h h' : ControllerRegister Ctx) (l' : List (FilterRouter Ctx)),
      mergeFilterList pfx pos l h = some (h', l') →
      rerootList pfx l = some l' ∧ h'.routers = h.routers ∧
      (mapGet h'.filters pos).getD [] = (mapGet h.filters pos).getD [] ++ l' ∧
      (∀ pos', pos ≠ pos' → mapGet h'.filters pos' = mapGet h.filters pos') := by
  induction l with
  | nil =>
    intro h h' l' hm
    simp [mergeFilterList] at hm
    obtain ⟨rfl, rfl⟩ := hm
    simp [rerootList]
  | cons mr rest ih =>
    intro h h' l' hm
    unfold mergeFilterList at hm
    cases h1 : mergeFilterRouter pfx h pos mr with
    | none => simp [h1] at hm
    | some p1 =>
      obtain ⟨g1, mr'⟩ := p1
      cases h2 : mergeFilterList pfx pos rest g1 with
      | none => simp [h1, h2] at hm
      | some p2 =>
        obtain ⟨g2, rest'⟩ := p2
        simp [h1, h2] at hm
        obtain ⟨rfl, rfl⟩ := hm
        obtain ⟨hr, rfl⟩ := mergeFilterRouter_some pfx h g1 pos mr mr' h1
        obtain ⟨i1, i2, i3, i4⟩ := ih _ _ _ h2
        refine ⟨by simp [rerootList, hr, i1], ?_, ?_, ?_⟩
        · rw [i2]; rfl
        · rw [i3, insertFilterRouter_get]; simp
        · intro pos' hp
          rw [i4 pos' hp, insertFilterRouter_get_other _ _ _ _ hp]

theorem mergeFilters_some (pfx : GoString) (fl : List (Int × List (FilterRouter Ctx))) :
    ∀ (h h' : ControllerRegister Ctx) (fl' : List (Int × List (FilterRouter Ctx))),
      (mapKeys fl).Nodup → mergeFilters pfx fl h = some (h', fl') →
      h'.routers = h.routers ∧ mapKeys fl' = mapKeys fl ∧
      ∀ pos, ∃ l', rerootList pfx ((mapGet fl pos).getD []) = some l' ∧
        (mapGet fl' pos).getD [] = l' ∧
        (mapGet h'.filters pos).getD [] = (mapGet h.filters pos).getD [] ++ l' := by
  induction fl with
  | nil =>
    intro h h' fl' _ hm
    simp [mergeFilters] at hm
    obtain ⟨rfl, rfl⟩ := hm
    simp [mapGet, rerootList]
  | cons e rest ih =>
    obtain ⟨p0, l0⟩ := e
    intro h h' fl' hnd hm
    simp only [mapKeys, List.map_cons, List.nodup_cons] at hnd
    unfold mergeFilters at hm
    cases h1 : mergeFilterList pfx p0 l0 h with
    | none => simp [h1] at hm
    | some p1 =>
      obtain ⟨g1, l1⟩ := p1
      cases h2 : mergeFilters pfx rest g1 with
      | none => simp [h1, h2] at hm
      | some p2 =>
        obtain ⟨g2, rest'⟩ := p2
        simp [h1, h2] at hm
        obtain ⟨rfl, rfl⟩ := hm
        obtain ⟨j1, j2, j3, j4⟩ := mergeFilterList_some pfx p0 l0 _ _ _ h1
        obtain ⟨i1, i2, i3⟩ := ih _ _ _ hnd.2 h2
        refine ⟨by rw [i1, j2], by simp [mapKeys] at i2 ⊢; exact i2, ?_⟩
        intro pos
        by_cases hp : p0 = pos
        · subst hp
          have hn : mapGet rest p0 = none := mapGet_eq_none_of_not_mem rest p0 hnd.1
          obtain ⟨l', a1, a2, a3⟩ := i3 p0
          simp [hn, rerootList] at a1
          subst a1
          refine ⟨l1, by simp [mapGet, j1], by simp [mapGet], ?_⟩
          rw [a3, j3]; simp
        · obtain ⟨l', a1, a2, a3⟩ := i3 pos
          refine ⟨l', by simp [mapGet, hp, a1], by simp [mapGet, hp, a2], ?_⟩
          rw [a3, j4 pos hp]

theorem mergedTree_routes (pfx : GoString) (old : Option Tree) (v t' : Tree)
    (h : mergedTree pfx old v = some t') :
    ∃ segs, literalPath pfx = some segs ∧ segs ≠ [] ∧
      t'.routes = routesOf old ++ v.routes.map (prefixed pfx segs) := by
  cases old with
  | some t =>
    obtain ⟨segs, h1, h2, h3⟩ := AddTree_routes t t' (addPrefix v pfx) pfx h
    refine ⟨segs, h1, h2, ?_⟩
    rw [h3, routes_addPrefix]
    simp [routesOf, List.map_map, Function.comp_def, under, prefixed]
  | none =>
    simp only [mergedTree, Option.map_eq_some'] at h
    obtain ⟨t0, h0, rfl⟩ := h
    obtain ⟨segs, h1, h2, h3⟩ := AddTree_routes NewTree t0 v pfx h0
    refine ⟨segs, h1, h2, ?_⟩
    rw [routes_addPrefix, h3]
    simp [routesOf, NewTree, Tree.routes, routesWild, routesFix, List.map_map,
      Function.comp_def, under, prefixed]

theorem mapKeys_mapSet {K V : Type} [DecidableEq K] (m : List (K × V)) (k : K) (v : V)
    (h : (mapKeys m).Nodup) : (mapKeys (mapSet m k v)).Nodup := by
  induction m with
  | nil => simp [mapSet, mapKeys]
  | cons e rest ih =>
    obtain ⟨k0, v0⟩ := e
    simp only [mapKeys, List.map_cons, List.nodup_cons] at h
    by_cases hk : k0 = k
    · simp [mapSet, hk, mapKeys]
      subst hk
      simpa using h
    · simp only [mapSet, hk, if_false, mapKeys, List.map_cons, List.nodup_cons]
      refine ⟨?_, ih h.2⟩
      intro hmem
      have : ∀ (m : List (K × V)), k0 ∈ List.map Prod.fst (mapSet m k v) →
          k0 ∈ List.map Prod.fst m := by
        intro m
        induction m with
        | nil => simp [mapSet]; intro e; exact absurd e hk
        | cons e' r' ih' =>
          obtain ⟨k1, v1⟩ := e'
          by_cases h1 : k1 = k
          · simp [mapSet, h1]
          · simp only [mapSet, h1, if_false, List.map_cons, List.mem_cons]
            rintro (e | e)
            · exact Or.inl e
            · exact Or.inr (ih' e)
      exact h.1 (this rest hmem)

theorem AddTree_isSome (t other : Tree) (pfx : GoString) :
    (t.AddTree pfx other).isSome = (match literalPath pfx with
      | some (_ :: _) => true
      | _ => false) := by
  obtain ⟨fs, w, ls⟩ := t
  unfold Tree.AddTree
  cases literalPath pfx with
  | none => rfl
  | some segs =>
    cases segs with
    | nil => rfl
    | cons s ss => rfl

theorem mergedTree_isSome (pfx : GoString) (old : Option Tree) (v : Tree) :
    (mergedTree pfx old v).isSome = (match literalPath pfx with
      | some (_ :: _) => true
      | _ => false) := by
  cases old with
  | some t => simp only [mergedTree, AddTree_isSome]
  | none => simp only [mergedTree, Option.isSome_map', AddTree_isSome]

theorem mergeRouters_isSome (pfx : GoString) (cs routers r' cs' : List (GoString × Tree))
    (h : mergeRouters pfx cs routers = some (r', cs')) (k : GoString) (v : Tree)
    (hv : mapGet cs k = some v) (old : Option Tree) (v' : Tree) :
    (mergedTree pfx old v').isSome = true := by
  cases cs with
  | nil => simp [mapGet] at hv
  | cons e rest =>
    obtain ⟨k0, v0⟩ := e
    unfold mergeRouters at h
    cases h1 : mergeRouter pfx routers k0 v0 with
    | none => simp [h1] at h
    | some p1 =>
      obtain ⟨r1, v1⟩ := p1
      obtain ⟨t', ht, _, _⟩ := mergeRouter_some pfx routers k0 v0 r1 v1 h1
      have h2 := mergedTree_isSome pfx (mapGet routers k0) v0
      rw [ht] at h2
      rw [mergedTree_isSome, ← h2]
      rfl

theorem mergeRouters_keys (pfx : GoString) (cs : List (GoString × Tree)) :
    ∀ (routers r' cs' : List (GoString × Tree)), (mapKeys routers).Nodup →
      mergeRouters pfx cs routers = some (r', cs') → (mapKeys r').Nodup := by
  induction cs with
  | nil =>
    intro routers r' cs' hnd h
    simp [mergeRouters] at h
    obtain ⟨rfl, rfl⟩ := h
    exact hnd
  | cons e rest ih =>
    obtain ⟨k0, v0⟩ := e
    intro routers r' cs' hnd h
    unfold mergeRouters at h
    cases h1 : mergeRouter pfx routers k0 v0 with
    | none => simp [h1] at h
    | some p1 =>
      obtain ⟨r1, v1⟩ := p1
      cases h2 : mergeRouters pfx rest r1 with
      | none => simp [h1, h2] at h
      | some p2 =>
        obtain ⟨r2, rest'⟩ := p2
        simp [h1, h2] at h
        obtain ⟨rfl, rfl⟩ := h
        obtain ⟨t', _, rfl, _⟩ := mergeRouter_some pfx routers k0 v0 r1 v1 h1
        exact ih _ _ _ (mapKeys_mapSet _ _ _ hnd) h2

theorem mergeFilters_routers (pfx : GoString) (fl : List (Int × List (FilterRouter Ctx))) :
    ∀ (h h' : ControllerRegister Ctx) (fl' : List (Int × List (FilterRouter Ctx))),
      mergeFilters pfx fl h = some (h', fl') → h'.routers = h.routers := by
  induction fl with
  | nil =>
    intro h h' fl' hm
    simp [mergeFilters] at hm
    obtain ⟨rfl, rfl⟩ := hm
    rfl
  | cons e rest ih =>
    obtain ⟨p0, l0⟩ := e
    intro h h' fl' hm
    unfold mergeFilters at hm
    cases h1 : mergeFilterList pfx p0 l0 h with
    | none => simp [h1] at hm
    | some p1 =>
      obtain ⟨g1, l1⟩ := p1
      cases h2 : mergeFilters pfx rest g1 with
      | none => simp [h1, h2] at hm
      | some p2 =>
        obtain ⟨g2, rest'⟩ := p2
        simp [h1, h2] at hm
        obtain ⟨rfl, rfl⟩ := hm
        rw [ih _ _ _ h2, (mergeFilterList_some pfx p0 l0 _ _ _ h1).2.1]

theorem mergeNamespace_routers (h h' : ControllerRegister Ctx) (ni ni' : Namespace Ctx)
    (hm : mergeNamespace h ni = some (h', ni'))
    (hnd : (mapKeys ni.handlers.routers).Nodup) :
    ni'.pfx = ni.pfx ∧
    ni'.handlers.routers = ni.handlers.routers.map (fun e => (e.1, addPrefix e.2 ni.pfx)) ∧
    ((mapKeys h.routers).Nodup → (mapKeys h'.routers).Nodup) ∧
    ∀ k, mapGet h'.routers k =
      match mapGet ni.handlers.routers k with
      | none => mapGet h.routers k
      | some v => mergedTree ni.pfx (mapGet h.routers k) v := by
  unfold mergeNamespace at hm
  cases h1 : mergeRouters ni.pfx ni.handlers.routers h.routers with
  | none => simp [h1] at hm
  | some p1 =>
    obtain ⟨r1, c1⟩ := p1
    obtain ⟨a1, a2⟩ := mergeRouters_some ni.pfx _ _ _ _ hnd h1
    have a3 := fun hh => mergeRouters_keys ni.pfx _ _ _ _ hh h1
    by_cases hf : ni.handlers.enableFilter = true
    · cases h2 : mergeFilters ni.pfx ni.handlers.filters { h with routers := r1 } with
      | none => simp [h1, hf, h2] at hm
      | some p2 =>
        obtain ⟨g2, f2⟩ := p2
        simp [h1, hf, h2] at hm
        obtain ⟨rfl, rfl⟩ := hm
        have hr : g2.routers = r1 := mergeFilters_routers _ _ _ _ _ h2
        rw [hr]
        exact ⟨rfl, a1, a3, a2⟩
    · simp [h1, hf] at hm
      obtain ⟨rfl, rfl⟩ := hm
      exact ⟨rfl, a1, a3, a2⟩

theorem Namespace_single (n ni : Namespace Ctx) (r : Namespace Ctx × List (Namespace Ctx))
    (hm : n.Namespace [ni] = some r) :
    ∃ ni', mergeNamespace n.handlers ni = some (r.1.handlers, ni') ∧ r.2 = [ni'] ∧
      r.1.pfx = n.pfx ∧ AddNamespace n.handlers [ni] = some (r.1.handlers, r.2) := by
  unfold Namespace.Namespace at hm
  simp only [mergeNamespaces] at hm
  cases h1 : mergeNamespace n.handlers ni with
  | none => simp [h1] at hm
  | some p1 =>
    obtain ⟨g1, ni'⟩ := p1
    simp [h1] at hm
    subst hm
    exact ⟨ni', rfl, rfl, rfl, by simp [AddNamespace, mergeNamespaces, h1]⟩

theorem Namespace_pair (n nA nB : Namespace Ctx)
    (r1 : Namespace Ctx × List (Namespace Ctx)) (hm1 : n.Namespace [nA] = some r1)
    (r2 : Namespace Ctx × List (Namespace Ctx)) (hm2 : r1.1.Namespace [nB] = some r2) :
    n.Namespace [nA, nB] = some (r2.1, r1.2 ++ r2.2) ∧
    AddNamespace n.handlers [nA, nB] = some (r2.1.handlers, r1.2 ++ r2.2) ∧
    r2.1.pfx = n.pfx := by
  unfold Namespace.Namespace at hm1 hm2
  simp only [mergeNamespaces] at hm1 hm2
  cases h1 : mergeNamespace n.handlers nA with
  | none => simp [h1] at hm1
  | some p1 =>
    obtain ⟨g1, nA'⟩ := p1
    simp [h1] at hm1
    subst hm1
    cases h2 : mergeNamespace g1 nB with
    | none => simp [h2] at hm2
    | some p2 =>
      obtain ⟨g2, nB'⟩ := p2
      simp [h2] at hm2
      subst hm2
      simp [Namespace.Namespace, AddNamespace, mergeNamespaces, h1, h2]

theorem patterns_of_routes (t : Tree) (old : Option Tree) (v : Tree) (pfx : GoString)
    (segs : List GoString)
    (h : t.routes = routesOf old ++ v.routes.map (prefixed pfx segs)) :
    t.patterns = (routesOf old).filterMap (fun r => leafPattern r.2) ++
      v.patterns.map (pfxOnce pfx) := by
  simp only [Tree.patterns, h, List.filterMap_append, List.filterMap_map, List.map_filterMap]
  congr 2
  funext r
  simp [prefixed, leafPattern_addPrefixLeaf]

end Merge

/-! ## Claims on the merge of a namespace -/

section MergeClaims

variable {Ctx : Type}

theorem patternsOf_routesOf (old : Option Tree) :
    (routesOf old).filterMap (fun r => leafPattern r.2) = patternsOf old := by
  cases old with
  | none => rfl
  | some t => rfl

theorem pfxOnce_of_not_HasPrefix (pfx p : GoString) (h : HasPrefix p pfx = false) :
    pfxOnce pfx p = pfx ++ p := by
  simp [pfxOnce, h]

theorem HasPrefix_append (q p : GoString) : HasPrefix (q ++ p) q = true := by
  induction q with
  | nil => simp [HasPrefix]
  | cons c cs ih =>
    simp only [HasPrefix, List.cons_append, List.isPrefixOf, beq_self_eq_true, Bool.true_and] at ih ⊢
    exact ih

theorem addPrefixLeaf_idem (q : GoString) (l : leafInfo) :
    addPrefixLeaf q (addPrefixLeaf q l) = addPrefixLeaf q l := by
  obtain ⟨ws, ro⟩ := l
  cases ro with
  | flag b => rfl
  | controller c =>
    by_cases h : HasPrefix c.pattern q
    · simp [addPrefixLeaf, h]
    · simp [addPrefixLeaf, h, HasPrefix_append]

theorem prefixed_addPrefix_routes (v : Tree) (pfx : GoString) (segs : List GoString) :
    (addPrefix v pfx).routes.map (prefixed pfx segs) = v.routes.map (prefixed pfx segs) := by
  rw [routes_addPrefix, List.map_map]
  congr 1
  funext r
  simp [prefixed, addPrefixLeaf_idem]

theorem mapGet_map_snd {K V : Type} [DecidableEq K] (m : List (K × V)) (f : V → V) (k : K) :
    mapGet (m.map (fun e => (e.1, f e.2))) k = (mapGet m k).map f := by
  induction m with
  | nil => rfl
  | cons e rest ih =>
    obtain ⟨k0, v0⟩ := e
    by_cases h : k0 = k
    · simp [mapGet, h]
    · simp [mapGet, h, ih]

theorem mapKeys_map_snd {K V : Type} (m : List (K × V)) (f : V → V) :
    mapKeys (m.map (fun e => (e.1, f e.2))) = mapKeys m := by
  simp [mapKeys, List.map_map, Function.comp_def]

theorem merged_entry (n ni : Namespace Ctx) (r : Namespace Ctx × List (Namespace Ctx))
    (hm : n.Namespace [ni] = some r) (hnd : (mapKeys ni.handlers.routers).Nodup)
    (k : GoString) (v : Tree) (hv : mapGet ni.handlers.routers k = some v) :
    ∃ t' segs, mapGet r.1.handlers.routers k = some t' ∧
      mergedTree ni.pfx (mapGet n.handlers.routers k) v = some t' ∧
      literalPath ni.pfx = some segs ∧ segs ≠ [] ∧
      t'.routes = routesOf (mapGet n.handlers.routers k) ++
        v.routes.map (prefixed ni.pfx segs) := by
  obtain ⟨ni', h1, _, _, _⟩ := Namespace_single n ni r hm
  obtain ⟨_, _, _, h2⟩ := mergeNamespace_routers _ _ _ _ h1 hnd
  have h3 := h2 k
  rw [hv] at h3
  simp only at h3
  have hs : (mergedTree ni.pfx (mapGet n.handlers.routers k) v).isSome = true := by
    unfold mergeNamespace at h1
    cases hr : mergeRouters ni.pfx ni.handlers.routers n.handlers.routers with
    | none => simp [hr] at h1
    | some p1 =>
      obtain ⟨r1, c1⟩ := p1
      exact mergeRouters_isSome _ _ _ _ _ hr k v hv _ _
  obtain ⟨t', ht⟩ := Option.isSome_iff_exists.mp hs
  obtain ⟨segs, s1, s2, s3⟩ := mergedTree_routes _ _ _ _ ht
  exact ⟨t', segs, by rw [h3, ht], ht, s1, s2, s3⟩

theorem merged_routesOf (n ni : Namespace Ctx)
    (r : Namespace Ctx × List (Namespace Ctx)) (hm : n.Namespace [ni] = some r)
    (hnd : (mapKeys ni.handlers.routers).Nodup) (k : GoString) :
    routesOf (mapGet r.1.handlers.routers k) =
      routesOf (mapGet n.handlers.routers k) ++
        (routesOf (mapGet ni.handlers.routers k)).map (prefixed ni.pfx (pathOf ni.pfx)) := by
  cases hv : mapGet ni.handlers.routers k with
  | none =>
    obtain ⟨ni', h1, _, _, _⟩ := Namespace_single n ni r hm
    obtain ⟨_, _, _, h2⟩ := mergeNamespace_routers _ _ _ _ h1 hnd
    have h3 := h2 k
    rw [hv] at h3
    simp only at h3
    rw [h3]
    simp [routesOf]
  | some v =>
    obtain ⟨t', segs, h1, _, h3, _, h5⟩ := merged_entry n ni r hm hnd k v hv
    rw [h1]
    simp only [routesOf, Option.map_some', Option.getD_some, pathOf, h3]
    exact h5

theorem lookupFix_append (fs gs : List (GoString × Tree)) (seg : GoString)
    (rest vals : List GoString) :
    lookupFix (fs ++ gs) seg rest vals =
      match lookupFix fs seg rest vals with
      | some m => some m
      | none => lookupFix gs seg rest vals := by
  induction fs with
  | nil => simp [lookupFix]
  | cons e more ih =>
    obtain ⟨k, t⟩ := e
    simp only [List.cons_append, lookupFix]
    cases (if k = seg then Tree.lookup t rest vals else none) with
    | some m => rfl
    | none => exact ih

theorem AddTree_lookup_kept (t t' other : Tree) (pfx : GoString)
    (h : t.AddTree pfx other = some t') (seg : GoString) (rest vals : List GoString)
    (m : Match) (hl : lookupFix t.fixrouters seg rest vals = some m) :
    t'.lookup (seg :: rest) vals = some m := by
  obtain ⟨fs, w, ls⟩ := t
  unfold Tree.AddTree at h
  cases hp : literalPath pfx with
  | none => simp [hp] at h
  | some segs =>
    cases segs with
    | nil => simp [hp] at h
    | cons s ss =>
      simp [hp] at h
      subst h
      simp only [Tree.fixrouters] at hl
      simp [Tree.lookup, lookupFix_append, hl]

theorem lookup_cons_none (t : Tree) (seg : GoString) (rest vals : List GoString)
    (h : t.lookup (seg :: rest) vals = none) :
    lookupFix t.fixrouters seg rest vals = none ∧
      lookupWild t.wildcard seg rest vals = none := by
  obtain ⟨fs, w, ls⟩ := t
  simp only [Tree.lookup] at h
  simp only [Tree.fixrouters, Tree.wildcard]
  cases hf : lookupFix fs seg rest vals with
  | some m => simp [hf] at h
  | none =>
    simp only [hf] at h
    exact ⟨rfl, h⟩

theorem AddTree_lookup (t t' other : Tree) (pfx s : GoString) (ss : List GoString)
    (hl : literalPath pfx = some (s :: ss)) (h : t.AddTree pfx other = some t')
    (seg : GoString) (rest vals : List GoString) :
    t'.lookup (seg :: rest) vals =
      match lookupFix t.fixrouters seg rest vals with
      | some m => some m
      | none =>
        match (if s = seg then (chain ss other).lookup rest vals else none) with
        | some m => some m
        | none => lookupWild t.wildcard seg rest vals := by
  obtain ⟨fs, w, ls⟩ := t
  unfold Tree.AddTree at h
  simp [hl] at h
  subst h
  simp only [Tree.lookup, lookupFix_append, Tree.fixrouters, Tree.wildcard, lookupFix]
  cases lookupFix fs seg rest vals with
  | some m => rfl
  | none =>
    simp only
    cases (if s = seg then (chain ss other).lookup rest vals else none) with
    | some m => rfl
    | none => rfl

theorem mergeRouter_ok (pfx s : GoString) (ss : List GoString)
    (hl : literalPath pfx = some (s :: ss)) (routers : List (GoString × Tree))
    (k : GoString) (v : Tree) : ∃ x, mergeRouter pfx routers k v = some x := by
  have hs : ∀ t other, ∃ t', Tree.AddTree t pfx other = some t' := by
    intro t other
    apply Option.isSome_iff_exists.mp
    rw [AddTree_isSome, hl]
  unfold mergeRouter
  cases mapGet routers k with
  | none =>
    obtain ⟨t', ht⟩ := hs NewTree v
    exact ⟨_, by simp [ht]; rfl⟩
  | some t =>
    obtain ⟨t', ht⟩ := hs t (addPrefix v pfx)
    exact ⟨_, by simp [ht]; rfl⟩

theorem mergeRouters_ok (pfx s : GoString) (ss : List GoString)
    (hl : literalPath pfx = some (s :: ss)) (cs : List (GoString × Tree)) :
    ∀ routers, ∃ x, mergeRouters pfx cs routers = some x := by
  induction cs with
  | nil => exact fun routers => ⟨_, rfl⟩
  | cons e rest ih =>
    obtain ⟨k, v⟩ := e
    intro routers
    obtain ⟨x1, h1⟩ := mergeRouter_ok pfx s ss hl routers k v
    obtain ⟨x2, h2⟩ := ih x1.1
    exact ⟨_, by simp [mergeRouters, h1, h2]; rfl⟩

theorem mergeFilterList_ok (pfx s : GoString) (ss : List GoString)
    (hl : literalPath pfx = some (s :: ss)) (pos : Int) (l : List (FilterRouter Ctx)) :
    ∀ h, ∃ x, mergeFilterList pfx pos l h = some x := by
  induction l with
  | nil => exact fun h => ⟨_, rfl⟩
  | cons mr rest ih =>
    intro h
    have hs : ∃ t', Tree.AddTree NewTree pfx mr.tree = some t' := by
      apply Option.isSome_iff_exists.mp
      rw [AddTree_isSome, hl]
    obtain ⟨t', ht⟩ := hs
    obtain ⟨x2, h2⟩ := ih (h.insertFilterRouter pos { mr with tree := t' })
    exact ⟨_, by simp [mergeFilterList, mergeFilterRouter, ht, h2]; rfl⟩

theorem mergeFilters_ok (pfx s : GoString) (ss : List GoString)
    (hl : literalPath pfx = some (s :: ss)) (fl : List (Int × List (FilterRouter Ctx))) :
    ∀ h, ∃ x, mergeFilters pfx fl h = some x := by
  induction fl with
  | nil => exact fun h => ⟨_, rfl⟩
  | cons e rest ih =>
    obtain ⟨pos, l⟩ := e
    intro h
    obtain ⟨x1, h1⟩ := mergeFilterList_ok pfx s ss hl pos l h
    obtain ⟨x2, h2⟩ := ih x1.1
    exact ⟨_, by simp [mergeFilters, h1, h2]; rfl⟩

theorem Namespace_ok (n ni : Namespace Ctx) (s : GoString) (ss : List GoString)
    (hl : literalPath ni.pfx = some (s :: ss)) : ∃ r, n.Namespace [ni] = some r := by
  obtain ⟨x1, h1⟩ := mergeRouters_ok ni.pfx s ss hl ni.handlers.routers n.handlers.routers
  by_cases he : ni.handlers.enableFilter = true
  · obtain ⟨x2, h2⟩ := mergeFilters_ok ni.pfx s ss hl ni.handlers.filters
      { n.handlers with routers := x1.1 }
    exact ⟨_, by simp [Namespace.Namespace, mergeNamespaces, mergeNamespace, h1, he, h2]; rfl⟩
  · exact ⟨_, by simp [Namespace.Namespace, mergeNamespaces, mergeNamespace, h1, he]; rfl⟩

theorem NewNamespace_v1_shop (f : Nat) :
    NewNamespace "/v1".toList [NSGet "/shop/:id".toList f] = some (nsV1Shop Ctx f) := by
  rfl

/-- C4, amended: when a namespace with prefix `q` is merged into a parent, by
`Namespace.Namespace` or by `AddNamespace`, the tree of the parent for a method of
the namespace holds the controller-bound leaves the parent had there, followed by
those of the tree of the namespace, and a leaf of the namespace with recorded
pattern `p` now records `q` followed by `p` when `p` does not begin with `q`, and
still `p` when it does. -/
theorem merge_records_pattern (n ni : Namespace Ctx)
    (r : Namespace Ctx × List (Namespace Ctx)) (hm : n.Namespace [ni] = some r)
    (hnd : (mapKeys ni.handlers.routers).Nodup) (k : GoString) (v : Tree)
    (hv : mapGet ni.handlers.routers k = some v) :
    AddNamespace n.handlers [ni] = some (r.1.handlers, r.2) ∧
    ∃ t', mapGet r.1.handlers.routers k = some t' ∧
      t'.patterns = patternsOf (mapGet n.handlers.routers k) ++
        v.patterns.map (pfxOnce ni.pfx) ∧
      (∀ p, HasPrefix p ni.pfx = false → pfxOnce ni.pfx p = ni.pfx ++ p) ∧
      (∀ p, HasPrefix p ni.pfx = true → pfxOnce ni.pfx p = p) := by
  obtain ⟨_, _, _, _, ha⟩ := Namespace_single n ni r hm
  obtain ⟨t', segs, h1, _, _, _, h2⟩ := merged_entry n ni r hm hnd k v hv
  refine ⟨ha, t', h1, ?_, ?_, ?_⟩
  · rw [patterns_of_routes t' _ v ni.pfx segs h2, patternsOf_routesOf]
  · intro p hp
    exact pfxOnce_of_not_HasPrefix _ _ hp
  · intro p hp
    simp [pfxOnce, hp]

theorem merge_records_pattern_witness :
    exParent.Namespace [exV1Shop] = some exMerged ∧
    mapGet exV1Shop.handlers.routers "GET".toList = some exShopTree ∧
    exShopTree.patterns = ["/shop/:id".toList] ∧
    (AddNamespace exParent.handlers [exV1Shop] = some (exMerged.1.handlers, exMerged.2) ∧
      ∃ t', mapGet exMerged.1.handlers.routers "GET".toList = some t' ∧
        t'.patterns = patternsOf (mapGet exParent.handlers.routers "GET".toList) ++
          exShopTree.patterns.map (pfxOnce exV1Shop.pfx) ∧
        (∀ p, HasPrefix p exV1Shop.pfx = false → pfxOnce exV1Shop.pfx p = exV1Shop.pfx ++ p) ∧
        (∀ p, HasPrefix p exV1Shop.pfx = true → pfxOnce exV1Shop.pfx p = p)) :=
  ⟨by rfl, by rfl, by decide,
    merge_records_pattern exParent exV1Shop exMerged (by rfl) (by decide) "GET".toList
      exShopTree (by rfl)⟩

/-- C4 as stated fails: the namespace `NewNamespace("/a", NSGet("/ab", f))` has one
leaf, with recorded pattern `/ab`; after the merge into a parent, by
`Namespace.Namespace` or by `AddNamespace`, the leaf still records `/ab`, which is
not `/a` followed by `/ab`. -/
theorem merge_keeps_prefixed_pattern :
    NewNamespace "/a".toList [NSGet "/ab".toList 1] = some exNsA ∧
    (mapGet exNsA.handlers.routers "GET".toList).map Tree.patterns =
      some ["/ab".toList] ∧
    (exParent.Namespace [exNsA]).map
      (fun r => patternsOf (mapGet r.1.handlers.routers "GET".toList)) =
      some ["/ab".toList] ∧
    (AddNamespace exParent.handlers [exNsA]).map
      (fun r => patternsOf (mapGet r.1.routers "GET".toList)) = some ["/ab".toList] ∧
    ["/ab".toList] ≠ ["/ab".toList].map (fun p => exNsA.pfx ++ p) :=
  ⟨by rfl, by decide, by decide, by decide, by decide⟩

/-- C5, amended: when a namespace `B` (prefix `b`) is nested into `A` (prefix `a`) and
`A` is then merged into a parent, a controller route of `B` lies in the tree of the
parent below the segments of `a` followed by those of `b`, and its recorded pattern
`p` has been visited once for `b` and then once for `a`: it is `a + b + p` when `p`
does not begin with `b` and `b + p` does not begin with `a`; a visit finding its
prefix at the head of the pattern leaves the pattern as it is. -/
theorem nested_merge_records_pattern (nP nA nB : Namespace Ctx)
    (rA : Namespace Ctx × List (Namespace Ctx)) (hA : nA.Namespace [nB] = some rA)
    (rP : Namespace Ctx × List (Namespace Ctx)) (hP : nP.Namespace [rA.1] = some rP)
    (hndA : (mapKeys nA.handlers.routers).Nodup)
    (hndB : (mapKeys nB.handlers.routers).Nodup) (k : GoString) (v : Tree)
    (hv : mapGet nB.handlers.routers k = some v) :
    ∃ t sa sb, mapGet rP.1.handlers.routers k = some t ∧
      literalPath nA.pfx = some sa ∧ literalPath nB.pfx = some sb ∧
      t.routes = routesOf (mapGet nP.handlers.routers k) ++
        ((routesOf (mapGet nA.handlers.routers k)).map (prefixed nA.pfx sa) ++
          v.routes.map (fun r => prefixed nA.pfx sa (prefixed nB.pfx sb r))) ∧
      (∀ r, (prefixed nA.pfx sa (prefixed nB.pfx sb r)).1 =
        (sa ++ sb).map Step.fixed ++ r.1) ∧
      t.patterns = patternsOf (mapGet nP.handlers.routers k) ++
        ((patternsOf (mapGet nA.handlers.routers k)).map (pfxOnce nA.pfx) ++
          v.patterns.map (fun p => pfxOnce nA.pfx (pfxOnce nB.pfx p))) ∧
      (∀ p, HasPrefix p nB.pfx = false → HasPrefix (nB.pfx ++ p) nA.pfx = false →
        pfxOnce nA.pfx (pfxOnce nB.pfx p) = nA.pfx ++ (nB.pfx ++ p)) := by
  obtain ⟨nB', hB1, _, hpA, _⟩ := Namespace_single nA nB rA hA
  obtain ⟨_, _, hkeys, _⟩ := mergeNamespace_routers _ _ _ _ hB1 hndB
  obtain ⟨tA, sb, a1, _, a2, _, a3⟩ := merged_entry nA nB rA hA hndB k v hv
  obtain ⟨t, sa, b1, _, b2, _, b3⟩ := merged_entry nP rA.1 rP hP (hkeys hndA) k tA a1
  rw [hpA] at b2 b3
  have hr : t.routes = routesOf (mapGet nP.handlers.routers k) ++
      ((routesOf (mapGet nA.handlers.routers k)).map (prefixed nA.pfx sa) ++
        v.routes.map (fun r => prefixed nA.pfx sa (prefixed nB.pfx sb r))) := by
    rw [b3, a3]
    simp [List.map_map, Function.comp_def]
  refine ⟨t, sa, sb, b1, b2, a2, hr, ?_, ?_, ?_⟩
  · intro r
    simp [prefixed]
  · simp only [Tree.patterns, hr, List.filterMap_append, List.filterMap_map,
      List.map_filterMap, ← patternsOf_routesOf]
    congr 2
    · congr 1
      funext r
      simp [prefixed, leafPattern_addPrefixLeaf]
    · congr 1
      funext r
      simp [prefixed, leafPattern_addPrefixLeaf, Function.comp_def]
  · intro p h1 h2
    rw [pfxOnce_of_not_HasPrefix _ _ h1, pfxOnce_of_not_HasPrefix _ _ h2]

theorem nested_merge_records_pattern_witness :
    exV1.Namespace [exShop] = some exNested ∧
    exParent.Namespace [exNested.1] = some exNestedMerged ∧
    mapGet exShop.handlers.routers "GET".toList = some exIdTree ∧
    exIdTree.patterns = ["/:id".toList] ∧
    patternsOf (mapGet exNestedMerged.1.handlers.routers "GET".toList) =
      ["/v1/shop/:id".toList] ∧
    ∃ t sa sb, mapGet exNestedMerged.1.handlers.routers "GET".toList = some t ∧
      literalPath exV1.pfx = some sa ∧ literalPath exShop.pfx = some sb ∧
      t.routes = routesOf (mapGet exParent.handlers.routers "GET".toList) ++
        ((routesOf (mapGet exV1.handlers.routers "GET".toList)).map (prefixed exV1.pfx sa) ++
          exIdTree.routes.map (fun r => prefixed exV1.pfx sa (prefixed exShop.pfx sb r))) ∧
      (∀ r, (prefixed exV1.pfx sa (prefixed exShop.pfx sb r)).1 =
        (sa ++ sb).map Step.fixed ++ r.1) ∧
      t.patterns = patternsOf (mapGet exParent.handlers.routers "GET".toList) ++
        ((patternsOf (mapGet exV1.handlers.routers "GET".toList)).map (pfxOnce exV1.pfx) ++
          exIdTree.patterns.map (fun p => pfxOnce exV1.pfx (pfxOnce exShop.pfx p))) ∧
      (∀ p, HasPrefix p exShop.pfx = false → HasPrefix (exShop.pfx ++ p) exV1.pfx = false →
        pfxOnce exV1.pfx (pfxOnce exShop.pfx p) = exV1.pfx ++ (exShop.pfx ++ p)) :=
  ⟨by rfl, by rfl, by rfl, by decide, by decide,
    nested_merge_records_pattern exParent exV1 exShop exNested (by rfl) exNestedMerged
      (by rfl) (by decide) (by decide) "GET".toList exIdTree (by rfl)⟩

/-- C5 as stated fails: with `a = /s`, `b = /shop` and the route `/:id` registered in
`B`, the pattern recorded after `B` is nested into `A` and `A` is merged into a parent
is `/shop/:id`, not `/s/shop/:id`: `/s` is found at the head of `/shop/:id`. -/
theorem nested_merge_skips_outer :
    NewNamespace "/shop".toList [NSGet "/:id".toList 1] = some exShop ∧
    NewNamespace "/s".toList [NSNamespace "/shop".toList [NSGet "/:id".toList 1]] =
      (exS.Namespace [exShop]).map (fun r => r.1) ∧
    ((exS.Namespace [exShop]).bind (fun rA => exParent.Namespace [rA.1])).map
      (fun rP => patternsOf (mapGet rP.1.handlers.routers "GET".toList)) =
      some ["/shop/:id".toList] ∧
    "/shop/:id".toList ≠ exS.pfx ++ (exShop.pfx ++ "/:id".toList) :=
  ⟨by rfl, by rfl, by decide, by decide⟩

/-- C6: after `parent.Namespace(child)` the parent owns a tree for every method the
child has a tree for.  Where the parent had a tree, the tree of the child (visited
by `addPrefix`) has been added into it by `AddTree` under the prefix of the child:
the leaves of the old tree are kept and those of the child follow below the
segments of the prefix.  Where it had none, the tree is a new tree that holds the
tree of the child under the prefix and nothing else.  The trees for the methods the
child lacks are the trees the parent had. -/
theorem merge_trees_per_method (n ni : Namespace Ctx)
    (r : Namespace Ctx × List (Namespace Ctx)) (hm : n.Namespace [ni] = some r)
    (hnd : (mapKeys ni.handlers.routers).Nodup) (k : GoString) :
    (mapGet ni.handlers.routers k = none →
      mapGet r.1.handlers.routers k = mapGet n.handlers.routers k) ∧
    (∀ v, mapGet ni.handlers.routers k = some v →
      ∃ t' segs, mapGet r.1.handlers.routers k = some t' ∧
        literalPath ni.pfx = some segs ∧ segs ≠ [] ∧
        (∀ t, mapGet n.handlers.routers k = some t →
          t.AddTree ni.pfx (addPrefix v ni.pfx) = some t' ∧
          t'.routes = t.routes ++ v.routes.map (prefixed ni.pfx segs)) ∧
        (mapGet n.handlers.routers k = none →
          (NewTree.AddTree ni.pfx v).map (fun t => addPrefix t ni.pfx) = some t' ∧
          t'.routes = v.routes.map (prefixed ni.pfx segs))) := by
  refine ⟨?_, ?_⟩
  · intro hnone
    obtain ⟨ni', h1, _, _, _⟩ := Namespace_single n ni r hm
    obtain ⟨_, _, _, h2⟩ := mergeNamespace_routers _ _ _ _ h1 hnd
    have h3 := h2 k
    rw [hnone] at h3
    exact h3
  · intro v hv
    obtain ⟨t', segs, h1, h2, h3, h4, h5⟩ := merged_entry n ni r hm hnd k v hv
    refine ⟨t', segs, h1, h3, h4, ?_, ?_⟩
    · intro t ht
      rw [ht] at h2 h5
      exact ⟨h2, h5⟩
    · intro ht
      rw [ht] at h2 h5
      exact ⟨h2, by simpa [routesOf] using h5⟩

theorem merge_trees_per_method_witness :
    exParent.Namespace [exV1Shop] = some exMerged ∧
    mapGet exV1Shop.handlers.routers "GET".toList = some exShopTree ∧
    mapGet exParent.handlers.routers "GET".toList = none ∧
    ((mapGet exV1Shop.handlers.routers "GET".toList = none →
      mapGet exMerged.1.handlers.routers "GET".toList =
        mapGet exParent.handlers.routers "GET".toList) ∧
    (∀ v, mapGet exV1Shop.handlers.routers "GET".toList = some v →
      ∃ t' segs, mapGet exMerged.1.handlers.routers "GET".toList = some t' ∧
        literalPath exV1Shop.pfx = some segs ∧ segs ≠ [] ∧
        (∀ t, mapGet exParent.handlers.routers "GET".toList = some t →
          t.AddTree exV1Shop.pfx (addPrefix v exV1Shop.pfx) = some t' ∧
          t'.routes = t.routes ++ v.routes.map (prefixed exV1Shop.pfx segs)) ∧
        (mapGet exParent.handlers.routers "GET".toList = none →
          (NewTree.AddTree exV1Shop.pfx v).map (fun t => addPrefix t exV1Shop.pfx) = some t' ∧
          t'.routes = v.routes.map (prefixed exV1Shop.pfx segs)))) :=
  ⟨by rfl, by rfl, by rfl,
    merge_trees_per_method exParent exV1Shop exMerged (by rfl) (by decide) "GET".toList⟩

/-- C9: when two namespaces with the same prefix are merged one after the other into
one parent, by two calls of `Namespace.Namespace` or of `AddNamespace` or by one
call of either with both namespaces, the tree of the parent for a method holds the
routes it had, then those of the first namespace, then those of the second, all
below the segments of the prefix.  Where both have a tree for the method, the second
merge is an `AddTree` on the tree the first merge left: the routes of that tree are
kept in their order and the routes of the second namespace follow, so of two leaves
for one pattern the one registered first comes first; and a path the tree resolved
through its literal children resolves to the same leaf afterwards. -/
theorem merge_colliding_keeps_both (n nA nB : Namespace Ctx)
    (r1 : Namespace Ctx × List (Namespace Ctx)) (hm1 : n.Namespace [nA] = some r1)
    (r2 : Namespace Ctx × List (Namespace Ctx)) (hm2 : r1.1.Namespace [nB] = some r2)
    (hq : nA.pfx = nB.pfx)
    (hndA : (mapKeys nA.handlers.routers).Nodup)
    (hndB : (mapKeys nB.handlers.routers).Nodup) (k : GoString) :
    AddNamespace n.handlers [nA] = some (r1.1.handlers, r1.2) ∧
    AddNamespace r1.1.handlers [nB] = some (r2.1.handlers, r2.2) ∧
    n.Namespace [nA, nB] = some (r2.1, r1.2 ++ r2.2) ∧
    AddNamespace n.handlers [nA, nB] = some (r2.1.handlers, r1.2 ++ r2.2) ∧
    routesOf (mapGet r2.1.handlers.routers k) =
      routesOf (mapGet n.handlers.routers k) ++
        ((routesOf (mapGet nA.handlers.routers k)).map (prefixed nA.pfx (pathOf nA.pfx)) ++
          (routesOf (mapGet nB.handlers.routers k)).map (prefixed nA.pfx (pathOf nA.pfx))) ∧
    (∀ t1 vb, mapGet r1.1.handlers.routers k = some t1 →
      mapGet nB.handlers.routers k = some vb →
      ∃ t2, t1.AddTree nA.pfx (addPrefix vb nA.pfx) = some t2 ∧
        mapGet r2.1.handlers.routers k = some t2 ∧
        t2.routes = t1.routes ++ vb.routes.map (prefixed nA.pfx (pathOf nA.pfx)) ∧
        ∀ seg rest m, lookupFix t1.fixrouters seg rest [] = some m →
          t2.lookup (seg :: rest) [] = some m) ∧
    (mapGet nB.handlers.routers k = none →
      mapGet r2.1.handlers.routers k = mapGet r1.1.handlers.routers k) := by
  obtain ⟨c1, c2, c3⟩ := Namespace_pair n nA nB r1 hm1 r2 hm2
  refine ⟨(Namespace_single n nA r1 hm1).choose_spec.2.2.2,
    (Namespace_single r1.1 nB r2 hm2).choose_spec.2.2.2, c1, c2, ?_, ?_, ?_⟩
  · rw [merged_routesOf r1.1 nB r2 hm2 hndB k, merged_routesOf n nA r1 hm1 hndA k, ← hq]
    simp
  · intro t1 vb ht1 hvb
    obtain ⟨t2, segs, b1, b2, b3, _, b5⟩ := merged_entry r1.1 nB r2 hm2 hndB k vb hvb
    rw [ht1] at b2 b5
    rw [← hq] at b2 b3 b5
    simp only [mergedTree] at b2
    refine ⟨t2, b2, b1, ?_, ?_⟩
    · simp only [b5, routesOf, Option.map_some', Option.getD_some, pathOf, b3]
    · intro seg rest m hl
      exact AddTree_lookup_kept t1 t2 _ _ b2 seg rest [] m hl
  · intro hnone
    obtain ⟨nB', h1, _, _, _⟩ := Namespace_single r1.1 nB r2 hm2
    obtain ⟨_, _, _, h2⟩ := mergeNamespace_routers _ _ _ _ h1 hndB
    have h3 := h2 k
    rw [hnone] at h3
    exact h3

theorem merge_colliding_keeps_both_witness :
    exParent.Namespace [exL1] = some exL1Merged ∧
    exL1Merged.1.Namespace [exL2] = some exL12Merged ∧
    (routesOf (mapGet exL12Merged.1.handlers.routers "GET".toList)).map
        (fun x => (x.1, x.2.runObject)) =
      [([.fixed "v1".toList, .fixed "shop".toList],
          .controller { pattern := "/v1/shop".toList, handler := 1 }),
        ([.fixed "v1".toList, .fixed "shop".toList],
          .controller { pattern := "/v1/shop".toList, handler := 2 })] ∧
    (mapGet exL12Merged.1.handlers.routers "GET".toList).bind
        (fun t => t.Lookup "/v1/shop".toList) =
      some (.controller { pattern := "/v1/shop".toList, handler := 1 }, []) ∧
    (AddNamespace exParent.handlers [exL1] = some (exL1Merged.1.handlers, exL1Merged.2) ∧
    AddNamespace exL1Merged.1.handlers [exL2] =
      some (exL12Merged.1.handlers, exL12Merged.2) ∧
    exParent.Namespace [exL1, exL2] = some (exL12Merged.1, exL1Merged.2 ++ exL12Merged.2) ∧
    AddNamespace exParent.handlers [exL1, exL2] =
      some (exL12Merged.1.handlers, exL1Merged.2 ++ exL12Merged.2) ∧
    routesOf (mapGet exL12Merged.1.handlers.routers "GET".toList) =
      routesOf (mapGet exParent.handlers.routers "GET".toList) ++
        ((routesOf (mapGet exL1.handlers.routers "GET".toList)).map
            (prefixed exL1.pfx (pathOf exL1.pfx)) ++
          (routesOf (mapGet exL2.handlers.routers "GET".toList)).map
            (prefixed exL1.pfx (pathOf exL1.pfx))) ∧
    (∀ t1 vb, mapGet exL1Merged.1.handlers.routers "GET".toList = some t1 →
      mapGet exL2.handlers.routers "GET".toList = some vb →
      ∃ t2, t1.AddTree exL1.pfx (addPrefix vb exL1.pfx) = some t2 ∧
        mapGet exL12Merged.1.handlers.routers "GET".toList = some t2 ∧
        t2.routes = t1.routes ++ vb.routes.map (prefixed exL1.pfx (pathOf exL1.pfx)) ∧
        ∀ seg rest m, lookupFix t1.fixrouters seg rest [] = some m →
          t2.lookup (seg :: rest) [] = some m) ∧
    (mapGet exL2.handlers.routers "GET".toList = none →
      mapGet exL12Merged.1.handlers.routers "GET".toList =
        mapGet exL1Merged.1.handlers.routers "GET".toList)) :=
  ⟨by rfl, by rfl, by decide, by decide,
    merge_colliding_keeps_both exParent exL1 exL2 exL1Merged (by rfl) exL12Merged (by rfl)
      (by rfl) (by decide) (by decide) "GET".toList⟩

/-- C10: the namespace with prefix `/v1` that contains the route `/shop/:id` is merged
into a parent whose tree for GET, if it has one, matches neither `/v1/shop/42` nor
`/shop/42`.  The merge returns, by `Namespace.Namespace` as by `AddNamespace`, and
on the tree of the parent for GET the lookup of `/v1/shop/42` finds the route, with
`42` captured as `id`, and the lookup of `/shop/42` finds no match. -/
theorem namespace_merge_lookup (n : Namespace Ctx) (f : Nat)
    (h : ∀ t0, mapGet n.handlers.routers "GET".toList = some t0 →
      t0.Lookup "/v1/shop/42".toList = none ∧ t0.Lookup "/shop/42".toList = none) :
    ∃ ni r t, NewNamespace "/v1".toList [NSGet "/shop/:id".toList f] = some ni ∧
      n.Namespace [ni] = some r ∧
      AddNamespace n.handlers [ni] = some (r.1.handlers, r.2) ∧
      mapGet r.1.handlers.routers "GET".toList = some t ∧
      t.Lookup "/v1/shop/42".toList =
        some (.controller { pattern := "/v1/shop/:id".toList, handler := f },
          [("id".toList, "42".toList)]) ∧
      t.Lookup "/shop/42".toList = none := by
  have hl : literalPath (nsV1Shop Ctx f).pfx = some ["v1".toList] := by rfl
  have hs1 : splitPath "/v1/shop/42".toList = ["v1".toList, "shop".toList, "42".toList] := by
    decide
  have hs2 : splitPath "/shop/42".toList = ["shop".toList, "42".toList] := by decide
  have hpre : addPrefix (shopIdTree "/shop/:id".toList f) "/v1".toList =
      shopIdTree "/v1/shop/:id".toList f := by rfl
  have hfound : (shopIdTree "/v1/shop/:id".toList f).lookup ["shop".toList, "42".toList] [] =
      some (.controller { pattern := "/v1/shop/:id".toList, handler := f },
          [("id".toList, "42".toList)]) := by rfl
  obtain ⟨r, hr⟩ := Namespace_ok n (nsV1Shop Ctx f) _ _ hl
  obtain ⟨_, _, _, _, ha⟩ := Namespace_single n _ r hr
  obtain ⟨t, segs, g1, g2, _, _, _⟩ := merged_entry n (nsV1Shop Ctx f) r hr
    (by simp [nsV1Shop, mapKeys]) "GET".toList (shopIdTree "/shop/:id".toList f) (by rfl)
  refine ⟨nsV1Shop Ctx f, r, t, NewNamespace_v1_shop f, hr, ha, g1, ?_⟩
  cases hg : mapGet n.handlers.routers "GET".toList with
  | none =>
    rw [hg] at g2
    have ht : t = .node [("v1".toList, shopIdTree "/v1/shop/:id".toList f)] none [] := by
      have : mergedTree (nsV1Shop Ctx f).pfx none (shopIdTree "/shop/:id".toList f) =
          some (.node [("v1".toList, shopIdTree "/v1/shop/:id".toList f)] none []) := by rfl
      rw [this] at g2
      exact (Option.some.inj g2).symm
    subst ht
    exact ⟨by rfl, by rfl⟩
  | some t0 =>
    rw [hg] at g2
    simp only [mergedTree] at g2
    obtain ⟨h1, h2⟩ := h t0 hg
    simp only [Tree.Lookup, hs1, hs2] at h1 h2 ⊢
    obtain ⟨a1, a2⟩ := lookup_cons_none _ _ _ _ h1
    obtain ⟨b1, b2⟩ := lookup_cons_none _ _ _ _ h2
    rw [AddTree_lookup t0 t _ _ _ _ hl g2, AddTree_lookup t0 t _ _ _ _ hl g2]
    refine ⟨?_, ?_⟩
    · rw [a1]
      simp only [if_true, chain]
      have : addPrefix (shopIdTree "/shop/:id".toList f) (nsV1Shop Ctx f).pfx =
        shopIdTree "/v1/shop/:id".toList f := hpre
      rw [this, hfound]
    · rw [b1, b2]
      have : ("v1".toList = "shop".toList) = False := by decide
      simp only [this, if_false]

theorem namespace_merge_lookup_witness :
    (∀ t0, mapGet exParent.handlers.routers "GET".toList = some t0 →
      t0.Lookup "/v1/shop/42".toList = none ∧ t0.Lookup "/shop/42".toList = none) ∧
    ∃ ni r t, NewNamespace "/v1".toList [NSGet "/shop/:id".toList 1] = some ni ∧
      exParent.Namespace [ni] = some r ∧
      AddNamespace exParent.handlers [ni] = some (r.1.handlers, r.2) ∧
      mapGet r.1.handlers.routers "GET".toList = some t ∧
      t.Lookup "/v1/shop/42".toList =
        some (.controller { pattern := "/v1/shop/:id".toList, handler := 1 },
          [("id".toList, "42".toList)]) ∧
      t.Lookup "/shop/42".toList = none :=
  ⟨(fun _ h => by cases h), namespace_merge_lookup exParent 1 (fun _ h => by cases h)⟩

end MergeClaims

/-! ## `Filter`: the entries it adds -/

section FilterClaim
variable {Ctx : Type} (BeforeRouter FinishRouter : Int)

theorem InsertFilter_loop_frame (a : Int) (fs : List (Ctx → Ctx)) :
    ∀ (p p' : ControllerRegister Ctx),
      fs.foldlM (fun (h : ControllerRegister Ctx) f => h.InsertFilter ['*'] a f) p = some p' →
      p'.routers = p.routers ∧ ∀ pos, a ≠ pos → mapGet p'.filters pos = mapGet p.filters pos := by
  induction fs with
  | nil =>
    intro p p' h
    simp at h
    subst h
    exact ⟨rfl, fun _ _ => rfl⟩
  | cons f rest ih =>
    intro p p' h
    simp only [List.foldlM_cons, InsertFilter_star] at h
    obtain ⟨h1, h2⟩ := ih _ _ h
    refine ⟨by rw [h1]; rfl, ?_⟩
    intro pos hp
    rw [h2 pos hp, insertFilterRouter_get_other _ _ _ _ hp]

theorem Filter_at (n : Namespace Ctx) (action : GoString) (a : Int) (fs : List (Ctx → Ctx))
    (ha : (if action = ['b', 'e', 'f', 'o', 'r', 'e'] then BeforeRouter
      else if action = ['a', 'f', 't', 'e', 'r'] then FinishRouter else 0) = a) :
    ∃ n', n.Filter BeforeRouter FinishRouter action fs = some n' ∧
      n'.pfx = n.pfx ∧ n'.handlers.routers = n.handlers.routers ∧
      filtersAt n'.handlers a = filtersAt n.handlers a ++ fs.map userEntry ∧
      ∀ pos, pos ≠ a → mapGet n'.handlers.filters pos = mapGet n.handlers.filters pos := by
  obtain ⟨p', h1, h2⟩ := InsertFilter_loop a fs n.handlers
  obtain ⟨h3, h4⟩ := InsertFilter_loop_frame a fs _ _ h1
  refine ⟨{ n with handlers := p' }, ?_, rfl, h3, h2, fun pos hp => h4 pos (Ne.symm hp)⟩
  simp only [Namespace.Filter, ha, h1]
  rfl

/-- C11: `n.Filter("before", f1..fk)` returns and adds `k` entries with the pattern
`*`, for `f1..fk` in this order, at the end of the before-router list;
`n.Filter("after", f1..fk)` adds them in this order at the end of the finish-router
list; in both cases the lists of all other interception points, the trees and the
prefix are as before.  `NSBefore` and `NSAfter` are these two calls. -/
theorem Filter_appends_entries (n : Namespace Ctx) (fs : List (Ctx → Ctx)) :
    (∃ n', n.Filter BeforeRouter FinishRouter ['b', 'e', 'f', 'o', 'r', 'e'] fs = some n' ∧
      NSBefore BeforeRouter FinishRouter fs n = some n' ∧
      n'.pfx = n.pfx ∧ n'.handlers.routers = n.handlers.routers ∧
      filtersAt n'.handlers BeforeRouter =
        filtersAt n.handlers BeforeRouter ++ fs.map userEntry ∧
      ∀ pos, pos ≠ BeforeRouter →
        mapGet n'.handlers.filters pos = mapGet n.handlers.filters pos) ∧
    (∃ n', n.Filter BeforeRouter FinishRouter ['a', 'f', 't', 'e', 'r'] fs = some n' ∧
      NSAfter BeforeRouter FinishRouter fs n = some n' ∧
      n'.pfx = n.pfx ∧ n'.handlers.routers = n.handlers.routers ∧
      filtersAt n'.handlers FinishRouter =
        filtersAt n.handlers FinishRouter ++ fs.map userEntry ∧
      ∀ pos, pos ≠ FinishRouter →
        mapGet n'.handlers.filters pos = mapGet n.handlers.filters pos) ∧
    (fs.map (fun f => (userEntry f : FilterRouter Ctx))).map (fun mr => mr.filterFunc) = fs ∧
    ∀ mr ∈ fs.map (fun f => (userEntry f : FilterRouter Ctx)), mr.pattern = ['*'] := by
  refine ⟨?_, ?_, ?_, ?_⟩
  · obtain ⟨n', h1, h2, h3, h4, h5⟩ :=
      Filter_at BeforeRouter FinishRouter n ['b', 'e', 'f', 'o', 'r', 'e'] BeforeRouter fs
        (by simp)
    exact ⟨n', h1, h1, h2, h3, h4, h5⟩
  · obtain ⟨n', h1, h2, h3, h4, h5⟩ :=
      Filter_at BeforeRouter FinishRouter n ['a', 'f', 't', 'e', 'r'] FinishRouter fs
        (by simp)
    exact ⟨n', h1, h1, h2, h3, h4, h5⟩
  · simp [List.map_map, Function.comp_def, userEntry]
  · intro mr hmr
    simp only [List.mem_map] at hmr
    obtain ⟨f, _, rfl⟩ := hmr
    rfl

end FilterClaim

/-! ## The parameter store: `Param`, `SetParam`, `Params`, `ParamsLen` -/

section Store

theorem paramLoop_eq (key : GoString) (names : List GoString) :
    ∀ (pre vs : List GoString), names.length = vs.length →
      paramLoop key (pre ++ vs) names pre.length =
        some ((mapGet (names.zip vs) key).getD []) := by
  induction names with
  | nil =>
    intro pre vs _
    simp [paramLoop, mapGet]
  | cons v rest ih =>
    intro pre vs h
    cases vs with
    | nil => simp at h
    | cons x vs' =>
      simp only [List.length_cons, Nat.add_right_cancel_iff] at h
      by_cases hk : v = key
      · simp only [paramLoop, hk, true_and, List.zip_cons_cons, mapGet, if_true,
          Option.getD_some]
        rw [if_pos (by simp)]
        simp only [List.getElem?_eq_getElem, List.length_append, List.length_cons,
          Nat.lt_add_right_iff_pos, Nat.zero_lt_succ, Option.some.injEq]
        rw [List.getElem_append_right (Nat.le_refl _)]
        simp
      · have := ih (pre ++ [x]) vs' h
        simp only [List.length_append, List.length_singleton, List.append_assoc,
          List.singleton_append] at this
        simp only [paramLoop, hk, false_and, if_false, List.zip_cons_cons, mapGet]
        exact this

theorem Param_eq (s : gowebInput) (h : s.pnames.length = s.pvalues.length)
    (key : GoString) :
    s.Param key = some ((mapGet (s.pnames.zip s.pvalues) key).getD []) := by
  have := paramLoop_eq key s.pnames [] s.pvalues h
  simpa [gowebInput.Param] using this

theorem setParamLoop_found (key val : GoString) (names : List GoString) :
    ∀ (pre vs : List GoString), names.length = vs.length → key ∈ names →
      ∃ vs', setParamLoop key val (pre ++ vs) names pre.length = some (some (pre ++ vs')) ∧
        vs'.length = vs.length ∧ names.zip vs' = mapSet (names.zip vs) key val := by
  induction names with
  | nil =>
    intro pre vs _ hm
    simp at hm
  | cons v rest ih =>
    intro pre vs h hm
    cases vs with
    | nil => simp at h
    | cons x vs' =>
      simp only [List.length_cons, Nat.add_right_cancel_iff] at h
      by_cases hk : v = key
      · refine ⟨val :: vs', ?_, by simp,
          by simp only [List.zip_cons_cons, mapSet, hk, if_true]; rfl⟩
        simp [setParamLoop, hk]
      · have hm' : key ∈ rest := by
          rcases List.mem_cons.mp hm with e | e
          · exact absurd e.symm hk
          · exact e
        obtain ⟨ws, h1, h2, h3⟩ := ih (pre ++ [x]) vs' h hm'
        simp only [List.length_append, List.length_singleton, List.append_assoc,
          List.singleton_append] at h1
        refine ⟨x :: ws, ?_, by simp [h2],
          by simp only [List.zip_cons_cons, mapSet, hk, if_false, h3]; rfl⟩
        simp [setParamLoop, hk, h1]

theorem setParamLoop_absent (key val : GoString) (names : List GoString) :
    ∀ (pvalues : List GoString) (i : Nat), key ∉ names →
      setParamLoop key val pvalues names i = some none := by
  induction names with
  | nil =>
    intro pvalues i _
    rfl
  | cons v rest ih =>
    intro pvalues i hm
    have hk : ¬ v = key := fun e => hm (by simp [e])
    have hr : key ∉ rest := fun e => hm (List.mem_cons_of_mem _ e)
    simp [setParamLoop, hk, ih pvalues (i + 1) hr]

theorem mapSet_zip_absent (names vs : List GoString) (key val : GoString)
    (h : names.length = vs.length) (hm : key ∉ names) :
    mapSet (names.zip vs) key val = (names ++ [key]).zip (vs ++ [val]) := by
  induction names generalizing vs with
  | nil =>
    cases vs with
    | nil => simp [mapSet]
    | cons x vs' => simp at h
  | cons v rest ih =>
    cases vs with
    | nil => simp at h
    | cons x vs' =>
      simp only [List.length_cons, Nat.add_right_cancel_iff] at h
      have hk : ¬ v = key := fun e => hm (by simp [e])
      have hr : key ∉ rest := fun e => hm (List.mem_cons_of_mem _ e)
      have e := ih vs' h hr
      simp only [List.zip_cons_cons, mapSet, hk, if_false, List.cons_append]
      exact congrArg _ e

theorem mapKeys_zip (names vs : List GoString) (h : names.length = vs.length) :
    mapKeys (names.zip vs) = names := by
  simp only [mapKeys]
  exact List.map_fst_zip _ _ (by omega)

/-- What `SetParam` does to a store whose names and values match in number. -/
theorem SetParam_eq (s : gowebInput) (hw : s.wf) (key val : GoString) :
    ∃ s', s.SetParam key val = some s' ∧ s'.wf ∧ s'.Context = s.Context ∧
      s'.pnames.zip s'.pvalues = mapSet (s.pnames.zip s.pvalues) key val ∧
      (key ∈ s.pnames → s'.pnames = s.pnames) ∧
      (key ∉ s.pnames → s'.pnames = s.pnames ++ [key]) := by
  obtain ⟨hl, hn⟩ := hw
  by_cases hm : key ∈ s.pnames
  · obtain ⟨vs', h1, h2, h3⟩ := setParamLoop_found key val s.pnames [] s.pvalues hl hm
    simp only [List.nil_append, List.length_nil] at h1
    refine ⟨{ s with pvalues := vs' }, ?_, ⟨by simp [h2, hl], hn⟩, rfl, h3,
      fun _ => rfl, fun h => absurd hm h⟩
    simp [gowebInput.SetParam, h1]
  · have h1 := setParamLoop_absent key val s.pnames s.pvalues 0 hm
    refine ⟨{ s with pvalues := s.pvalues ++ [val], pnames := s.pnames ++ [key] }, ?_,
      ⟨by simp [hl], ?_⟩, rfl, (mapSet_zip_absent _ _ _ _ hl hm).symm,
      fun h => absurd h hm, fun _ => rfl⟩
    · simp [gowebInput.SetParam, h1]
    · exact List.Nodup.append hn (by simp) (by simpa using hm)

theorem wf_NewInput : NewInput.wf := by
  simp [gowebInput.wf, NewInput]

theorem wf_Reset (s : gowebInput) (ctx : Option Context) : (s.Reset ctx).wf := by
  simp [gowebInput.wf, gowebInput.Reset]

/-- Every sequence of calls returns, and leaves a store whose names and values
match in number and whose names are distinct. -/
theorem runInput_wf (ops : List InputOp) :
    ∀ s, s.wf → ∃ s', runInput ops s = some s' ∧ s'.wf := by
  induction ops with
  | nil => exact fun s hs => ⟨s, rfl, hs⟩
  | cons op rest ih =>
    intro s hs
    cases op with
    | setParam k v =>
      obtain ⟨s1, h1, w1, _⟩ := SetParam_eq s hs k v
      obtain ⟨s2, h2, w2⟩ := ih s1 w1
      exact ⟨s2, by simp [runInput, InputOp.run, h1]; exact h2, w2⟩
    | reset ctx =>
      obtain ⟨s2, h2, w2⟩ := ih (s.Reset ctx) (wf_Reset s ctx)
      exact ⟨s2, by simp [runInput, InputOp.run]; exact h2, w2⟩

end Store

section Store2

theorem sinceReset_setParam (ops : List InputOp) (k v : GoString) :
    sinceReset (ops ++ [.setParam k v]) = sinceReset ops ++ [(k, v)] := by
  simp [sinceReset, List.foldl_append]

theorem sinceReset_reset (ops : List InputOp) (ctx : Option Context) :
    sinceReset (ops ++ [.reset ctx]) = [] := by
  simp [sinceReset, List.foldl_append]

theorem runInput_append (ops : List InputOp) (op : InputOp) (s : gowebInput) :
    runInput (ops ++ [op]) s = (runInput ops s).bind (fun s1 => op.run s1) := by
  simp only [runInput, List.foldlM_append, List.foldlM_cons, List.foldlM_nil]
  cases List.foldlM InputOp.run s ops with
  | none => rfl
  | some s1 =>
    simp only [Option.bind_eq_bind, Option.some_bind, Option.bind_some]
    cases op.run s1 <;> rfl

/-- The store a sequence of calls leaves: the calls return, names and values match,
the names are distinct, and the pairs of name and value are the map built by the
assignments since the last `Reset`. -/
theorem runInput_entries (ops : List InputOp) :
    ∃ s, runInput ops NewInput = some s ∧ s.wf ∧
      s.pnames.zip s.pvalues = mapSetAll [] (sinceReset ops) := by
  induction ops using List.reverseRecOn with
  | nil => exact ⟨NewInput, rfl, wf_NewInput, rfl⟩
  | append_singleton ops op ih =>
    obtain ⟨s, h1, hw, hz⟩ := ih
    cases op with
    | setParam k v =>
      obtain ⟨s', a1, a2, _, a4, _, _⟩ := SetParam_eq s hw k v
      refine ⟨s', ?_, a2, ?_⟩
      · rw [runInput_append, h1]
        exact a1
      · rw [a4, hz, sinceReset_setParam]
        simp [mapSetAll, List.foldl_append]
    | reset ctx =>
      refine ⟨s.Reset ctx, ?_, wf_Reset s ctx, ?_⟩
      · rw [runInput_append, h1]
        rfl
      · rw [sinceReset_reset]
        rfl

theorem mapGet_mapSetAll (sets : List (GoString × GoString)) :
    ∀ (m : List (GoString × GoString)) (k : GoString),
      mapGet (mapSetAll m sets) k =
        match lastSet sets k with
        | some x => some x
        | none => mapGet m k := by
  induction sets with
  | nil =>
    intro m k
    simp [mapSetAll, lastSet]
  | cons e rest ih =>
    obtain ⟨k0, v0⟩ := e
    intro m k
    have := ih (mapSet m k0 v0) k
    simp only [mapSetAll, List.foldl_cons] at this ⊢
    rw [this]
    simp only [lastSet]
    cases lastSet rest k with
    | some x => rfl
    | none =>
      by_cases hk : k0 = k
      · subst hk
        simp [mapGet_mapSet_self]
      · simp [hk, mapGet_mapSet_other _ _ _ _ hk]

theorem mem_mapKeys_iff {V : Type} (m : List (GoString × V)) (k : GoString) :
    k ∈ mapKeys m ↔ (mapGet m k).isSome = true := by
  induction m with
  | nil => exact ⟨fun h => absurd h (List.not_mem_nil _), fun h => by cases h⟩
  | cons e rest ih =>
    obtain ⟨k0, v0⟩ := e
    by_cases hk : k0 = k
    · subst hk
      have h1 : mapGet ((k0, v0) :: rest) k0 = some v0 := by
        simp only [mapGet, if_true]
      rw [h1]
      exact ⟨fun _ => rfl, fun _ => List.mem_cons_self _ _⟩
    · have hk' : ¬ k = k0 := fun e => hk e.symm
      have h1 : mapGet ((k0, v0) :: rest) k = mapGet rest k := by
        simp only [mapGet, hk, if_false]
      have h2 : k ∈ mapKeys ((k0, v0) :: rest) ↔ k ∈ mapKeys rest := by
        show k ∈ k0 :: List.map Prod.fst rest ↔ k ∈ List.map Prod.fst rest
        rw [List.mem_cons]
        exact ⟨fun h => h.resolve_left hk', Or.inr⟩
      rw [h1, h2]
      exact ih

theorem lastSet_isSome (sets : List (GoString × GoString)) (k : GoString) :
    (lastSet sets k).isSome = true ↔ k ∈ sets.map Prod.fst := by
  induction sets with
  | nil => simp [lastSet]
  | cons e rest ih =>
    obtain ⟨k0, v0⟩ := e
    simp only [lastSet, List.map_cons, List.mem_cons]
    cases h : lastSet rest k with
    | some x =>
      have : k ∈ rest.map Prod.fst := ih.mp (by simp [h])
      simp [this]
    | none =>
      have : k ∉ rest.map Prod.fst := fun hm => by
        have := ih.mpr hm
        simp [h] at this
      by_cases hk : k0 = k
      · simp [hk]
      · have hk' : ¬ k = k0 := fun e => hk e.symm
        simp [hk, hk', this]

theorem mem_mapKeys_mapSetAll (sets : List (GoString × GoString)) (k : GoString) :
    k ∈ mapKeys (mapSetAll [] sets) ↔ k ∈ sets.map Prod.fst := by
  rw [mem_mapKeys_iff, mapGet_mapSetAll, ← lastSet_isSome]
  cases lastSet sets k <;> simp [mapGet]

/-- The names of the store are the keys set since the last `Reset`, once each. -/
theorem runInput_names (ops : List InputOp) :
    ∃ s, runInput ops NewInput = some s ∧ s.wf ∧
      s.pnames.zip s.pvalues = mapSetAll [] (sinceReset ops) ∧
      (∀ k, k ∈ s.pnames ↔ k ∈ (sinceReset ops).map Prod.fst) ∧
      s.pnames.length = ((sinceReset ops).map Prod.fst).toFinset.card := by
  obtain ⟨s, h1, hw, hz⟩ := runInput_entries ops
  have hk : ∀ k, k ∈ s.pnames ↔ k ∈ (sinceReset ops).map Prod.fst := by
    intro k
    rw [← mem_mapKeys_mapSetAll, ← hz, mapKeys_zip _ _ hw.1]
  refine ⟨s, h1, hw, hz, hk, ?_⟩
  rw [← List.toFinset_card_of_nodup hw.2]
  congr 1
  ext k
  simp [hk]

end Store2

section Store3

theorem paramsLoop_eq (names : List GoString) :
    ∀ (pre vs : List GoString) (m : List (GoString × GoString)),
      names.length = vs.length →
      paramsLoop (pre ++ vs) names pre.length m = some (mapSetAll m (names.zip vs)) := by
  induction names with
  | nil =>
    intro pre vs m _
    simp [paramsLoop, mapSetAll]
  | cons v rest ih =>
    intro pre vs m h
    cases vs with
    | nil => simp at h
    | cons x vs' =>
      simp only [List.length_cons, Nat.add_right_cancel_iff] at h
      have := ih (pre ++ [x]) vs' (mapSet m v x) h
      simp only [List.length_append, List.length_singleton, List.append_assoc,
        List.singleton_append] at this
      have hx : (pre ++ x :: vs')[pre.length]? = some x := by
        rw [List.getElem?_append_right (Nat.le_refl _)]
        simp
      simp only [paramsLoop, hx]
      rw [if_pos (by simp), this]
      rfl

theorem mapSet_absent {V : Type} (m : List (GoString × V)) (k : GoString) (v : V)
    (h : k ∉ mapKeys m) : mapSet m k v = m ++ [(k, v)] := by
  induction m with
  | nil => rfl
  | cons e rest ih =>
    obtain ⟨k0, v0⟩ := e
    have hk : ¬ k0 = k := fun e => h (by rw [e]; exact List.mem_cons_self _ _)
    have hr : k ∉ mapKeys rest := fun e => h (List.mem_cons_of_mem _ e)
    simp only [mapSet, hk, if_false, ih hr, List.cons_append]

theorem mapSetAll_nodup (l : List (GoString × GoString)) :
    ∀ m, (mapKeys (m ++ l)).Nodup → mapSetAll m l = m ++ l := by
  induction l with
  | nil =>
    intro m _
    simp [mapSetAll]
  | cons e rest ih =>
    obtain ⟨k0, v0⟩ := e
    intro m h
    have hk : k0 ∉ mapKeys m := by
      intro hm
      simp only [mapKeys, List.map_append, List.map_cons] at h hm
      have := (List.nodup_append.mp h).2.2
      exact this hm (List.mem_cons_self _ _)
    have h' : (mapKeys ((m ++ [(k0, v0)]) ++ rest)).Nodup := by
      simpa [mapKeys] using h
    have := ih (m ++ [(k0, v0)]) h'
    simp only [mapSetAll, List.foldl_cons, mapSet_absent m k0 v0 hk] at this ⊢
    rw [this]
    simp

theorem Params_eq (s : gowebInput) (hw : s.wf) :
    s.Params = some (s.pnames.zip s.pvalues) := by
  have h1 := paramsLoop_eq s.pnames [] s.pvalues [] hw.1
  simp only [List.nil_append, List.length_nil] at h1
  rw [gowebInput.Params, h1, mapSetAll_nodup]
  · rfl
  · rw [List.nil_append, mapKeys_zip _ _ hw.1]
    exact hw.2

/-- C12: on every parameter store reached from `NewInput` by `SetParam` and `Reset`
calls, `SetParam(k, v)` returns and `Param(k)` then returns `v`, whether `k` was
set before or not. -/
theorem SetParam_then_Param (ops : List InputOp) (k v : GoString) :
    ∃ s s', runInput ops NewInput = some s ∧ s.SetParam k v = some s' ∧
      s'.Param k = some v := by
  obtain ⟨s, h1, hw, _⟩ := runInput_entries ops
  obtain ⟨s', a1, a2, _, a4, _, _⟩ := SetParam_eq s hw k v
  refine ⟨s, s', h1, a1, ?_⟩
  rw [Param_eq s' a2.1, a4, mapGet_mapSet_self]
  rfl

/-- C13: on every reachable parameter store, `SetParam(k, v)` leaves `Param(k')` as
it was for every other key `k'`, and leaves every name at its position in the list
of names, in which no name occurs twice: when `k` was set already the names are the
same list, and otherwise `k` is added after all of them. -/
theorem SetParam_frame (ops : List InputOp) (k v : GoString) :
    ∃ s s', runInput ops NewInput = some s ∧ s.SetParam k v = some s' ∧
      (∀ k', k' ≠ k → s'.Param k' = s.Param k') ∧
      s'.pnames.Nodup ∧
      (∀ i, i < s.pnames.length → s'.pnames[i]? = s.pnames[i]?) ∧
      (k ∈ s.pnames → s'.pnames = s.pnames) ∧
      (k ∉ s.pnames → s'.pnames = s.pnames ++ [k]) := by
  obtain ⟨s, h1, hw, _⟩ := runInput_entries ops
  obtain ⟨s', a1, a2, _, a4, a5, a6⟩ := SetParam_eq s hw k v
  refine ⟨s, s', h1, a1, ?_, a2.2, ?_, a5, a6⟩
  · intro k' hk
    rw [Param_eq s' a2.1, Param_eq s hw.1, a4, mapGet_mapSet_other _ _ _ _ (Ne.symm hk)]
  · intro i hi
    by_cases hm : k ∈ s.pnames
    · rw [a5 hm]
    · rw [a6 hm, List.getElem?_append_left hi]

/-- C14: after any sequence of calls from `NewInput`, `ParamsLen` is the number of
distinct keys given to `SetParam` since the latest `Reset` (since `NewInput` when
there was none): a further `SetParam` of one of these keys leaves it as it is, a
`SetParam` of a new key adds one, and directly after `Reset` it is 0. -/
theorem ParamsLen_counts_keys (ops : List InputOp) (k v : GoString)
    (ctx : Option Context) :
    ∃ s s', runInput ops NewInput = some s ∧ s.SetParam k v = some s' ∧
      s.ParamsLen = ((sinceReset ops).map Prod.fst).toFinset.card ∧
      (k ∈ (sinceReset ops).map Prod.fst → s'.ParamsLen = s.ParamsLen) ∧
      (k ∉ (sinceReset ops).map Prod.fst → s'.ParamsLen = s.ParamsLen + 1) ∧
      (s.Reset ctx).ParamsLen = 0 ∧ NewInput.ParamsLen = 0 := by
  obtain ⟨s, h1, hw, _, hk, hc⟩ := runInput_names ops
  obtain ⟨s', a1, _, _, _, a5, a6⟩ := SetParam_eq s hw k v
  refine ⟨s, s', h1, a1, hc, ?_, ?_, rfl, rfl⟩
  · intro hm
    simp only [gowebInput.ParamsLen, a5 ((hk k).mpr hm)]
  · intro hm
    have : k ∉ s.pnames := fun h => hm ((hk k).mp h)
    simp [gowebInput.ParamsLen, a6 this]

/-- C15: on every reachable parameter store `Params()` returns, and the map it
returns has as keys exactly the keys set since the latest `Reset`, each with the
value given to it most recently; for every key, set or not, what the map holds (the
empty string for a key it lacks) is what `Param` returns. -/
theorem Params_is_latest (ops : List InputOp) :
    ∃ s m, runInput ops NewInput = some s ∧ s.Params = some m ∧
      (∀ k, mapGet m k = lastSet (sinceReset ops) k) ∧
      (∀ k, k ∈ mapKeys m ↔ k ∈ (sinceReset ops).map Prod.fst) ∧
      (mapKeys m).Nodup ∧
      (∀ k, s.Param k = some ((mapGet m k).getD [])) := by
  obtain ⟨s, h1, hw, hz, hk, _⟩ := runInput_names ops
  refine ⟨s, s.pnames.zip s.pvalues, h1, Params_eq s hw, ?_, ?_, ?_, ?_⟩
  · intro k
    rw [hz, mapGet_mapSetAll]
    cases lastSet (sinceReset ops) k <;> rfl
  · intro k
    rw [mapKeys_zip _ _ hw.1]
    exact hk k
  · rw [mapKeys_zip _ _ hw.1]
    exact hw.2
  · intro k
    exact Param_eq s hw.1 k

end Store3

/-! ## `strings.Split`, `strings.Join` and `SubDomains` -/

section Strings

theorem strSplit_ne_nil (s : GoString) (sep : Char) : strSplit s sep ≠ [] := by
  cases s with
  | nil => simp [strSplit]
  | cons c cs =>
    by_cases h : c = sep
    · simp [strSplit, h]
    · simp only [strSplit, h, if_false]
      cases strSplit cs sep <;> simp

theorem strSplit_head (s : GoString) (sep : Char) :
    ∃ rest, strSplit s sep = s.takeWhile (fun c => c ≠ sep) :: rest := by
  induction s with
  | nil => exact ⟨[], rfl⟩
  | cons c cs ih =>
    by_cases h : c = sep
    · exact ⟨strSplit cs sep, by simp [strSplit, h]⟩
    · obtain ⟨rest, hr⟩ := ih
      exact ⟨rest, by simp [strSplit, h, hr]⟩

theorem strJoin_cons (p : GoString) (ps : List GoString) (sep : GoString) (h : ps ≠ []) :
    strJoin (p :: ps) sep = p ++ sep ++ strJoin ps sep := by
  cases ps with
  | nil => exact absurd rfl h
  | cons q rest => rfl

theorem strJoin_strSplit (s : GoString) (sep : Char) :
    strJoin (strSplit s sep) [sep] = s := by
  induction s with
  | nil => rfl
  | cons c cs ih =>
    by_cases h : c = sep
    · simp only [strSplit, h, if_true]
      rw [strJoin_cons _ _ _ (strSplit_ne_nil cs sep), ih]
      rfl
    · simp only [strSplit, h, if_false]
      cases hs : strSplit cs sep with
      | nil => exact absurd hs (strSplit_ne_nil cs sep)
      | cons p ps =>
        rw [hs] at ih
        cases ps with
        | nil =>
          simp only [strJoin] at ih ⊢
          rw [ih]
        | cons q rest =>
          simp only [strJoin] at ih ⊢
          rw [← ih]
          simp

theorem strSplit_no_sep (s : GoString) (sep : Char) :
    ∀ p ∈ strSplit s sep, sep ∉ p := by
  induction s with
  | nil =>
    intro p hp
    simp [strSplit] at hp
    subst hp
    simp
  | cons c cs ih =>
    intro p hp
    by_cases h : c = sep
    · simp only [strSplit, h, if_true, List.mem_cons] at hp
      rcases hp with rfl | hp
      · simp
      · exact ih p hp
    · simp only [strSplit, h, if_false] at hp
      cases hs : strSplit cs sep with
      | nil => exact absurd hs (strSplit_ne_nil cs sep)
      | cons q qs =>
        rw [hs] at hp ih
        simp only [List.mem_cons] at hp
        rcases hp with rfl | hp
        · intro hm
          rcases List.mem_cons.mp hm with e | e
          · exact h e.symm
          · exact ih q (List.mem_cons_self _ _) e
        · exact ih p (List.mem_cons_of_mem _ hp)

theorem strJoin_append (xs ys : List GoString) (sep : GoString) (hx : xs ≠ [])
    (hy : ys ≠ []) : strJoin (xs ++ ys) sep = strJoin xs sep ++ sep ++ strJoin ys sep := by
  induction xs with
  | nil => exact absurd rfl hx
  | cons x rest ih =>
    cases rest with
    | nil =>
      simp only [List.singleton_append]
      rw [strJoin_cons _ _ _ hy]
      rfl
    | cons r rs =>
      have h1 := ih (by simp)
      rw [List.cons_append, strJoin_cons _ _ _ (by simp), h1,
        strJoin_cons x (r :: rs) sep (by simp)]
      simp

theorem Host_eq (input : gowebInput) (ctx : Context) :
    ({ input with Context := some ctx } : gowebInput).Host = some (hostName ctx.Request) := by
  simp only [gowebInput.Host, hostName]
  by_cases h : ctx.Request.Host = []
  · simp [h]
  · obtain ⟨rest, hr⟩ := strSplit_head ctx.Request.Host ':'
    simp [h, hr]

/-- C16: for every request, with the host name `Request.Host` up to its first `:`
(or `localhost` when `Request.Host` is empty) and its labels the pieces between the
dots, `SubDomains` returns the labels but the last two joined by `.` when there are
at least three labels, and the empty string when there are fewer.  In the first
case the host name is the result, a dot, and the last two labels joined by a dot. -/
theorem SubDomains_labels (input : gowebInput) (ctx : Context) :
    ({ input with Context := some ctx } : gowebInput).Host = some (hostName ctx.Request) ∧
    strJoin (strSplit (hostName ctx.Request) '.') ['.'] = hostName ctx.Request ∧
    (∀ l ∈ strSplit (hostName ctx.Request) '.', '.' ∉ l) ∧
    ({ input with Context := some ctx } : gowebInput).SubDomains =
      some (if 3 ≤ (strSplit (hostName ctx.Request) '.').length then
        strJoin ((strSplit (hostName ctx.Request) '.').take
          ((strSplit (hostName ctx.Request) '.').length - 2)) ['.']
      else []) ∧
    (3 ≤ (strSplit (hostName ctx.Request) '.').length →
      ∃ sub l1 l2, ({ input with Context := some ctx } : gowebInput).SubDomains = some sub ∧
        (strSplit (hostName ctx.Request) '.').drop
          ((strSplit (hostName ctx.Request) '.').length - 2) = [l1, l2] ∧
        hostName ctx.Request = sub ++ '.' :: (l1 ++ '.' :: l2)) := by
  have hH := Host_eq input ctx
  have hS : ({ input with Context := some ctx } : gowebInput).SubDomains =
      some (if 3 ≤ (strSplit (hostName ctx.Request) '.').length then
        strJoin ((strSplit (hostName ctx.Request) '.').take
          ((strSplit (hostName ctx.Request) '.').length - 2)) ['.']
      else []) := by
    simp only [gowebInput.SubDomains, hH]
    by_cases h : 3 ≤ (strSplit (hostName ctx.Request) '.').length
    · simp [h]
    · simp [h]
  refine ⟨hH, strJoin_strSplit _ _, strSplit_no_sep _ _, hS, ?_⟩
  intro h3
  generalize hl : strSplit (hostName ctx.Request) '.' = labels at h3 hS
  have hj : strJoin labels ['.'] = hostName ctx.Request := by
    rw [← hl]
    exact strJoin_strSplit _ _
  have hd : (labels.drop (labels.length - 2)).length = 2 := by
    simp only [List.length_drop]
    omega
  match hdd : labels.drop (labels.length - 2), hd with
  | [l1, l2], _ =>
    refine ⟨_, l1, l2, by rw [hS, if_pos h3], rfl, ?_⟩
    have ht : labels.take (labels.length - 2) ≠ [] := by
      intro e
      have := congrArg List.length e
      simp only [List.length_take, List.length_nil] at this
      omega
    have := strJoin_append (labels.take (labels.length - 2)) [l1, l2] ['.'] ht (by simp)
    rw [← hdd, List.take_append_drop, hj] at this
    rw [this, hdd]
    simp [strJoin]

end Strings

/-! ## `Port` and `IP` -/

section HostClaims

/-- C17: `Port` at requests whose host has a port part that is no number, or is
empty: the error of `strconv.Atoi` is dropped and the result is 0, not 80.  A host
without a colon gives 80, a host with a number after its only colon that number, and
a host with more than one colon gives 80 whatever follows the last one. -/
theorem Port_drops_parse_error :
    (exInput (exRequest "example.com:abc".toList [] [])).Port = some 0 ∧
    (exInput (exRequest "example.com:".toList [] [])).Port = some 0 ∧
    (exInput (exRequest "example.com".toList [] [])).Port = some 80 ∧
    (exInput (exRequest "example.com:8080".toList [] [])).Port = some 8080 ∧
    (exInput (exRequest "[::1]:8080".toList [] [])).Port = some 80 := by
  refine ⟨?_, ?_, ?_, ?_, ?_⟩ <;> rfl

theorem Proxy_head (input : gowebInput) (ctx : Context)
    (h1 : valuesGet ctx.Request.Header "X-Forwarded-For".toList ≠ []) :
    ∃ rest, ({ input with Context := some ctx } : gowebInput).Proxy =
      some ((valuesGet ctx.Request.Header "X-Forwarded-For".toList).takeWhile
        (fun c => c ≠ ',') :: rest) := by
  obtain ⟨rest, hr⟩ := strSplit_head (valuesGet ctx.Request.Header "X-Forwarded-For".toList) ','
  refine ⟨rest, ?_⟩
  unfold gowebInput.Proxy gowebInput.Header
  simp only [Option.bind_eq_bind, Option.some_bind, Option.pure_def]
  rw [if_pos h1, hr]

/-- C18: for every request whose `X-Forwarded-For` header is not empty and whose
first entry, the part before the first comma, is not empty, `IP` returns that entry
up to its first `:`, whatever `RemoteAddr` and the other fields are. -/
theorem IP_first_forwarded (input : gowebInput) (ctx : Context)
    (h1 : valuesGet ctx.Request.Header "X-Forwarded-For".toList ≠ [])
    (h2 : (valuesGet ctx.Request.Header "X-Forwarded-For".toList).takeWhile
      (fun c => c ≠ ',') ≠ []) :
    ({ input with Context := some ctx } : gowebInput).IP =
      some (((valuesGet ctx.Request.Header "X-Forwarded-For".toList).takeWhile
        (fun c => c ≠ ',')).takeWhile (fun c => c ≠ ':')) := by
  obtain ⟨rest, hr⟩ := Proxy_head input ctx h1
  obtain ⟨rest2, hr2⟩ := strSplit_head
    ((valuesGet ctx.Request.Header "X-Forwarded-For".toList).takeWhile (fun c => c ≠ ',')) ':'
  unfold gowebInput.IP
  rw [hr]
  generalize valuesGet ctx.Request.Header "X-Forwarded-For".toList = xff at h2 hr2 ⊢
  simp only [Option.bind_eq_bind, Option.some_bind, Option.pure_def]
  rw [if_pos h2, hr2]

theorem IP_first_forwarded_witness :
    valuesGet exForwarded.Request.Header "X-Forwarded-For".toList ≠ [] ∧
    (valuesGet exForwarded.Request.Header "X-Forwarded-For".toList).takeWhile
      (fun c => c ≠ ',') ≠ [] ∧
    ({ NewInput with Context := some exForwarded } : gowebInput).IP =
      some "9.9.9.9".toList :=
  ⟨by decide, by decide, IP_first_forwarded NewInput exForwarded (by decide) (by decide)⟩

/-- C19: `IP` at requests without an `X-Forwarded-For` header.  With an empty
`RemoteAddr` the result is the empty string, and with a `RemoteAddr` without a colon
it is `RemoteAddr` itself: `strings.Split` never returns an empty slice, so the
final `return "127.0.0.1"` is reached only when the first piece is `[`. -/
theorem IP_empty_remote_addr :
    (exInput (exRequest "example.com".toList [] [])).IP = some [] ∧
    (exInput (exRequest "example.com".toList "abc".toList [])).IP = some "abc".toList ∧
    (exInput (exRequest "example.com".toList "1.2.3.4:55".toList [])).IP =
      some "1.2.3.4".toList ∧
    (exInput (exRequest "example.com".toList "[::1]:55".toList [])).IP =
      some "127.0.0.1".toList := by
  refine ⟨?_, ?_, ?_, ?_⟩ <;> rfl

end HostClaims

/-! ## `bindSlice`: the two loops -/

section BindSlice

variable {α : Type}

theorem sliceIndices_append (p q : List (GoString × List GoString)) (key : GoString) :
    sliceIndices (p ++ q) key = sliceIndices p key ++ sliceIndices q key := by
  simp [sliceIndices, sliceEntries, List.filter_append]

theorem noIndexValues_append (p q : List (GoString × List GoString)) (key : GoString) :
    noIndexValues (p ++ q) key = noIndexValues p key ++ noIndexValues q key := by
  simp [noIndexValues, sliceEntries, List.filter_append]

theorem foldlM_bindValue (bv : GoString → α) (vals : List GoString) :
    ∀ acc : List (sliceValue α),
      vals.foldlM
        (fun (acc : List (sliceValue α)) val => some (acc ++ [⟨-1, bv val⟩])) acc =
      some (acc ++ vals.map (fun val => ⟨-1, bv val⟩)) := by
  induction vals with
  | nil => intro acc; simp
  | cons v rest ih =>
    intro acc
    simp only [List.foldlM_cons, Option.bind_eq_bind, Option.some_bind]
    rw [ih]
    simp

theorem bindSliceStep_eq (bind bindValue : GoString → Option α) (b bv : GoString → α)
    (hb : ∀ k, bind k = some (b k)) (hv : ∀ v, bindValue v = some (bv v))
    (key : GoString) (st : bindSliceState α) (e : GoString × List GoString) :
    bindSliceStep bind bindValue key st e =
      some { maxIndex := (sliceIndices [e] key).foldl max st.maxIndex,
             numNoIndex := st.numNoIndex + (noIndexValues [e] key).length,
             sliceValues := st.sliceValues ++ collected b bv key e } := by
  by_cases hp : HasPrefix e.1 (key ++ ['[']) = true
  · by_cases hi : (sliceIndex key e.1).1 > -1
    · simp only [bindSliceStep, hp, hi, hb, not_true_eq_false, if_false, if_true,
        Option.bind_eq_bind, Option.some_bind, Option.pure_def]
      have h1 : sliceIndices [e] key = [(sliceIndex key e.1).1] := by
        simp [sliceIndices, sliceEntries, hp, hi]
      have h2 : noIndexValues [e] key = [] := by
        simp [noIndexValues, sliceEntries, hp, hi]
      have h3 : collected b bv key e =
          [⟨(sliceIndex key e.1).1, b (e.1.take (sliceIndex key e.1).2.toNat)⟩] := by
        simp [collected, hp, hi]
      rw [h1, h2, h3]
      simp only [List.foldl_cons, List.foldl_nil, List.length_nil, Nat.add_zero]
      congr 2
      by_cases hm : (sliceIndex key e.1).1 > st.maxIndex
      · rw [if_pos hm, max_eq_right (le_of_lt hm)]
      · rw [if_neg hm, max_eq_left (not_lt.mp hm)]
    · simp only [bindSliceStep, hp, hi, hv, not_true_eq_false, if_false,
        Option.bind_eq_bind, Option.some_bind, Option.pure_def]
      rw [foldlM_bindValue bv]
      simp only [Option.some_bind]
      have h1 : sliceIndices [e] key = [] := by
        simp [sliceIndices, sliceEntries, hp, hi]
      have h2 : noIndexValues [e] key = e.2 := by
        have hi' : (sliceIndex key e.1).1 ≤ -1 := not_lt.mp hi
        simp [noIndexValues, sliceEntries, hp, hi']
      have h3 : collected b bv key e = e.2.map (fun val => ⟨-1, bv val⟩) := by
        simp [collected, hp, hi]
      rw [h1, h2, h3]
      rfl
  · have h1 : sliceIndices [e] key = [] := by
      simp [sliceIndices, sliceEntries, hp]
    have h2 : noIndexValues [e] key = [] := by
      simp [noIndexValues, sliceEntries, hp]
    have h3 : collected b bv key e = ([] : List (sliceValue α)) := by
      simp [collected, hp]
    rw [h1, h2, h3]
    simp [bindSliceStep, hp]

theorem bindSlice_loop (bind bindValue : GoString → Option α) (b bv : GoString → α)
    (hb : ∀ k, bind k = some (b k)) (hv : ∀ v, bindValue v = some (bv v))
    (key : GoString) (params : List (GoString × List GoString)) :
    ∀ st : bindSliceState α,
      params.foldlM (bindSliceStep bind bindValue key) st =
        some { maxIndex := (sliceIndices params key).foldl max st.maxIndex,
               numNoIndex := st.numNoIndex + (noIndexValues params key).length,
               sliceValues := st.sliceValues ++ params.flatMap (collected b bv key) } := by
  induction params with
  | nil => intro st; simp [sliceIndices, noIndexValues, sliceEntries]
  | cons e rest ih =>
    intro st
    rw [List.foldlM_cons, bindSliceStep_eq bind bindValue b bv hb hv]
    simp only [Option.bind_eq_bind, Option.some_bind]
    rw [ih]
    have h1 := sliceIndices_append [e] rest key
    have h2 := noIndexValues_append [e] rest key
    simp only [List.singleton_append] at h1 h2
    rw [h1, h2, List.foldl_append, List.length_append, List.flatMap_cons]
    simp [Nat.add_assoc]

end BindSlice

section BindSlice2

variable {α : Type}

theorem setAll_length (svs : List (sliceValue α)) :
    ∀ base : List α, (setAll base svs).length = base.length := by
  induction svs with
  | nil => intro base; rfl
  | cons sv rest ih =>
    intro base
    simp only [setAll, List.foldl_cons] at ih ⊢
    rw [ih]
    by_cases h : sv.index ≠ -1
    · simp [h]
    · simp [h]

theorem setAll_append (A B : List (sliceValue α)) (base : List α) :
    setAll base (A ++ B) = setAll (setAll base A) B := by
  simp [setAll, List.foldl_append]

theorem setAll_get_other (i : Nat) (svs : List (sliceValue α)) :
    ∀ base : List α,
      (∀ sv ∈ svs, sv.index = -1 ∨ 0 ≤ sv.index) →
      (∀ sv ∈ svs, sv.index ≠ (i : Int)) →
      (setAll base svs)[i]? = base[i]? := by
  induction svs with
  | nil => intro base _ _; rfl
  | cons sv rest ih =>
    intro base hval hne
    have hrest := ih (if sv.index ≠ -1 then base.set sv.index.toNat sv.value else base)
      (fun s hs => hval s (List.mem_cons_of_mem _ hs))
      (fun s hs => hne s (List.mem_cons_of_mem _ hs))
    simp only [setAll, List.foldl_cons] at hrest ⊢
    rw [hrest]
    by_cases h : sv.index ≠ -1
    · rw [if_pos h]
      have h0 : 0 ≤ sv.index := by
        rcases hval sv (List.mem_cons_self _ _) with h1 | h1
        · exact absurd h1 h
        · exact h1
      have hi : sv.index.toNat ≠ i := by
        intro e
        apply hne sv (List.mem_cons_self _ _)
        rw [← e]
        exact (Int.toNat_of_nonneg h0).symm
      exact List.getElem?_set_ne hi
    · rw [if_neg h]

theorem setAll_get_last (A B : List (sliceValue α)) (sv : sliceValue α) (base : List α)
    (h0 : 0 ≤ sv.index) (hlt : sv.index.toNat < base.length)
    (hval : ∀ s ∈ B, s.index = -1 ∨ 0 ≤ s.index)
    (hne : ∀ s ∈ B, s.index ≠ sv.index) :
    (setAll base (A ++ sv :: B))[sv.index.toNat]? = some sv.value := by
  have e : A ++ sv :: B = (A ++ [sv]) ++ B := by simp
  rw [e, setAll_append, setAll_get_other sv.index.toNat B _ hval
    (fun s hs => by rw [Int.toNat_of_nonneg h0]; exact hne s hs), setAll_append]
  have hs : sv.index ≠ -1 := by omega
  simp only [setAll, List.foldl_cons, List.foldl_nil, if_pos hs]
  have hl := setAll_length A base
  simp only [setAll] at hl
  rw [List.getElem?_set_self (by rw [hl]; exact hlt)]

theorem appended_cons (sv : sliceValue α) (rest : List (sliceValue α)) :
    appended (sv :: rest) =
      (if sv.index = -1 then [sv.value] else []) ++ appended rest := by
  by_cases h : sv.index = -1
  · simp [appended, h]
  · simp [appended, h]

theorem fill_eq (svs : List (sliceValue α)) :
    ∀ base tail : List α,
      (∀ sv ∈ svs, sv.index = -1 ∨ (0 ≤ sv.index ∧ sv.index < base.length)) →
      svs.foldlM fillStep (base ++ tail) =
        some (setAll base svs ++ tail ++ appended svs) := by
  induction svs with
  | nil => intro base tail _; simp [setAll, appended]
  | cons sv rest ih =>
    intro base tail hval
    rw [List.foldlM_cons, appended_cons]
    rcases hval sv (List.mem_cons_self _ _) with h | ⟨h0, hlt⟩
    · have hstep : fillStep (base ++ tail) sv = some (base ++ (tail ++ [sv.value])) := by
        simp [fillStep, h]
      rw [hstep]
      simp only [Option.bind_eq_bind, Option.some_bind]
      rw [ih base (tail ++ [sv.value]) (fun s hs => hval s (List.mem_cons_of_mem _ hs))]
      simp [setAll, h]
    · have hs : sv.index ≠ -1 := by omega
      have hn : sv.index.toNat < base.length := by omega
      have hstep : fillStep (base ++ tail) sv =
          some (base.set sv.index.toNat sv.value ++ tail) := by
        have hlen : sv.index < ((base ++ tail).length : Int) := by
          rw [List.length_append]
          push_cast
          omega
        simp only [fillStep, hs, ne_eq, not_false_eq_true, if_true, h0, hlen, and_self]
        rw [List.set_append_left _ _ hn]
      rw [hstep]
      simp only [Option.bind_eq_bind, Option.some_bind]
      rw [ih (base.set sv.index.toNat sv.value) tail (fun s hs => by
        rcases hval s (List.mem_cons_of_mem _ hs) with h1 | ⟨h1, h2⟩
        · exact Or.inl h1
        · exact Or.inr ⟨h1, by rw [List.length_set]; exact h2⟩)]
      simp [setAll, hs]

theorem le_foldl_max (l : List Int) : ∀ a : Int,
    a ≤ l.foldl max a ∧ ∀ x ∈ l, x ≤ l.foldl max a := by
  induction l with
  | nil => intro a; simp
  | cons y rest ih =>
    intro a
    simp only [List.foldl_cons]
    obtain ⟨h1, h2⟩ := ih (max a y)
    refine ⟨le_trans (le_max_left a y) h1, ?_⟩
    intro x hx
    rcases List.mem_cons.mp hx with rfl | hx
    · exact le_trans (le_max_right a x) h1
    · exact h2 x hx

theorem mem_collected (b bv : GoString → α) (key : GoString)
    (e : GoString × List GoString) (sv : sliceValue α) (h : sv ∈ collected b bv key e) :
    HasPrefix e.1 (key ++ ['[']) = true ∧
    ((sv.index = -1 ∧ ¬ (sliceIndex key e.1).1 > -1) ∨
     (sv.index = (sliceIndex key e.1).1 ∧ (sliceIndex key e.1).1 > -1)) := by
  by_cases hp : HasPrefix e.1 (key ++ ['[']) = true
  · refine ⟨hp, ?_⟩
    by_cases hi : (sliceIndex key e.1).1 > -1
    · simp only [collected, hp, hi, not_true_eq_false, if_false, if_true,
        List.mem_singleton] at h
      subst h
      exact Or.inr ⟨rfl, hi⟩
    · simp only [collected, hp, hi, not_true_eq_false, if_false, List.mem_map] at h
      obtain ⟨v, _, rfl⟩ := h
      exact Or.inl ⟨rfl, hi⟩
  · simp [collected, hp] at h

theorem mem_sliceIndices (params : List (GoString × List GoString)) (key : GoString)
    (e : GoString × List GoString) (he : e ∈ params)
    (hp : HasPrefix e.1 (key ++ ['[']) = true) (hi : (sliceIndex key e.1).1 > -1) :
    (sliceIndex key e.1).1 ∈ sliceIndices params key := by
  simp only [sliceIndices, sliceEntries, List.mem_filter, List.mem_map, decide_eq_true_eq]
  exact ⟨⟨e, ⟨he, hp⟩, rfl⟩, hi⟩

theorem collected_valid (b bv : GoString → α) (key : GoString)
    (params : List (GoString × List GoString)) :
    ∀ sv ∈ params.flatMap (collected b bv key),
      sv.index = -1 ∨ (0 ≤ sv.index ∧ sv.index ≤ maxIndexOf params key) := by
  intro sv hsv
  obtain ⟨e, he, hse⟩ := List.mem_flatMap.mp hsv
  obtain ⟨hp, h | ⟨h1, h2⟩⟩ := mem_collected b bv key e sv hse
  · exact Or.inl h.1
  · refine Or.inr ⟨by omega, ?_⟩
    rw [h1]
    exact (le_foldl_max (sliceIndices params key) (-1)).2 _
      (mem_sliceIndices params key e he hp h2)

theorem appended_append (A B : List (sliceValue α)) :
    appended (A ++ B) = appended A ++ appended B := by
  simp [appended, List.filter_append]

theorem appended_collected (b bv : GoString → α) (key : GoString)
    (params : List (GoString × List GoString)) :
    appended (params.flatMap (collected b bv key)) =
      (noIndexValues params key).map bv := by
  induction params with
  | nil => simp [appended, noIndexValues, sliceEntries]
  | cons e rest ih =>
    have h2 := noIndexValues_append [e] rest key
    simp only [List.singleton_append] at h2
    rw [List.flatMap_cons, appended_append, ih, h2, List.map_append]
    congr 1
    by_cases hp : HasPrefix e.1 (key ++ ['[']) = true
    · by_cases hi : (sliceIndex key e.1).1 > -1
      · have hi2 : (sliceIndex key e.1).1 ≠ -1 := by omega
        simp [collected, appended, noIndexValues, sliceEntries, hp, hi, hi2]
      · have hi' : (sliceIndex key e.1).1 ≤ -1 := not_lt.mp hi
        simp [collected, appended, noIndexValues, sliceEntries, hp, hi, hi',
          List.filter_map, Function.comp_def]
    · simp [collected, appended, noIndexValues, sliceEntries, hp]

end BindSlice2

section BindSlice3

variable {α : Type}

theorem strIndex_append (c : Char) (ds rest : GoString) (h : c ∉ ds) :
    strIndex (ds ++ c :: rest) c = ds.length := by
  induction ds with
  | nil => simp [strIndex]
  | cons d ds ih =>
    have hd : d ≠ c := fun e => h (e ▸ List.mem_cons_self _ _)
    have ih2 := ih (fun hm => h (List.mem_cons_of_mem _ hm))
    have hn : ¬ ((ds.length : Int) = -1) := by omega
    simp only [List.cons_append, strIndex, hd, if_false, List.length_cons]
    change (if strIndex (ds ++ c :: rest) c = -1 then -1
      else strIndex (ds ++ c :: rest) c + 1) = _
    rw [ih2, if_neg hn]
    push_cast
    rfl

theorem sliceIndex_bracketed (key ds : GoString) (hds : ds ≠ []) (hc : ']' ∉ ds) :
    HasPrefix (key ++ '[' :: (ds ++ [']'])) (key ++ ['[']) = true ∧
    sliceIndex key (key ++ '[' :: (ds ++ [']'])) =
      ((Atoi ds).1, ((key ++ '[' :: (ds ++ [']'])).length : Int)) ∧
    (key ++ '[' :: (ds ++ [']'])).take
      (sliceIndex key (key ++ '[' :: (ds ++ [']']))).2.toNat =
        key ++ '[' :: (ds ++ [']']) := by
  have hidx : strIndex ('[' :: (ds ++ [']'])) ']' = (ds.length : Int) + 1 := by
    have := strIndex_append ']' ('[' :: ds) [] (by
      intro hm
      rcases List.mem_cons.mp hm with e | e
      · exact absurd e (by decide)
      · exact hc e)
    simpa using this
  have hpos : 0 < ds.length := List.length_pos.mpr hds
  have hsl : sliceIndex key (key ++ '[' :: (ds ++ [']'])) =
      ((Atoi ds).1, ((key ++ '[' :: (ds ++ [']'])).length : Int)) := by
    have hgt : (ds.length : Int) + 1 + (key.length : Int) > (key.length : Int) + 1 := by
      omega
    have e1 : ((key.length : Int) + 1).toNat = key.length + 1 := by omega
    have e2 : ((ds.length : Int) + 1 + (key.length : Int)).toNat =
        key.length + (ds.length + 1) := by omega
    have e3 : strSlice (key ++ '[' :: (ds ++ [']'])) (key.length + 1)
        (key.length + (ds.length + 1)) = ds := by
      have t1 : (key ++ '[' :: (ds ++ [']'])).take (key.length + (ds.length + 1)) =
          key ++ '[' :: ds := by
        rw [List.take_append]
        have : '[' :: (ds ++ [']']) = ('[' :: ds) ++ [']'] := by simp
        rw [this, List.take_left' (by simp)]
      have t2 : key ++ '[' :: ds = (key ++ ['[']) ++ ds := by simp
      rw [strSlice, t1, t2, List.drop_left' (by simp)]
    simp only [sliceIndex, List.drop_left, hidx, hgt, if_true, e1, e2, e3]
    congr 1
    simp only [List.length_append, List.length_cons, List.length_nil]
    push_cast
    omega
  refine ⟨?_, hsl, ?_⟩
  · have : key ++ '[' :: (ds ++ [']']) = (key ++ ['[']) ++ (ds ++ [']']) := by simp
    rw [this]
    simp [HasPrefix]
  · rw [hsl]
    apply List.take_of_length_le
    simp only [List.length_append, List.length_cons, List.length_nil]
    omega

theorem bind_String_form (input : gowebInput) (ctx : Context) (k : GoString)
    (hc : input.Context = some ctx) (hn : input.pnames = []) :
    input.bind_String k = some (valuesGet ctx.Request.Form k) := by
  simp only [gowebInput.bind_String, gowebInput.Query, gowebInput.Param, hn, paramLoop, hc,
    gowebInput.bindString]
  by_cases h : valuesGet ctx.Request.Form k = []
  · simp [h]
  · simp [h]

end BindSlice3

/-! ## `bindSlice`: the layout of the result -/

section BindSliceClaim

variable {α : Type}

theorem wrapInt_small (x : Int) (h0 : 0 ≤ x) (h1 : x < 2 ^ 63) : wrapInt x = x := by
  unfold wrapInt
  norm_num at h1 ⊢
  omega

theorem bindSlice_eq (maxCap : Nat) (bind bindValue : GoString → Option α)
    (b bv : GoString → α) (zero : α) (params : List (GoString × List GoString))
    (key : GoString) (hb : ∀ k, bind k = some (b k)) (hv : ∀ v, bindValue v = some (bv v))
    (hcap : (maxCap : Int) < 2 ^ 63)
    (hsize : maxIndexOf params key + 1 + (noIndexValues params key).length ≤ maxCap) :
    bindSlice maxCap bind bindValue zero params key =
      some (setAll (List.replicate (maxIndexOf params key + 1).toNat zero)
          (params.flatMap (collected b bv key)) ++
        (noIndexValues params key).map bv) := by
  have hM : -1 ≤ maxIndexOf params key := (le_foldl_max (sliceIndices params key) (-1)).1
  have hw1 : wrapInt (maxIndexOf params key + 1) = maxIndexOf params key + 1 :=
    wrapInt_small _ (by omega) (by omega)
  have hw2 : wrapInt (maxIndexOf params key + 1 + (noIndexValues params key).length) =
      maxIndexOf params key + 1 + (noIndexValues params key).length :=
    wrapInt_small _ (by omega) (by omega)
  have hloop := bindSlice_loop bind bindValue b bv hb hv key params
    { maxIndex := -1, numNoIndex := 0, sliceValues := [] }
  simp only [List.nil_append, Nat.zero_add] at hloop
  unfold bindSlice
  rw [hloop]
  simp only [Option.bind_eq_bind, Option.some_bind]
  change (MakeSlice maxCap zero (wrapInt (maxIndexOf params key + 1))
    (wrapInt (wrapInt (maxIndexOf params key + 1) +
      ((noIndexValues params key).length : Int)))).bind _ = _
  rw [hw1, hw2]
  have hmk : MakeSlice maxCap zero (maxIndexOf params key + 1)
      (maxIndexOf params key + 1 + ((noIndexValues params key).length : Int)) =
      some (List.replicate (maxIndexOf params key + 1).toNat zero) := by
    have : ¬ (maxIndexOf params key + 1 < 0 ∨
        maxIndexOf params key + 1 + ((noIndexValues params key).length : Int) < 0 ∨
        maxIndexOf params key + 1 >
          maxIndexOf params key + 1 + ((noIndexValues params key).length : Int) ∨
        maxIndexOf params key + 1 + ((noIndexValues params key).length : Int) >
          (maxCap : Int)) := by
      omega
    simp only [MakeSlice, this, if_false]
  rw [hmk]
  simp only [Option.some_bind]
  have hfill := fill_eq (params.flatMap (collected b bv key))
    (List.replicate (maxIndexOf params key + 1).toNat zero) [] (by
      intro sv hsv
      rcases collected_valid b bv key params sv hsv with h | ⟨h1, h2⟩
      · exact Or.inl h
      · refine Or.inr ⟨h1, ?_⟩
        rw [List.length_replicate]
        omega)
  rw [List.append_nil] at hfill
  rw [hfill, List.append_nil, appended_collected]

/-- C20, amended: `bindSlice` on every form and key, for the request keys in any
order of iteration, when the size `(largest bracketed index + 1) + (number of
values without an index)` is within the capacity `maxCap` that the runtime
allocates, itself below `2^63`, and the two binders of the element type return.
The call returns a slice of that length; position `i` holds the element bound from
the request key with the index `i` that the loop visits last, which for a string
element is the first value given under that key; a position below the largest index
for which no request key has the index holds the zero value; and the values given
without an index follow after the indexed positions, in the order of the form.  A
request key `key[ds]` has the index `Atoi(ds)` and is bound by its whole name. -/
theorem bindSlice_layout (maxCap : Nat) (bind bindValue : GoString → Option α)
    (b bv : GoString → α) (zero : α) (params : List (GoString × List GoString))
    (key : GoString) (hb : ∀ k, bind k = some (b k)) (hv : ∀ v, bindValue v = some (bv v))
    (hcap : (maxCap : Int) < 2 ^ 63)
    (hsize : maxIndexOf params key + 1 + (noIndexValues params key).length ≤ maxCap) :
    ∃ result, bindSlice maxCap bind bindValue zero params key = some result ∧
      (result.length : Int) =
        (maxIndexOf params key + 1) + (noIndexValues params key).length ∧
      (∀ pre e post, params = pre ++ e :: post →
        HasPrefix e.1 (key ++ ['[']) = true → (sliceIndex key e.1).1 > -1 →
        (∀ e' ∈ post, HasPrefix e'.1 (key ++ ['[']) = true →
          (sliceIndex key e'.1).1 ≠ (sliceIndex key e.1).1) →
        result[(sliceIndex key e.1).1.toNat]? =
          some (b (e.1.take (sliceIndex key e.1).2.toNat))) ∧
      (∀ i : Nat, (i : Int) ≤ maxIndexOf params key →
        (∀ e ∈ params, HasPrefix e.1 (key ++ ['[']) = true →
          (sliceIndex key e.1).1 ≠ (i : Int)) →
        result[i]? = some zero) ∧
      result.drop (maxIndexOf params key + 1).toNat = (noIndexValues params key).map bv ∧
      (∀ ds, ds ≠ [] → ']' ∉ ds →
        HasPrefix (key ++ '[' :: (ds ++ [']'])) (key ++ ['[']) = true ∧
        sliceIndex key (key ++ '[' :: (ds ++ [']'])) =
          ((Atoi ds).1, ((key ++ '[' :: (ds ++ [']'])).length : Int)) ∧
        (key ++ '[' :: (ds ++ [']'])).take
          (sliceIndex key (key ++ '[' :: (ds ++ [']']))).2.toNat =
            key ++ '[' :: (ds ++ [']'])) ∧
      (∀ (input : gowebInput) (ctx : Context) (k : GoString),
        input.Context = some ctx → input.pnames = [] →
        input.bind_String k = some (valuesGet ctx.Request.Form k)) := by
  have hM : -1 ≤ maxIndexOf params key := (le_foldl_max (sliceIndices params key) (-1)).1
  have hlen : (setAll (List.replicate (maxIndexOf params key + 1).toNat zero)
      (params.flatMap (collected b bv key))).length = (maxIndexOf params key + 1).toNat := by
    rw [setAll_length, List.length_replicate]
  refine ⟨_, bindSlice_eq maxCap bind bindValue b bv zero params key hb hv hcap hsize,
    ?_, ?_, ?_, ?_, sliceIndex_bracketed key, bind_String_form⟩
  · rw [List.length_append, hlen, List.length_map]
    push_cast
    rw [Int.toNat_of_nonneg (by omega)]
  · intro pre e post hparams hp hi hpost
    have hmem : e ∈ params := by rw [hparams]; simp
    have hle : (sliceIndex key e.1).1 ≤ maxIndexOf params key :=
      (le_foldl_max (sliceIndices params key) (-1)).2 _
        (mem_sliceIndices params key e hmem hp hi)
    have hlt : (sliceIndex key e.1).1.toNat < (maxIndexOf params key + 1).toNat := by omega
    rw [List.getElem?_append_left (by rw [hlen]; exact hlt)]
    have hc : collected b bv key e =
        [⟨(sliceIndex key e.1).1, b (e.1.take (sliceIndex key e.1).2.toNat)⟩] := by
      simp [collected, hp, hi]
    have hsplit : params.flatMap (collected b bv key) =
        pre.flatMap (collected b bv key) ++
          (⟨(sliceIndex key e.1).1, b (e.1.take (sliceIndex key e.1).2.toNat)⟩ :
            sliceValue α) :: post.flatMap (collected b bv key) := by
      rw [hparams, List.flatMap_append, List.flatMap_cons, hc]
      rfl
    rw [hsplit]
    exact setAll_get_last (pre.flatMap (collected b bv key))
      (post.flatMap (collected b bv key))
      ⟨(sliceIndex key e.1).1, b (e.1.take (sliceIndex key e.1).2.toNat)⟩ _
      (by show 0 ≤ (sliceIndex key e.1).1; omega)
      (by rw [List.length_replicate]; exact hlt)
      (fun s hs => by
        rcases collected_valid b bv key post s hs with h | ⟨h, _⟩
        · exact Or.inl h
        · exact Or.inr h)
      (fun s hs => by
        obtain ⟨e', he', hse⟩ := List.mem_flatMap.mp hs
        obtain ⟨hp', h | ⟨h1, _⟩⟩ := mem_collected b bv key e' s hse
        · show s.index ≠ (sliceIndex key e.1).1
          omega
        · show s.index ≠ (sliceIndex key e.1).1
          rw [h1]
          exact hpost e' he' hp')
  · intro i hi hnone
    have hlt : i < (maxIndexOf params key + 1).toNat := by omega
    rw [List.getElem?_append_left (by rw [hlen]; exact hlt),
      setAll_get_other i _ _
        (fun s hs => by
          rcases collected_valid b bv key params s hs with h | ⟨h, _⟩
          · exact Or.inl h
          · exact Or.inr h)
        (fun s hs => by
          obtain ⟨e', he', hse⟩ := List.mem_flatMap.mp hs
          obtain ⟨hp', h | ⟨h1, _⟩⟩ := mem_collected b bv key e' s hse
          · omega
          · rw [h1]
            exact hnone e' he' hp'),
      List.getElem?_replicate, if_pos hlt]
  · exact List.drop_left' hlen

end BindSliceClaim

section BindSliceWitness

theorem bindSlice_TestParse :
    (exForm exParseForm).bind_SliceInt exMaxCap "ol".toList = some [1, 2] ∧
    (exForm exParseForm).bind_SliceString exMaxCap "ul".toList =
      some ["str".toList, "array".toList] := by
  refine ⟨by rfl, by rfl⟩

theorem bindSlice_layout_witness :
    (∀ k, (exForm exMixedForm).bind_String k = some (valuesGet exMixedForm k)) ∧
    (∀ v, some ((exForm exMixedForm).bindString v) = some (id v)) ∧
    (exMaxCap : Int) < 2 ^ 63 ∧
    maxIndexOf exMixedForm "ol".toList + 1 +
      (noIndexValues exMixedForm "ol".toList).length ≤ exMaxCap ∧
    ∃ result, (exForm exMixedForm).bind_SliceString exMaxCap "ol".toList = some result ∧
      (result.length : Int) = 4 ∧ result[1]? = some "b".toList ∧
      result[0]? = some [] ∧ result.drop 2 = ["x".toList, "y".toList] := by
  have hb : ∀ k, (exForm exMixedForm).bind_String k = some (valuesGet exMixedForm k) :=
    fun k => bind_String_form (exForm exMixedForm) _ k rfl rfl
  have hcap : (exMaxCap : Int) < 2 ^ 63 := by decide
  have hsize : maxIndexOf exMixedForm "ol".toList + 1 +
      (noIndexValues exMixedForm "ol".toList).length ≤ exMaxCap := by decide
  obtain ⟨result, h1, h2, h3, h4, h5, _⟩ :=
    bindSlice_layout exMaxCap (exForm exMixedForm).bind_String
      (fun val => some ((exForm exMixedForm).bindString val))
      (fun k => valuesGet exMixedForm k) id [] exMixedForm "ol".toList hb (fun _ => rfl)
      hcap hsize
  refine ⟨hb, fun _ => rfl, hcap, hsize, result, h1, h2, ?_, ?_, h5⟩
  · exact h3 [] ("ol[1]".toList, ["b".toList]) [("ol[]".toList, ["x".toList, "y".toList])]
      rfl (by rfl) (by decide) (by
        intro e he
        simp only [List.mem_singleton] at he
        subst he
        intro _
        decide)
  · exact h4 0 (by decide) (by
      intro e he
      simp only [exMixedForm, List.mem_cons, List.mem_singleton, List.not_mem_nil,
        or_false] at he
      rcases he with rfl | rfl <;> intro _ <;> decide)

/-- C20, forms on which the claim as stated fails.  In `ol[9223372036854775807]=x`
the largest index is `2^63 - 1`, the length `maxIndex + 1` wraps to a negative
number and `reflect.MakeSlice` panics, whatever capacity the runtime allocates; the
same happens for `ol[99999999999999999999x]=x`, whose index `strconv.Atoi` leaves
at the largest `int` with its range error dropped.  In `ol[0]=1&ol[0]=2` the values
`1` and `2` are both given as `ol[0]`, the slice of strings bound for `ol` is
`["1"]`, and so the value `2` is not at position 0. -/
theorem bindSlice_panics_or_drops :
    (sliceIndex "ol".toList "ol[9223372036854775807]".toList).1 = 2 ^ 63 - 1 ∧
    (∀ maxCap, (exForm exHugeForm).bind_SliceString maxCap "ol".toList = none) ∧
    (sliceIndex "ol".toList "ol[99999999999999999999x]".toList).1 = 2 ^ 63 - 1 ∧
    (∀ maxCap, (exForm exRangeForm).bind_SliceString maxCap "ol".toList = none) ∧
    (sliceIndex "ol".toList "ol[0]".toList).1 = 0 ∧
    mapGet exTwiceForm "ol[0]".toList = some ["1".toList, "2".toList] ∧
    (exForm exTwiceForm).bind_SliceString exMaxCap "ol".toList = some ["1".toList] ∧
    ¬ (∀ v ∈ ["1".toList, "2".toList], (["1".toList] : List GoString)[0]? = some v) := by
  refine ⟨by rfl, fun _ => by rfl, by rfl, fun _ => by rfl, by rfl, by rfl, by rfl,
    by decide⟩

end BindSliceWitness

/-! ## `Run`: the listen settings -/

section RunClaim

theorem strSplit_cons_rest (s : GoString) (sep : Char) :
    strSplit s sep = s.takeWhile (fun c => c ≠ sep) ::
      (match s.dropWhile (fun c => c ≠ sep) with
        | [] => []
        | _ :: r => strSplit r sep) := by
  induction s with
  | nil => rfl
  | cons c cs ih =>
    by_cases h : c = sep
    · simp [strSplit, h]
    · have e : strSplit (c :: cs) sep =
          (match strSplit cs sep with
            | [] => [[c]]
            | p :: ps => (c :: p) :: ps) := by
        simp [strSplit, h]
      rw [e, ih]
      simp [h]

theorem digitsVal_ge (ds : GoString) : ∀ acc n : Nat, digitsVal ds acc = some n → acc ≤ n := by
  induction ds with
  | nil =>
    intro acc n h
    simp only [digitsVal, Option.some.injEq] at h
    omega
  | cons c cs ih =>
    intro acc n h
    cases hd : digitVal c with
    | none => simp [digitsVal, hd] at h
    | some d =>
      simp only [digitsVal, hd] at h
      have := ih _ _ h
      omega

theorem parseUintLoop_digits (ds : GoString) :
    ∀ acc n : Nat, digitsVal ds acc = some n → n < 2 ^ 63 →
      parseUintLoop ds acc = (n, none) := by
  induction ds with
  | nil =>
    intro acc n h _
    simp only [digitsVal, Option.some.injEq] at h
    simp [parseUintLoop, h]
  | cons c cs ih =>
    intro acc n h hn
    cases hd : digitVal c with
    | none => simp [digitsVal, hd] at h
    | some d =>
      simp only [digitsVal, hd] at h
      have hge := digitsVal_ge cs _ _ h
      have hn2 : n < 9223372036854775808 := by
        norm_num at hn
        exact hn
      have h1 : ¬ acc ≥ (2 ^ 64 - 1) / 10 + 1 := by
        norm_num
        omega
      have h2 : ¬ acc * 10 + d > 2 ^ 64 - 1 := by
        norm_num
        omega
      have e : acc * 10 + d = 10 * acc + d := by omega
      simp only [parseUintLoop, hd, h1, if_false]
      rw [if_neg h2, e]
      exact ih _ _ h hn

theorem Atoi_digits (ds : GoString) (n : Nat) (hd : digitsVal ds 0 = some n)
    (hne : ds ≠ []) (hn : n < 2 ^ 63) : Atoi ds = ((n : Int), true) := by
  cases ds with
  | nil => exact absurd rfl hne
  | cons c cs =>
    have hc : ∃ d, digitVal c = some d := by
      cases h : digitVal c with
      | none => simp [digitsVal, h] at hd
      | some d => exact ⟨d, rfl⟩
    obtain ⟨d, hdv⟩ := hc
    have h1 : c ≠ '+' := by
      rintro rfl
      have : digitVal '+' = none := by decide
      rw [this] at hdv
      cases hdv
    have h2 : c ≠ '-' := by
      rintro rfl
      have : digitVal '-' = none := by decide
      rw [this] at hdv
      cases hdv
    have hu : ParseUint (c :: cs) = (n, none) := by
      simp only [ParseUint, List.cons_ne_nil, if_false]
      exact parseUintLoop_digits _ _ _ hd hn
    have hn2 : ¬ n ≥ 2 ^ 63 := not_le.mpr hn
    have hp : ParseInt (c :: cs) = ((n : Int), none) := by
      simp only [ParseInt, List.cons_ne_nil, if_false, List.head?_cons, Option.some.injEq,
        h1, h2, or_self, decide_False, hu, hn2, and_false, Bool.false_eq_true, false_and]
    simp [Atoi, hp]

/-- C21: `Run` with a non-empty first argument `s`, split at `:`.  The listen
address becomes the piece before the first `:` when that piece is not empty and is
unchanged otherwise; the listen port becomes the piece after the first `:` as
`strconv.Atoi` reads it when that piece is there and not empty, which for a piece
of decimal digits is the number they write, and is unchanged otherwise.  So
`Run("localhost")` changes the address alone, `Run(":8089")` the port alone and
`Run("127.0.0.1:8089")` both. -/
theorem Run_listen (s : GoString) (rest : List GoString) (listen : Listen)
    (hs : s ≠ []) :
    (Run (s :: rest) listen).HTTPAddr =
      (if s.takeWhile (fun c => c ≠ ':') ≠ [] then s.takeWhile (fun c => c ≠ ':')
       else listen.HTTPAddr) ∧
    (Run (s :: rest) listen).HTTPPort =
      (if afterColon s ≠ [] then (Atoi (afterColon s)).1 else listen.HTTPPort) ∧
    (∀ n : Nat, digitsVal (afterColon s) 0 = some n → afterColon s ≠ [] → n < 2 ^ 63 →
      (Run (s :: rest) listen).HTTPPort = n) ∧
    Run ["localhost".toList] listen = { listen with HTTPAddr := "localhost".toList } ∧
    Run [":8089".toList] listen = { listen with HTTPPort := 8089 } ∧
    Run ["127.0.0.1:8089".toList] listen =
      { HTTPAddr := "127.0.0.1".toList, HTTPPort := 8089 } := by
  have hport : (Run (s :: rest) listen).HTTPPort =
      (if afterColon s ≠ [] then (Atoi (afterColon s)).1 else listen.HTTPPort) := by
    simp only [Run, hs, ne_eq, not_false_eq_true, if_true]
    rw [strSplit_cons_rest s ':']
    unfold afterColon
    cases hdw : s.dropWhile (fun c => c ≠ ':') with
    | nil =>
      generalize s.takeWhile (fun c => c ≠ ':') = A
      cases A <;> simp
    | cons c r =>
      obtain ⟨more, hm⟩ := strSplit_head r ':'
      simp only [hm, List.drop_succ_cons, List.drop_zero]
      generalize s.takeWhile (fun c => c ≠ ':') = A
      generalize r.takeWhile (fun c => c ≠ ':') = B
      cases A <;> cases B <;> simp
  refine ⟨?_, hport, ?_, ?_, ?_, ?_⟩
  · simp only [Run, hs, ne_eq, not_false_eq_true, if_true]
    rw [strSplit_cons_rest s ':']
    cases hdw : s.dropWhile (fun c => c ≠ ':') with
    | nil =>
      generalize s.takeWhile (fun c => c ≠ ':') = A
      cases A <;> simp
    | cons c r =>
      obtain ⟨more, hm⟩ := strSplit_head r ':'
      simp only [hm]
      generalize s.takeWhile (fun c => c ≠ ':') = A
      generalize r.takeWhile (fun c => c ≠ ':') = B
      cases A <;> cases B <;> simp
  · intro n hd hne hn
    rw [hport, if_pos hne, Atoi_digits _ n hd hne hn]
  · rfl
  · rfl
  · rfl

theorem Run_listen_witness :
    "127.0.0.1:8089".toList ≠ [] ∧
    (Run ["127.0.0.1:8089".toList] ⟨[], 8080⟩).HTTPAddr = "127.0.0.1".toList ∧
    (Run ["127.0.0.1:8089".toList] ⟨[], 8080⟩).HTTPPort = 8089 :=
  ⟨by decide,
   (Run_listen "127.0.0.1:8089".toList [] ⟨[], 8080⟩ (by decide)).1,
   (Run_listen "127.0.0.1:8089".toList [] ⟨[], 8080⟩ (by decide)).2.1⟩

end RunClaim

/-! ## `SubDomains` on addresses; the indices of the parameter store -/

section StoreSafety

/-- C25: `SubDomains` at hosts that are dotted IPv4 addresses: the address is split
at its dots like a name, so for `127.0.0.1` the result is `127.0`, the first two of
its four parts, and not the empty string; a port after the address changes
nothing. -/
theorem SubDomains_of_IPv4 :
    (exInput (exRequest "127.0.0.1".toList [] [])).SubDomains = some "127.0".toList ∧
    (exInput (exRequest "192.168.1.10:8080".toList [] [])).SubDomains =
      some "192.168".toList ∧
    (exInput (exRequest "10.0.0.1".toList [] [])).SubDomains = some "10.0".toList := by
  refine ⟨?_, ?_, ?_⟩ <;> rfl

theorem SetParam_some (s : gowebInput) (h : s.pnames.length = s.pvalues.length)
    (key val : GoString) :
    ∃ s', s.SetParam key val = some s' ∧ s'.pnames.length = s'.pvalues.length := by
  by_cases hm : key ∈ s.pnames
  · obtain ⟨vs', h1, h2, _⟩ := setParamLoop_found key val s.pnames [] s.pvalues h hm
    simp only [List.nil_append, List.length_nil] at h1
    refine ⟨{ s with pvalues := vs' }, ?_, ?_⟩
    · simp [gowebInput.SetParam, h1]
    · simp [h2, h]
  · have h1 := setParamLoop_absent key val s.pnames s.pvalues 0 hm
    refine ⟨{ s with pvalues := s.pvalues ++ [val], pnames := s.pnames ++ [key] }, ?_, ?_⟩
    · simp [gowebInput.SetParam, h1]
    · simp [h]

/-- C26: every parameter store reached from `NewInput` by `SetParam` and `Reset`
calls has as many names as values.  On every store with as many names as values the
calls `Param`, `Params` and `SetParam` return, that is, each index they make into
the values is in range, and `SetParam` keeps the two numbers equal.  The guard
`i <= len(input.pvalues)` alone does not give this: on a store with one name and no
value it holds at the index 0 and the three calls panic. -/
theorem store_indices_in_range :
    (∀ ops : List InputOp, ∃ s, runInput ops NewInput = some s ∧
      s.pnames.length = s.pvalues.length) ∧
    (∀ s : gowebInput, s.pnames.length = s.pvalues.length → ∀ key val : GoString,
      (∃ r, s.Param key = some r) ∧ (∃ m, s.Params = some m) ∧
      (∃ s', s.SetParam key val = some s' ∧ s'.pnames.length = s'.pvalues.length)) ∧
    (exShortStore.pnames.length ≤ exShortStore.pvalues.length + 1 ∧
      exShortStore.Param "a".toList = none ∧ exShortStore.Params = none ∧
      exShortStore.SetParam "a".toList "x".toList = none) := by
  refine ⟨?_, ?_, ?_⟩
  · intro ops
    obtain ⟨s, h1, h2⟩ := runInput_wf ops NewInput wf_NewInput
    exact ⟨s, h1, h2.1⟩
  · intro s h key val
    refine ⟨⟨_, Param_eq s h key⟩, ?_, SetParam_some s h key val⟩
    have h1 := paramsLoop_eq s.pnames [] s.pvalues [] h
    simp only [List.nil_append, List.length_nil] at h1
    exact ⟨_, h1⟩
  · refine ⟨by decide, by rfl, by rfl, by rfl⟩

end StoreSafety

/-! ## Template extensions and static paths -/

section TemplateClaims

theorem HasSuffix_iff (s suffix : GoString) :
    HasSuffix s suffix = true ↔ ∃ stem, s = stem ++ suffix := by
  rw [HasSuffix, List.isSuffixOf_iff_suffix]
  constructor
  · rintro ⟨t, ht⟩
    exact ⟨t, ht.symm⟩
  · rintro ⟨t, ht⟩
    exact ⟨t, ht.symm⟩

theorem HasTemplateExt_iff (exts : List GoString) (p : GoString) :
    HasTemplateExt exts p = true ↔ ∃ v ∈ exts, ∃ stem, p = stem ++ '.' :: v := by
  induction exts with
  | nil => simp [HasTemplateExt]
  | cons v rest ih =>
    by_cases h : HasSuffix p ('.' :: v) = true
    · simp only [HasTemplateExt, h, if_true, true_iff]
      exact ⟨v, List.mem_cons_self _ _, (HasSuffix_iff _ _).mp h⟩
    · simp only [HasTemplateExt, h, if_false, ih, Bool.false_eq_true]
      constructor
      · rintro ⟨w, hw, hs⟩
        exact ⟨w, List.mem_cons_of_mem _ hw, hs⟩
      · rintro ⟨w, hw, hs⟩
        rcases List.mem_cons.mp hw with rfl | hw
        · exact absurd ((HasSuffix_iff _ _).mpr hs) h
        · exact ⟨w, hw, hs⟩

theorem AddTemplateExt_mem (exts : List GoString) (e w : GoString) :
    w ∈ AddTemplateExt exts e ↔ w ∈ exts ∨ w = e := by
  by_cases h : e ∈ exts
  · have : exts.any (fun v => decide (v = e)) = true := by
      simp [List.any_eq_true, h]
    simp only [AddTemplateExt, this, if_true]
    constructor
    · exact Or.inl
    · rintro (hw | rfl)
      · exact hw
      · exact h
  · have : ¬ exts.any (fun v => decide (v = e)) = true := by
      simp [List.any_eq_true, h]
    simp [AddTemplateExt, this]

/-- C22: `HasTemplateExt(p)` is true exactly when `p` ends with `.` followed by one
of the registered extensions, which at the start are `tpl` and `html`; after
`AddTemplateExt(e)` it is true exactly for the paths for which it was true before
and for those that end with `.` followed by `e`; and `AddTemplateExt(e)` leaves the
list of extensions as it is when `e` is registered, and adds `e` at its end
otherwise. -/
theorem HasTemplateExt_registered (exts : List GoString) (p e : GoString) :
    (HasTemplateExt exts p = true ↔ ∃ v ∈ exts, ∃ stem, p = stem ++ '.' :: v) ∧
    (HasTemplateExt beeTemplateExt p = true ↔
      (∃ stem, p = stem ++ ".tpl".toList) ∨ (∃ stem, p = stem ++ ".html".toList)) ∧
    (HasTemplateExt (AddTemplateExt exts e) p = true ↔
      HasTemplateExt exts p = true ∨ ∃ stem, p = stem ++ '.' :: e) ∧
    (e ∈ exts → AddTemplateExt exts e = exts) ∧
    (e ∉ exts → AddTemplateExt exts e = exts ++ [e]) := by
  refine ⟨HasTemplateExt_iff exts p, ?_, ?_, ?_, ?_⟩
  · rw [HasTemplateExt_iff]
    constructor
    · rintro ⟨v, hv, hs⟩
      simp only [beeTemplateExt, List.mem_cons, List.mem_singleton, List.not_mem_nil,
        or_false] at hv
      rcases hv with rfl | rfl
      · exact Or.inl hs
      · exact Or.inr hs
    · rintro (hs | hs)
      · exact ⟨"tpl".toList, by simp [beeTemplateExt], hs⟩
      · exact ⟨"html".toList, by simp [beeTemplateExt], hs⟩
  · rw [HasTemplateExt_iff, HasTemplateExt_iff]
    constructor
    · rintro ⟨v, hv, hs⟩
      rcases (AddTemplateExt_mem exts e v).mp hv with hv | rfl
      · exact Or.inl ⟨v, hv, hs⟩
      · exact Or.inr hs
    · rintro (⟨v, hv, hs⟩ | hs)
      · exact ⟨v, (AddTemplateExt_mem exts e v).mpr (Or.inl hv), hs⟩
      · exact ⟨e, (AddTemplateExt_mem exts e e).mpr (Or.inr rfl), hs⟩
  · intro h
    have : exts.any (fun v => decide (v = e)) = true := by
      simp [List.any_eq_true, h]
    simp [AddTemplateExt, this]
  · intro h
    have : ¬ exts.any (fun v => decide (v = e)) = true := by
      simp [List.any_eq_true, h]
    simp [AddTemplateExt, this]

theorem mapGet_mapDelete_self (m : List (GoString × GoString)) (k : GoString) :
    mapGet (mapDelete m k) k = none := by
  induction m with
  | nil => rfl
  | cons e rest ih =>
    by_cases h : e.1 = k
    · simpa [mapDelete, h] using ih
    · have : mapDelete (e :: rest) k = e :: mapDelete rest k := by
        simp [mapDelete, h]
      rw [this]
      simp only [mapGet, h, if_false]
      exact ih

theorem mapGet_mapDelete_other (m : List (GoString × GoString)) (k k' : GoString)
    (hk : k' ≠ k) : mapGet (mapDelete m k) k' = mapGet m k' := by
  induction m with
  | nil => rfl
  | cons e rest ih =>
    by_cases h : e.1 = k
    · have h2 : ¬ e.1 = k' := fun e2 => hk (e2.symm.trans h)
      have : mapDelete (e :: rest) k = mapDelete rest k := by
        simp [mapDelete, h]
      rw [this, ih]
      simp only [mapGet, h2, if_false]
    · have : mapDelete (e :: rest) k = e :: mapDelete rest k := by
        simp [mapDelete, h]
      rw [this]
      by_cases h2 : e.1 = k'
      · simp only [mapGet, h2, if_true]
      · simp only [mapGet, h2, if_false]
        exact ih

theorem HasPrefix_slash (url : GoString) :
    HasPrefix url ['/'] = true ↔ url.head? = some '/' := by
  cases url with
  | nil => simp [HasPrefix]
  | cons c cs =>
    simp only [HasPrefix, List.isPrefixOf, List.head?_cons, Bool.and_true, beq_iff_eq,
      Option.some.injEq]
    exact eq_comm

theorem SetStaticPath_eq (url path : GoString) (dir : List (GoString × GoString)) :
    SetStaticPath url path dir = mapSet dir (normalised url) path := by
  unfold SetStaticPath normalised withSlash
  by_cases h : url.head? = some '/'
  · have hp : HasPrefix url ['/'] = true := (HasPrefix_slash url).mpr h
    simp only [hp, h, if_true, Bool.not_true, Bool.false_eq_true, if_false]
    by_cases h2 : url = ['/'] <;> simp [h2]
  · have hp : ¬ HasPrefix url ['/'] = true := fun e => h ((HasPrefix_slash url).mp e)
    simp only [hp, h, if_false, Bool.not_eq_true, Bool.not_false, if_true]
    by_cases h2 : ['/'] ++ url = ['/']
    · have h3 : '/' :: url = ['/'] := h2
      simp [h2, h3]
    · have h3 : ¬ '/' :: url = ['/'] := h2
      simp only [h2, h3, ne_eq, not_false_eq_true, if_true, if_false]
      rfl

theorem DelStaticPath_eq (url : GoString) (dir : List (GoString × GoString)) :
    DelStaticPath url dir = mapDelete dir (normalised url) := by
  unfold DelStaticPath normalised withSlash
  by_cases h : url.head? = some '/'
  · have hp : HasPrefix url ['/'] = true := (HasPrefix_slash url).mpr h
    simp only [hp, h, if_true, Bool.not_true, Bool.false_eq_true, if_false]
    by_cases h2 : url = ['/'] <;> simp [h2]
  · have hp : ¬ HasPrefix url ['/'] = true := fun e => h ((HasPrefix_slash url).mp e)
    simp only [hp, h, if_false, Bool.not_eq_true, Bool.not_false, if_true]
    by_cases h2 : ['/'] ++ url = ['/']
    · have h3 : '/' :: url = ['/'] := h2
      simp [h2, h3]
    · have h3 : ¬ '/' :: url = ['/'] := h2
      simp only [h2, h3, ne_eq, not_false_eq_true, if_true, if_false]
      rfl

theorem TrimRight_spec (s : GoString) (c : Char) :
    (∃ n, s = TrimRight s c ++ List.replicate n c) ∧ (TrimRight s c).getLast? ≠ some c := by
  constructor
  · refine ⟨(s.reverse.takeWhile (fun x => x = c)).length, ?_⟩
    have h1 := List.takeWhile_append_dropWhile (fun x => decide (x = c)) s.reverse
    have h2 : s.reverse.takeWhile (fun x => decide (x = c)) =
        List.replicate (s.reverse.takeWhile (fun x => decide (x = c))).length c := by
      rw [List.eq_replicate_iff]
      refine ⟨rfl, ?_⟩
      intro b hb
      have := List.mem_takeWhile_imp hb
      simpa using this
    have h3 := congrArg List.reverse h1
    rw [List.reverse_append, List.reverse_reverse] at h3
    have h4 : (s.reverse.takeWhile (fun x => decide (x = c))).reverse =
        List.replicate (s.reverse.takeWhile (fun x => decide (x = c))).length c := by
      conv_lhs => rw [h2]
      rw [List.reverse_replicate]
    rw [h4] at h3
    exact h3.symm
  · rw [TrimRight, List.getLast?_reverse]
    have := List.head?_dropWhile_not (fun x => decide (x = c)) s.reverse
    intro e
    rw [e] at this
    simp at this

/-- C23: `SetStaticPath(url, path)` maps the normalised url (a leading `/` added
when missing, the `/` at the end removed unless the url is `/`) to `path` and
leaves every other mapping as it is, so `SetStaticPath("static", "public")` maps
`/static` to `public`; `DelStaticPath(url)` after it removes the mapping of the
same normalised url and leaves every other mapping as it was before the two
calls. -/
theorem StaticPath_normalised (url path : GoString) (dir : List (GoString × GoString)) :
    mapGet (SetStaticPath url path dir) (normalised url) = some path ∧
    (∀ k, k ≠ normalised url → mapGet (SetStaticPath url path dir) k = mapGet dir k) ∧
    mapGet (SetStaticPath "static".toList "public".toList dir) "/static".toList =
      some "public".toList ∧
    mapGet (DelStaticPath url (SetStaticPath url path dir)) (normalised url) = none ∧
    (∀ k, k ≠ normalised url →
      mapGet (DelStaticPath url (SetStaticPath url path dir)) k = mapGet dir k) ∧
    (withSlash url ≠ ['/'] →
      (∃ n, withSlash url = normalised url ++ List.replicate n '/') ∧
      (normalised url).getLast? ≠ some '/') ∧
    (withSlash url = ['/'] → normalised url = ['/']) := by
  rw [DelStaticPath_eq, SetStaticPath_eq]
  refine ⟨mapGet_mapSet_self _ _ _, fun k hk => mapGet_mapSet_other _ _ _ _ hk.symm, ?_,
    mapGet_mapDelete_self _ _, ?_, ?_, ?_⟩
  · rw [SetStaticPath_eq]
    exact mapGet_mapSet_self _ _ _
  · intro k hk
    rw [mapGet_mapDelete_other _ _ _ hk, mapGet_mapSet_other _ _ _ _ hk.symm]
  · intro h
    simp only [normalised, h, if_false]
    exact TrimRight_spec _ _
  · intro h
    simp [normalised, h]

end TemplateClaims

/-! ## The query string of a GET request -/

section Httplib

variable (escape : GoString → GoString)

theorem strIndex_ge (s : GoString) (c : Char) : -1 ≤ strIndex s c := by
  induction s with
  | nil => simp [strIndex]
  | cons d ds ih =>
    by_cases h : d = c
    · simp [strIndex, h]
    · simp only [strIndex, h, if_false]
      by_cases h2 : strIndex ds c = -1
      · simp [h2]
      · simp only [h2, if_false]
        omega

theorem strIndex_ne_iff (s : GoString) (c : Char) : strIndex s c ≠ -1 ↔ c ∈ s := by
  induction s with
  | nil => simp [strIndex]
  | cons d ds ih =>
    by_cases h : d = c
    · simp [strIndex, h]
    · have hge := strIndex_ge ds c
      have hc : c ≠ d := fun e => h e.symm
      simp only [strIndex, h, if_false, List.mem_cons, hc, false_or]
      rw [← ih]
      by_cases h2 : strIndex ds c = -1
      · simp [h2]
      · simp only [h2, if_false, ne_eq, not_false_eq_true, iff_true]
        omega

theorem foldl_piece (k : GoString) (vs : List GoString) :
    ∀ buf : GoString,
      vs.foldl (fun buf vv => buf ++ escape k ++ ['='] ++ escape vv ++ ['&']) buf =
        buf ++ (vs.map (fun v => (k, v))).flatMap
          (fun p => (escape p.1 ++ '=' :: escape p.2) ++ ['&']) := by
  induction vs with
  | nil => intro buf; simp
  | cons v rest ih =>
    intro buf
    rw [List.foldl_cons, ih]
    simp

theorem writeParams_eq (it : List (GoString × List GoString)) :
    writeParams escape it =
      (pairsOf it).flatMap (fun p => (escape p.1 ++ '=' :: escape p.2) ++ ['&']) := by
  have h : ∀ (l : List (GoString × List GoString)) (buf : GoString),
      l.foldl (fun buf e =>
        e.2.foldl (fun buf vv => buf ++ escape e.1 ++ ['='] ++ escape vv ++ ['&']) buf) buf =
        buf ++ (pairsOf l).flatMap (fun p => (escape p.1 ++ '=' :: escape p.2) ++ ['&']) := by
    intro l
    induction l with
    | nil => intro buf; simp [pairsOf]
    | cons e rest ih =>
      intro buf
      rw [List.foldl_cons, foldl_piece, ih]
      simp [pairsOf, List.flatMap_append]
  have := h it []
  simpa [writeParams] using this

theorem dropLast_flatMap (c : Char) (ps : List GoString) (h : ps ≠ []) :
    (ps.flatMap (fun x => x ++ [c])).dropLast = strJoin ps [c] := by
  induction ps with
  | nil => exact absurd rfl h
  | cons p rest ih =>
    cases rest with
    | nil => simp [strJoin]
    | cons q more =>
      have hne : (q :: more).flatMap (fun x => x ++ [c]) ≠ [] := by
        simp
      rw [List.flatMap_cons, List.dropLast_append_of_ne_nil _ hne, ih (by simp)]
      simp [strJoin]

theorem strJoin_ne_nil (p : GoString) (ps : List GoString) (sep : GoString) (h : p ≠ []) :
    strJoin (p :: ps) sep ≠ [] := by
  cases ps with
  | nil => simpa [strJoin] using h
  | cons q more => simp [strJoin, h]

theorem Param_params (b : gowebHTTPRequest) (k v : GoString) :
    (b.Param k v).params = mapSet b.params k ((mapGet b.params k).getD [] ++ [v]) ∧
    (b.Param k v).url = b.url ∧ (b.Param k v).Method = b.Method := by
  unfold gowebHTTPRequest.Param
  cases h : mapGet b.params k <;> simp

theorem pairsOf_mapSet (m : List (GoString × List GoString)) (k v : GoString) :
    (pairsOf (mapSet m k ((mapGet m k).getD [] ++ [v]))).Perm (pairsOf m ++ [(k, v)]) := by
  induction m with
  | nil => simp [mapSet, mapGet, pairsOf]
  | cons e rest ih =>
    obtain ⟨k', vs'⟩ := e
    by_cases h : k' = k
    · subst h
      simp only [mapSet, mapGet, if_true, Option.getD_some, pairsOf, List.flatMap_cons,
        List.map_append, List.map_cons, List.map_nil, List.append_assoc]
      apply List.Perm.append_left
      exact (List.perm_append_comm :
        ([(k', v)] ++ pairsOf rest).Perm (pairsOf rest ++ [(k', v)]))
    · simp only [mapSet, mapGet, h, if_false, pairsOf, List.flatMap_cons, List.append_assoc]
      apply List.Perm.append_left
      exact ih

theorem mapGet_mapSet_getD (m : List (GoString × List GoString)) (k k' : GoString)
    (vs : List GoString) :
    (mapGet (mapSet m k vs) k').getD [] =
      if k = k' then vs else (mapGet m k').getD [] := by
  by_cases h : k = k'
  · subst h
    simp [mapGet_mapSet_self]
  · simp [mapGet_mapSet_other _ _ _ _ h, h]

theorem addParams_spec (adds : List (GoString × GoString)) :
    ∀ b : gowebHTTPRequest, (mapKeys b.params).Nodup →
      (addParams adds b).url = b.url ∧ (addParams adds b).Method = b.Method ∧
      (mapKeys (addParams adds b).params).Nodup ∧
      (pairsOf (addParams adds b).params).Perm (pairsOf b.params ++ adds) ∧
      ∀ k, (mapGet (addParams adds b).params k).getD [] =
        (mapGet b.params k).getD [] ++
          (adds.filter (fun p => p.1 = k)).map Prod.snd := by
  induction adds with
  | nil => intro b hb; simp [addParams, hb]
  | cons p rest ih =>
    intro b hb
    obtain ⟨h1, h2, h3⟩ := Param_params b p.1 p.2
    have hb' : (mapKeys (b.Param p.1 p.2).params).Nodup := by
      rw [h1]
      exact mapKeys_mapSet _ _ _ hb
    obtain ⟨i1, i2, i3, i4, i5⟩ := ih (b.Param p.1 p.2) hb'
    have e : addParams (p :: rest) b = addParams rest (b.Param p.1 p.2) := rfl
    rw [e]
    refine ⟨i1.trans h2, i2.trans h3, i3, ?_, ?_⟩
    · refine i4.trans ?_
      rw [h1]
      have := (pairsOf_mapSet b.params p.1 p.2).append_right rest
      simpa using this
    · intro k
      rw [i5 k, h1, mapGet_mapSet_getD]
      by_cases hk : p.1 = k
      · simp [hk]
      · simp [hk]

theorem pairsOf_filter (l : List (GoString × List GoString)) (k : GoString)
    (hn : (mapKeys l).Nodup) :
    (pairsOf l).filter (fun p => p.1 = k) =
      ((mapGet l k).getD []).map (fun v => (k, v)) := by
  induction l with
  | nil => simp [pairsOf, mapGet]
  | cons e rest ih =>
    obtain ⟨k', vs'⟩ := e
    simp only [mapKeys, List.map_cons, List.nodup_cons] at hn
    have ih' := ih hn.2
    simp only [pairsOf, List.flatMap_cons, List.filter_append] at ih' ⊢
    by_cases h : k' = k
    · subst h
      have hnone : mapGet rest k' = none := mapGet_eq_none_of_not_mem rest k' hn.1
      rw [ih', hnone]
      simp [mapGet, List.filter_map, Function.comp_def]
    · rw [ih']
      simp [mapGet, h, List.filter_map, Function.comp_def]

theorem mapGet_eq_some_iff (l : List (GoString × List GoString)) (k : GoString)
    (v : List GoString) (hn : (mapKeys l).Nodup) :
    mapGet l k = some v ↔ (k, v) ∈ l := by
  induction l with
  | nil => simp [mapGet]
  | cons e rest ih =>
    obtain ⟨k', v'⟩ := e
    simp only [mapKeys, List.map_cons, List.nodup_cons] at hn
    by_cases h : k' = k
    · subst h
      simp only [mapGet, if_true, Option.some.injEq, List.mem_cons, Prod.mk.injEq, true_and]
      constructor
      · intro e
        exact Or.inl e.symm
      · rintro (e | hm)
        · exact e.symm
        · exact absurd (List.mem_map_of_mem Prod.fst hm) hn.1
    · simp only [mapGet, h, if_false, List.mem_cons, Prod.mk.injEq]
      rw [ih hn.2]
      constructor
      · exact Or.inr
      · rintro (⟨e, _⟩ | hm)
        · exact absurd e.symm h
        · exact hm

theorem mapGet_perm (it m : List (GoString × List GoString)) (k : GoString)
    (hp : it.Perm m) (hn : (mapKeys m).Nodup) : mapGet it k = mapGet m k := by
  have hn' : (mapKeys it).Nodup := ((hp.map Prod.fst).nodup_iff).mpr hn
  apply Option.ext
  intro v
  show mapGet it k = some v ↔ mapGet m k = some v
  rw [mapGet_eq_some_iff it k v hn', mapGet_eq_some_iff m k v hn]
  exact hp.mem_iff

theorem filter_map_key (adds : List (GoString × GoString)) (k : GoString) :
    ((adds.filter (fun p => p.1 = k)).map Prod.snd).map (fun v => (k, v)) =
      adds.filter (fun p => p.1 = k) := by
  induction adds with
  | nil => rfl
  | cons p rest ih =>
    by_cases h : p.1 = k
    · simp only [List.filter_cons, h, decide_True, if_true, List.map_cons, ih]
      congr 1
      exact Prod.ext h.symm rfl
    · simp only [List.filter_cons, h, decide_False, if_false, Bool.false_eq_true]
      exact ih

end Httplib

section HttplibClaim

/-- C24: a GET request built from a url with `Param(k1, v1)`, ..., `Param(kn, vn)`,
`n ≥ 1`, whatever the order `it` in which `DoRequest` visits the map of parameters.
`DoRequest` returns from its loops and the url it uses is the original url, then
`&` when the original url contains `?` and `?` otherwise, then the pieces
`escape(key)=escape(value)` of the pairs joined by single `&`, none at the end; the
pairs are the added pairs, each as often as it was added, and the pairs of one key
are in the order in which they were added. -/
theorem DoRequest_query (escape : GoString → GoString) (url0 : GoString)
    (adds : List (GoString × GoString)) (it : List (GoString × List GoString))
    (hne : adds ≠ [])
    (hit : it.Perm (addParams adds (httplibGet url0)).params) :
    ∃ b', (addParams adds (httplibGet url0)).DoRequest escape it = some b' ∧
      b'.url = url0 ++ (if '?' ∈ url0 then ['&'] else ['?']) ++
        strJoin ((pairsOf it).map (fun p => escape p.1 ++ '=' :: escape p.2)) ['&'] ∧
      (pairsOf it).Perm adds ∧
      ∀ k, (pairsOf it).filter (fun p => p.1 = k) = adds.filter (fun p => p.1 = k) := by
  obtain ⟨h1, h2, h3, h4, h5⟩ := addParams_spec adds (httplibGet url0)
    (by simp [httplibGet, NewgowebRequest, mapKeys])
  have hperm : (pairsOf it).Perm adds := by
    have := (List.Perm.flatMap_right (fun e : GoString × List GoString =>
      e.2.map (fun v => (e.1, v))) hit).trans h4
    simpa [pairsOf, httplibGet, NewgowebRequest] using this
  have hpairs : pairsOf it ≠ [] := fun e => hne (by
    rw [e] at hperm
    exact hperm.symm.eq_nil)
  have hparams : (addParams adds (httplibGet url0)).params.length > 0 := by
    apply List.length_pos.mpr
    intro e
    rw [e] at hit
    rw [hit.eq_nil] at hpairs
    exact hpairs rfl
  have hbuf : writeParams escape it =
      ((pairsOf it).map (fun p => escape p.1 ++ '=' :: escape p.2)).flatMap
        (fun x => x ++ ['&']) := by
    rw [writeParams_eq, List.flatMap_map]
  have hmap : (pairsOf it).map (fun p => escape p.1 ++ '=' :: escape p.2) ≠ [] := by
    simpa using hpairs
  have hbody := dropLast_flatMap '&' _ hmap
  have hlen : ¬ (writeParams escape it).length = 0 := by
    rw [hbuf]
    cases hp : pairsOf it with
    | nil => exact absurd hp hpairs
    | cons p rest => simp
  have hjoin : (strJoin ((pairsOf it).map (fun p => escape p.1 ++ '=' :: escape p.2))
      ['&']).length > 0 := by
    apply List.length_pos.mpr
    cases hp : pairsOf it with
    | nil => exact absurd hp hpairs
    | cons p rest =>
      rw [List.map_cons]
      exact strJoin_ne_nil _ _ _ (by simp)
  refine ⟨(addParams adds (httplibGet url0)).buildURL (writeParams escape it).dropLast,
    ?_, ?_, hperm, ?_⟩
  · simp only [gowebHTTPRequest.DoRequest, hparams, if_true, hlen, if_false,
      Option.bind_eq_bind, Option.some_bind, Option.pure_def]
  · rw [hbuf, hbody]
    have hm : (addParams adds (httplibGet url0)).Method = "GET".toList := by
      rw [h2]
      rfl
    have hu : (addParams adds (httplibGet url0)).url = url0 := by
      rw [h1]
      rfl
    simp only [gowebHTTPRequest.buildURL, hm, hjoin, and_self, if_true, hu]
    by_cases hq : '?' ∈ url0
    · have := (strIndex_ne_iff url0 '?').mpr hq
      simp only [this, hq, ne_eq, not_false_eq_true, if_true]
    · have : ¬ strIndex url0 '?' ≠ -1 := fun e => hq ((strIndex_ne_iff url0 '?').mp e)
      simp only [this, hq, if_false]
  · intro k
    have hn' : (mapKeys it).Nodup := ((hit.map Prod.fst).nodup_iff).mpr h3
    rw [pairsOf_filter it k hn', mapGet_perm it _ k hit h3, h5 k]
    have : mapGet (httplibGet url0).params k = none := rfl
    rw [this]
    simp only [Option.getD_none, List.nil_append]
    exact filter_map_key adds k

theorem DoRequest_query_witness :
    exAdds ≠ [] ∧
    exOrder.Perm (addParams exAdds (httplibGet "http://h/p".toList)).params ∧
    ∃ b', (addParams exAdds (httplibGet "http://h/p".toList)).DoRequest exEscape exOrder =
        some b' ∧
      b'.url = "http://h/p?b=x+y&a=1&a=2".toList := by
  have hperm : exOrder.Perm (addParams exAdds (httplibGet "http://h/p".toList)).params :=
    List.Perm.swap _ _ []
  obtain ⟨b', h1, h2, _⟩ :=
    DoRequest_query exEscape "http://h/p".toList exAdds exOrder (by decide) hperm
  refine ⟨by decide, hperm, b', h1, ?_⟩
  rw [h2]
  rfl

end HttplibClaim

/-! ## `addPrefix` applied twice -/

section AddPrefixIdem

mutual
theorem addPrefix_idem : ∀ (t : Tree) (q : GoString),
    addPrefix (addPrefix t q) q = addPrefix t q
  | .node fs w ls, q => by
    simp [addPrefix, addPrefixFix_idem fs q, addPrefixWild_idem w q, List.map_map,
      Function.comp_def, addPrefixLeaf_idem]
theorem addPrefixFix_idem : ∀ (fs : List (GoString × Tree)) (q : GoString),
    addPrefixFix (addPrefixFix fs q) q = addPrefixFix fs q
  | [], q => by simp [addPrefixFix]
  | (k, t) :: more, q => by
    simp [addPrefixFix, addPrefix_idem t q, addPrefixFix_idem more q]
theorem addPrefixWild_idem : ∀ (w : Option Tree) (q : GoString),
    addPrefixWild (addPrefixWild w q) q = addPrefixWild w q
  | none, q => by simp [addPrefixWild]
  | some t, q => by simp [addPrefixWild, addPrefix_idem t q]
end

theorem pfxOnce_idem (q p : GoString) : pfxOnce q (pfxOnce q p) = pfxOnce q p := by
  by_cases h : HasPrefix p q = true
  · simp [pfxOnce, h]
  · simp [pfxOnce, h, HasPrefix_append]

theorem visited_idem (q : GoString) (c : controllerInfo) :
    visited q (visited q c) = visited q c := by
  simp [visited, pfxOnce_idem]

theorem addPrefixAt_get (q : GoString) (heap : List controllerInfo) (a i : Nat) :
    (addPrefixAt q heap (some a))[i]? =
      if i = a then (heap[i]?).map (visited q) else heap[i]? := by
  unfold addPrefixAt
  cases hc : heap[a]? with
  | none =>
    by_cases hi : i = a
    · subst hi
      simp [hc]
    · simp [hi, hc]
  | some c =>
    have hlt : a < heap.length := by
      by_contra hge
      rw [List.getElem?_eq_none (not_lt.mp hge)] at hc
      cases hc
    by_cases hp : HasPrefix c.pattern q = true
    · by_cases hi : i = a
      · subst hi
        simp only [hp, Bool.not_true, Bool.false_eq_true, if_false, if_true, hc, Option.map_some']
        congr 1
        simp [visited, pfxOnce, hp]
      · simp [hp, hi, hc]
    · by_cases hi : i = a
      · subst hi
        simp only [hp, Bool.not_eq_true, Bool.not_false, if_true, hc, Option.map_some']
        rw [List.getElem?_set_self hlt]
        simp [visited, pfxOnce, hp]
      · have hne : a ≠ i := fun e => hi e.symm
        simp only [hc, hp, Bool.not_eq_true, Bool.not_false, if_true, hi, if_false]
        rw [List.getElem?_set_ne hne]

theorem visits_get (q : GoString) (vs : List Nat) :
    ∀ (heap : List controllerInfo) (i : Nat),
      (vs.foldl (fun h a => addPrefixAt q h (some a)) heap)[i]? =
        if i ∈ vs then (heap[i]?).map (visited q) else heap[i]? := by
  induction vs with
  | nil => intro heap i; simp
  | cons a rest ih =>
    intro heap i
    rw [List.foldl_cons, ih, addPrefixAt_get]
    by_cases hia : i = a
    · subst hia
      by_cases hr : i ∈ rest
      · cases h : heap[i]? <;> simp [hr, visited_idem]
      · simp [hr]
    · by_cases hr : i ∈ rest
      · simp [hr, hia]
      · simp [hr, hia]

theorem leaves_visits (q : GoString) (ls : List (Option Nat)) :
    ∀ heap : List controllerInfo,
      ls.foldl (addPrefixAt q) heap =
        (ls.filterMap id).foldl (fun h a => addPrefixAt q h (some a)) heap := by
  induction ls with
  | nil => intro heap; rfl
  | cons l rest ih =>
    intro heap
    cases l with
    | none =>
      rw [List.foldl_cons, ih]
      rfl
    | some a =>
      rw [List.foldl_cons, ih]
      rfl

mutual
theorem addPrefixRef_visits : ∀ (t : RefTree) (q : GoString) (heap : List controllerInfo),
    addPrefixRef t q heap = t.refs.foldl (fun h a => addPrefixAt q h (some a)) heap
  | .node fs w ls, q, heap => by
    simp only [addPrefixRef, RefTree.refs, List.foldl_append, leaves_visits]
    rw [addPrefixRefFix_visits fs q heap, addPrefixRefWild_visits w q]
theorem addPrefixRefFix_visits :
    ∀ (fs : List (GoString × RefTree)) (q : GoString) (heap : List controllerInfo),
    addPrefixRefFix fs q heap = (refsFix fs).foldl (fun h a => addPrefixAt q h (some a)) heap
  | [], q, heap => by simp [addPrefixRefFix, refsFix]
  | (k, t) :: more, q, heap => by
    simp only [addPrefixRefFix, refsFix, List.foldl_append]
    rw [addPrefixRef_visits t q heap, addPrefixRefFix_visits more q]
theorem addPrefixRefWild_visits :
    ∀ (w : Option RefTree) (q : GoString) (heap : List controllerInfo),
    addPrefixRefWild w q heap = (refsWild w).foldl (fun h a => addPrefixAt q h (some a)) heap
  | none, q, heap => by simp [addPrefixRefWild, refsWild]
  | some t, q, heap => by
    simp only [addPrefixRefWild, refsWild]
    exact addPrefixRef_visits t q heap
end

theorem mergeRefs_visits (q : GoString) (routers : List (GoString × RefTree)) :
    ∀ heap : List controllerInfo,
      mergeRefs q routers heap =
        (routers.flatMap (fun e => e.2.refs)).foldl
          (fun h a => addPrefixAt q h (some a)) heap := by
  induction routers with
  | nil => intro heap; rfl
  | cons e rest ih =>
    intro heap
    have := ih (addPrefixRef e.2 q heap)
    simp only [mergeRefs, List.foldl_cons, List.flatMap_cons, List.foldl_append] at this ⊢
    rw [this, addPrefixRef_visits]

/-- C27, amended: `addPrefix` is idempotent, on a tree with its controllers and on
trees that point to controllers in a heap: a second application changes nothing.
In one merge of a namespace a controller that is bound into the trees of one or
several methods ends with the pattern that one visit gives: the prefix followed by
the pattern when the pattern does not begin with the prefix, and the pattern itself
when it does; the other controllers keep their pattern. -/
theorem addPrefix_idempotent :
    (∀ (t : Tree) (q : GoString), addPrefix (addPrefix t q) q = addPrefix t q) ∧
    (∀ (t : Tree) (q : GoString),
      (addPrefix (addPrefix t q) q).patterns = (addPrefix t q).patterns ∧
      (addPrefix t q).patterns = t.patterns.map (pfxOnce q)) ∧
    (∀ (t : RefTree) (q : GoString) (heap : List controllerInfo),
      addPrefixRef t q (addPrefixRef t q heap) = addPrefixRef t q heap) ∧
    (∀ (routers : List (GoString × RefTree)) (q : GoString) (heap : List controllerInfo)
      (a : Nat) (c : controllerInfo), heap[a]? = some c →
      ((∃ e ∈ routers, a ∈ e.2.refs) →
        (mergeRefs q routers heap)[a]? =
          some { c with pattern := pfxOnce q c.pattern }) ∧
      ((∀ e ∈ routers, a ∉ e.2.refs) → (mergeRefs q routers heap)[a]? = some c)) ∧
    (∀ q p : GoString, (HasPrefix p q = false → pfxOnce q p = q ++ p) ∧
      (HasPrefix p q = true → pfxOnce q p = p)) := by
  refine ⟨addPrefix_idem, ?_, ?_, ?_, ?_⟩
  · intro t q
    exact ⟨by rw [addPrefix_idem], patterns_addPrefix t q⟩
  · intro t q heap
    apply List.ext_getElem?
    intro i
    rw [addPrefixRef_visits, addPrefixRef_visits, visits_get, visits_get]
    by_cases hi : i ∈ t.refs
    · cases h : heap[i]? <;> simp [hi, visited_idem]
    · simp [hi]
  · intro routers q heap a c hc
    rw [mergeRefs_visits, visits_get]
    constructor
    · rintro ⟨e, he, ha⟩
      have : a ∈ routers.flatMap (fun e => e.2.refs) := List.mem_flatMap.mpr ⟨e, he, ha⟩
      simp [this, hc, visited]
    · intro hno
      have : a ∉ routers.flatMap (fun e => e.2.refs) := by
        intro hm
        obtain ⟨e, he, ha⟩ := List.mem_flatMap.mp hm
        exact hno e he ha
      simp [this, hc]
  · intro q p
    exact ⟨fun h => by simp [pfxOnce, h], fun h => by simp [pfxOnce, h]⟩

/-- C27 as stated fails: a controller with the pattern `/ab` that is bound into the
trees of GET and POST of a namespace with the prefix `/a` still records `/ab` after
the merge, so the prefix was not prepended; the controller with the pattern `/b`,
bound into the same two trees, records `/a/b`. -/
theorem shared_controller_keeps_pattern :
    (∀ e ∈ exShared, 0 ∈ e.2.refs ∧ 1 ∈ e.2.refs) ∧
    exHeap.map (fun c => c.pattern) = ["/ab".toList, "/b".toList] ∧
    (mergeRefs "/a".toList exShared exHeap).map (fun c => c.pattern) =
      ["/ab".toList, "/a/b".toList] ∧
    "/ab".toList ≠ "/a".toList ++ "/ab".toList := by
  refine ⟨by decide, by rfl, by rfl, by decide⟩

end AddPrefixIdem

/-! ## The merge with filter entries held as pointers: lemmas and claims -/

section MergeRef

variable {Ctx : Type}

theorem repeatSegs_add (a b : Nat) (segs : List GoString) :
    repeatSegs (a + b) segs = repeatSegs a segs ++ repeatSegs b segs := by
  induction a with
  | zero => simp [repeatSegs]
  | succ a ih =>
    have e : a + 1 + b = (a + b) + 1 := by omega
    rw [e]
    simp [repeatSegs, ih]

theorem under_under (A B : List GoString) (r : List Step × leafInfo) :
    under A (under B r) = under (A ++ B) r := by
  simp [under]

theorem NewTree_AddTree_routes (pfx : GoString) (t t' : Tree)
    (h : NewTree.AddTree pfx t = some t') :
    ∃ segs, literalPath pfx = some segs ∧ segs ≠ [] ∧
      t'.routes = t.routes.map (under segs) := by
  obtain ⟨segs, h1, h2, h3⟩ := AddTree_routes NewTree t' t pfx h
  refine ⟨segs, h1, h2, ?_⟩
  rw [h3]
  simp [NewTree, Tree.routes, routesWild, routesFix]

theorem Rerooted_refl (pfx : GoString) (heap : List (FilterRouter Ctx)) :
    Rerooted pfx (fun _ => 0) heap heap := by
  refine ⟨rfl, ?_⟩
  intro a e he
  exact ⟨e, he, rfl, rfl, fun _ => rfl, fun h => absurd h (Nat.lt_irrefl 0)⟩

theorem Rerooted_trans (pfx : GoString) (k1 k2 : Nat → Nat)
    (heap heap1 heap2 : List (FilterRouter Ctx))
    (h1 : Rerooted pfx k1 heap heap1) (h2 : Rerooted pfx k2 heap1 heap2) :
    Rerooted pfx (fun a => k1 a + k2 a) heap heap2 := by
  refine ⟨h2.1.trans h1.1, ?_⟩
  intro a e he
  obtain ⟨e1, a1, a2, a3, a4, a5⟩ := h1.2 a e he
  obtain ⟨e2, b1, b2, b3, b4, b5⟩ := h2.2 a e1 a1
  refine ⟨e2, b1, b2.trans a2, b3.trans a3, ?_, ?_⟩
  · intro hz
    have hz' : k1 a + k2 a = 0 := hz
    have z1 : k1 a = 0 := by omega
    have z2 : k2 a = 0 := by omega
    rw [b4 z2, a4 z1]
  · intro hpos
    have hpos' : 0 < k1 a + k2 a := hpos
    show ∃ segs, literalPath pfx = some segs ∧ segs ≠ [] ∧
      e2.tree.routes = e.tree.routes.map (under (repeatSegs (k1 a + k2 a) segs))
    by_cases z1 : k1 a = 0
    · have p2 : 0 < k2 a := by omega
      obtain ⟨segs, s1, s2, s3⟩ := b5 p2
      refine ⟨segs, s1, s2, ?_⟩
      rw [s3, a4 z1, z1, Nat.zero_add]
    · have p1 : 0 < k1 a := Nat.pos_of_ne_zero z1
      obtain ⟨segs, s1, s2, s3⟩ := a5 p1
      refine ⟨segs, s1, s2, ?_⟩
      by_cases z2 : k2 a = 0
      · rw [b4 z2, s3, z2, Nat.add_zero]
      · obtain ⟨segs', t1, _, t3⟩ := b5 (Nat.pos_of_ne_zero z2)
        rw [s1] at t1
        cases t1
        rw [t3, s3, List.map_map, Nat.add_comm, repeatSegs_add]
        congr 1
        funext r
        exact under_under _ _ r

theorem Rerooted_congr (pfx : GoString) (k k' : Nat → Nat)
    (heap heap' : List (FilterRouter Ctx)) (h : Rerooted pfx k heap heap')
    (hk : ∀ a, k a = k' a) : Rerooted pfx k' heap heap' := by
  have : k = k' := funext hk
  rw [← this]
  exact h

theorem mergeFilterRef_some (pfx : GoString) (pos : Int) (heap heap' : List (FilterRouter Ctx))
    (h h' : RegisterRef) (a : Nat)
    (hm : mergeFilterRef pfx pos (heap, h) a = some (heap', h')) :
    h' = h.insertFilterRouter pos a ∧ Rerooted pfx (fun b => [a].count b) heap heap' := by
  unfold mergeFilterRef at hm
  cases he : heap[a]? with
  | none => simp [he] at hm
  | some e =>
    cases ht : NewTree.AddTree pfx e.tree with
    | none => simp [he, ht] at hm
    | some t =>
      simp only [he, ht, Option.bind_eq_bind, Option.some_bind, Option.pure_def,
        Option.some.injEq, Prod.mk.injEq] at hm
      obtain ⟨rfl, rfl⟩ := hm
      refine ⟨rfl, by simp, ?_⟩
      intro b eb hb
      have hlt : a < heap.length := by
        by_contra hge
        rw [List.getElem?_eq_none (not_lt.mp hge)] at he
        cases he
      by_cases hab : a = b
      · subst hab
        rw [he] at hb
        cases hb
        refine ⟨{ e with tree := t }, List.getElem?_set_self hlt, rfl, rfl, ?_, ?_⟩
        · intro hz
          simp at hz
        · intro _
          obtain ⟨segs, s1, s2, s3⟩ := NewTree_AddTree_routes pfx e.tree t ht
          refine ⟨segs, s1, s2, ?_⟩
          simp [repeatSegs, s3]
      · refine ⟨eb, by rw [List.getElem?_set_ne hab]; exact hb, rfl, rfl, fun _ => rfl, ?_⟩
        intro hp
        have hp' : 0 < [a].count b := hp
        have : [a].count b = 0 := by
          simp [List.count_cons, hab]
        omega

theorem insertFilterRouterRef_get (p : RegisterRef) (pos : Int) (a : Nat) :
    (p.insertFilterRouter pos a).filtersAt pos = p.filtersAt pos ++ [a] := by
  simp [RegisterRef.insertFilterRouter, RegisterRef.filtersAt, mapGet_mapSet_self]

theorem insertFilterRouterRef_get_other (p : RegisterRef) (pos pos' : Int) (a : Nat)
    (h : pos ≠ pos') :
    mapGet (p.insertFilterRouter pos a).filters pos' = mapGet p.filters pos' := by
  simp [RegisterRef.insertFilterRouter, mapGet_mapSet_other _ _ _ _ h]

theorem mergeFilterListRef_some (pfx : GoString) (pos : Int) (l : List Nat) :
    ∀ (heap heap' : List (FilterRouter Ctx)) (h h' : RegisterRef),
      mergeFilterListRef pfx pos l (heap, h) = some (heap', h') →
      Rerooted pfx (fun b => l.count b) heap heap' ∧ h'.routers = h.routers ∧
      h'.filtersAt pos = h.filtersAt pos ++ l ∧
      (∀ pos', pos ≠ pos' → mapGet h'.filters pos' = mapGet h.filters pos') := by
  induction l with
  | nil =>
    intro heap heap' h h' hm
    simp only [mergeFilterListRef, List.foldlM_nil, Option.pure_def, Option.some.injEq,
      Prod.mk.injEq] at hm
    obtain ⟨rfl, rfl⟩ := hm
    exact ⟨Rerooted_congr _ _ _ _ _ (Rerooted_refl pfx heap) (fun _ => by simp), rfl,
      by simp, fun _ _ => rfl⟩
  | cons a rest ih =>
    intro heap heap' h h' hm
    simp only [mergeFilterListRef, List.foldlM_cons] at hm
    cases h1 : mergeFilterRef pfx pos (heap, h) a with
    | none => simp [h1] at hm
    | some p1 =>
      obtain ⟨heap1, g1⟩ := p1
      simp only [h1, Option.bind_eq_bind, Option.some_bind] at hm
      obtain ⟨rfl, hr⟩ := mergeFilterRef_some pfx pos heap heap1 h g1 a h1
      obtain ⟨i1, i2, i3, i4⟩ := ih heap1 heap' _ h' hm
      refine ⟨?_, ?_, ?_, ?_⟩
      · refine Rerooted_congr _ _ _ _ _ (Rerooted_trans _ _ _ _ _ _ hr i1) ?_
        intro b
        simp only [List.count_cons, List.count_nil]
        omega
      · rw [i2]
        rfl
      · rw [i3, insertFilterRouterRef_get]
        simp
      · intro pos' hp
        rw [i4 pos' hp, insertFilterRouterRef_get_other _ _ _ _ hp]

theorem mergeFiltersRef_some (pfx : GoString) (fl : List (Int × List Nat)) :
    ∀ (heap heap' : List (FilterRouter Ctx)) (h h' : RegisterRef),
      (mapKeys fl).Nodup → mergeFiltersRef pfx fl (heap, h) = some (heap', h') →
      Rerooted pfx (fun b => (allPtrs fl).count b) heap heap' ∧ h'.routers = h.routers ∧
      ∀ pos, h'.filtersAt pos = h.filtersAt pos ++ (mapGet fl pos).getD [] := by
  induction fl with
  | nil =>
    intro heap heap' h h' _ hm
    simp only [mergeFiltersRef, List.foldlM_nil, Option.pure_def, Option.some.injEq,
      Prod.mk.injEq] at hm
    obtain ⟨rfl, rfl⟩ := hm
    exact ⟨Rerooted_congr _ _ _ _ _ (Rerooted_refl pfx heap) (fun _ => by simp [allPtrs]),
      rfl, fun _ => by simp [mapGet]⟩
  | cons e rest ih =>
    obtain ⟨p0, l0⟩ := e
    intro heap heap' h h' hnd hm
    simp only [mapKeys, List.map_cons, List.nodup_cons] at hnd
    simp only [mergeFiltersRef, List.foldlM_cons] at hm
    cases h1 : mergeFilterListRef pfx p0 l0 (heap, h) with
    | none => simp [h1] at hm
    | some p1 =>
      obtain ⟨heap1, g1⟩ := p1
      simp only [h1, Option.bind_eq_bind, Option.some_bind] at hm
      obtain ⟨j1, j2, j3, j4⟩ := mergeFilterListRef_some pfx p0 l0 _ _ _ _ h1
      obtain ⟨i1, i2, i3⟩ := ih heap1 heap' g1 h' hnd.2 hm
      refine ⟨?_, by rw [i2, j2], ?_⟩
      · refine Rerooted_congr _ _ _ _ _ (Rerooted_trans _ _ _ _ _ _ j1 i1) ?_
        intro b
        simp [allPtrs, List.flatMap_cons, List.count_append]
      · intro pos
        by_cases hp : p0 = pos
        · subst hp
          have hn : mapGet rest p0 = none := mapGet_eq_none_of_not_mem rest p0 hnd.1
          rw [i3 p0, j3, hn]
          simp [mapGet]
        · rw [i3 pos]
          have : g1.filtersAt pos = h.filtersAt pos := by
            simp only [RegisterRef.filtersAt, j4 pos hp]
          rw [this]
          simp [mapGet, hp]

end MergeRef

section MergeRef2

variable {Ctx : Type}

theorem allPtrs_nil_of_empty (fl : List (Int × List Nat)) (hnd : (mapKeys fl).Nodup)
    (h : ∀ pos, (mapGet fl pos).getD [] = []) : allPtrs fl = [] := by
  induction fl with
  | nil => rfl
  | cons e rest ih =>
    obtain ⟨p0, l0⟩ := e
    simp only [mapKeys, List.map_cons, List.nodup_cons] at hnd
    have h0 := h p0
    simp only [mapGet, if_true, Option.getD_some] at h0
    subst h0
    have hr : ∀ pos, (mapGet rest pos).getD [] = [] := by
      intro pos
      by_cases hp : p0 = pos
      · subst hp
        rw [mapGet_eq_none_of_not_mem rest p0 hnd.1]
        rfl
      · have := h pos
        simpa [mapGet, hp] using this
    have := ih hnd.2 hr
    simp only [allPtrs] at this ⊢
    simp [List.flatMap_cons, this]

theorem mergeNamespaceRef_some (heap heap' : List (FilterRouter Ctx)) (h h' : RegisterRef)
    (ni ni' : NamespaceRef) (hm : mergeNamespaceRef heap h ni = some (heap', h', ni')) :
    ∃ routers, mergeRouters ni.pfx ni.handlers.routers h.routers =
        some (routers, ni'.handlers.routers) ∧
      ni'.pfx = ni.pfx ∧ ni'.handlers.filters = ni.handlers.filters ∧
      ni'.handlers.enableFilter = ni.handlers.enableFilter ∧
      (ni.handlers.enableFilter = true →
        mergeFiltersRef ni.pfx ni.handlers.filters (heap, { h with routers := routers }) =
          some (heap', h')) ∧
      (ni.handlers.enableFilter = false → heap' = heap ∧ h' = { h with routers := routers }) := by
  unfold mergeNamespaceRef at hm
  cases h1 : mergeRouters ni.pfx ni.handlers.routers h.routers with
  | none => simp [h1] at hm
  | some p1 =>
    obtain ⟨r1, c1⟩ := p1
    by_cases hf : ni.handlers.enableFilter = true
    · cases h2 : mergeFiltersRef ni.pfx ni.handlers.filters (heap, { h with routers := r1 }) with
      | none => simp [h1, hf, h2] at hm
      | some p2 =>
        obtain ⟨heap2, g2⟩ := p2
        simp [h1, hf, h2] at hm
        obtain ⟨rfl, rfl, rfl⟩ := hm
        exact ⟨r1, rfl, rfl, rfl, by simp [hf], fun _ => h2, fun hh => by rw [hf] at hh; cases hh⟩
    · have hf' : ni.handlers.enableFilter = false := by simpa using hf
      simp [h1, hf'] at hm
      obtain ⟨rfl, rfl, rfl⟩ := hm
      refine ⟨r1, rfl, rfl, rfl, ?_, ?_, ?_⟩
      · simp [hf']
      · intro hh
        rw [hf'] at hh
        cases hh
      · intro _
        exact ⟨rfl, rfl⟩

theorem mergeNamespaceRef_filters (heap heap' : List (FilterRouter Ctx)) (h h' : RegisterRef)
    (ni ni' : NamespaceRef) (hm : mergeNamespaceRef heap h ni = some (heap', h', ni'))
    (hnd : (mapKeys ni.handlers.filters).Nodup)
    (hflag : (∃ pos, ni.handlers.filtersAt pos ≠ []) → ni.handlers.enableFilter = true) :
    Rerooted ni.pfx (fun a => (allPtrs ni.handlers.filters).count a) heap heap' ∧
    ∀ pos, h'.filtersAt pos = h.filtersAt pos ++ ni.handlers.filtersAt pos := by
  obtain ⟨routers, _, _, _, _, ht, hf⟩ := mergeNamespaceRef_some heap heap' h h' ni ni' hm
  by_cases he : ni.handlers.enableFilter = true
  · obtain ⟨a1, _, a3⟩ := mergeFiltersRef_some ni.pfx ni.handlers.filters _ _ _ _ hnd (ht he)
    exact ⟨a1, a3⟩
  · have he' : ni.handlers.enableFilter = false := by simpa using he
    obtain ⟨rfl, rfl⟩ := hf he'
    have hempty : ∀ pos, ni.handlers.filtersAt pos = [] := by
      intro pos
      by_contra hne
      exact he (hflag ⟨pos, hne⟩)
    have hz : allPtrs ni.handlers.filters = [] := allPtrs_nil_of_empty _ hnd hempty
    refine ⟨Rerooted_congr _ (fun _ => 0) _ _ _ (Rerooted_refl ni.pfx heap')
      (fun _ => by simp [hz]), ?_⟩
    intro pos
    rw [hempty pos]
    simp [RegisterRef.filtersAt]

theorem NamespaceRef_Add (n : NamespaceRef) (ns : List NamespaceRef)
    (heap : List (FilterRouter Ctx))
    (r : List (FilterRouter Ctx) × NamespaceRef × List NamespaceRef)
    (hm : n.Namespace ns heap = some r) :
    AddNamespaceRef n.handlers ns heap = some (r.1, r.2.1.handlers, r.2.2) ∧
    r.2.1.pfx = n.pfx := by
  unfold NamespaceRef.Namespace at hm
  unfold AddNamespaceRef
  cases h1 : mergeNamespacesRef ns heap n.handlers with
  | none => simp [h1] at hm
  | some p =>
    simp [h1] at hm
    subst hm
    exact ⟨rfl, rfl⟩

theorem NamespaceRef_single (n ni : NamespaceRef) (heap : List (FilterRouter Ctx))
    (r : List (FilterRouter Ctx) × NamespaceRef × List NamespaceRef)
    (hm : n.Namespace [ni] heap = some r) :
    ∃ ni', mergeNamespaceRef heap n.handlers ni = some (r.1, r.2.1.handlers, ni') ∧
      r.2.2 = [ni'] := by
  unfold NamespaceRef.Namespace at hm
  simp only [mergeNamespacesRef] at hm
  cases h1 : mergeNamespaceRef heap n.handlers ni with
  | none => simp [h1] at hm
  | some p1 =>
    obtain ⟨heap1, g1, ni'⟩ := p1
    simp [h1] at hm
    subst hm
    exact ⟨ni', rfl, rfl⟩

theorem mergeRouters_entry (pfx : GoString) (cs routers r' cs' : List (GoString × Tree))
    (hnd : (mapKeys cs).Nodup) (h : mergeRouters pfx cs routers = some (r', cs'))
    (k : GoString) (v : Tree) (hv : mapGet cs k = some v) :
    ∃ t' segs, mapGet r' k = some t' ∧ literalPath pfx = some segs ∧ segs ≠ [] ∧
      t'.routes = routesOf (mapGet routers k) ++ v.routes.map (prefixed pfx segs) := by
  obtain ⟨_, h2⟩ := mergeRouters_some pfx cs routers r' cs' hnd h
  have h3 := h2 k
  rw [hv] at h3
  simp only at h3
  have hs : (mergedTree pfx (mapGet routers k) v).isSome = true :=
    mergeRouters_isSome _ _ _ _ _ h k v hv _ _
  obtain ⟨t', ht⟩ := Option.isSome_iff_exists.mp hs
  obtain ⟨segs, s1, s2, s3⟩ := mergedTree_routes _ _ _ _ ht
  exact ⟨t', segs, by rw [h3, ht], s1, s2, s3⟩

theorem Rerooted_entries (pfx : GoString) (ptrs : List Nat) (m : Nat)
    (heap heap' : List (FilterRouter Ctx))
    (h : Rerooted pfx (fun a => m * ptrs.count a) heap heap') (hm : 0 < m) :
    ∀ a mr, heap[a]? = some mr → ∃ mr', heap'[a]? = some mr' ∧
      mr'.filterFunc = mr.filterFunc ∧ mr'.pattern = mr.pattern ∧
      (a ∉ ptrs → mr'.tree = mr.tree) ∧
      (a ∈ ptrs → ∃ segs, literalPath pfx = some segs ∧ segs ≠ [] ∧
        mr'.tree.routes = mr.tree.routes.map (under (repeatSegs (m * ptrs.count a) segs))) := by
  intro a mr ha
  obtain ⟨mr', b1, b2, b3, b4, b5⟩ := h.2 a mr ha
  refine ⟨mr', b1, b2, b3, ?_, ?_⟩
  · intro hn
    apply b4
    show m * ptrs.count a = 0
    rw [List.count_eq_zero_of_not_mem hn, Nat.mul_zero]
  · intro hin
    apply b5
    show 0 < m * ptrs.count a
    exact Nat.mul_pos hm (List.count_pos_iff.mpr hin)

end MergeRef2

section MergeRefClaims

variable {Ctx : Type}

/-- C7: after a child namespace is merged into a parent, by `Namespace.Namespace`
as by `AddNamespace`, the filter list of the parent for every interception point is
its previous list followed by the entries of the child for that point, the same
objects in the order of the child and as one block.  Every entry keeps its filter
function and its pattern; the tree of an entry of the child is held under the
segments of the prefix of the child in a new tree, once for each place the entry has
in the lists of the child, and this is seen wherever the entry is held, also in the
previous list of the parent; an entry that the child does not hold keeps its tree.
The merge passes the filters on when the flag `enableFilter` of the child is set, as
it is whenever the child has a filter entry. -/
theorem merge_filters_appended (heap : List (FilterRouter Ctx)) (n ni : NamespaceRef)
    (r : List (FilterRouter Ctx) × NamespaceRef × List NamespaceRef)
    (hm : n.Namespace [ni] heap = some r)
    (hnd : (mapKeys ni.handlers.filters).Nodup)
    (hflag : (∃ pos, ni.handlers.filtersAt pos ≠ []) → ni.handlers.enableFilter = true) :
    AddNamespaceRef n.handlers [ni] heap = some (r.1, r.2.1.handlers, r.2.2) ∧
    (∀ pos, r.2.1.handlers.filtersAt pos =
      n.handlers.filtersAt pos ++ ni.handlers.filtersAt pos) ∧
    (∀ ni' ∈ r.2.2, ni'.handlers.filters = ni.handlers.filters) ∧
    r.1.length = heap.length ∧
    ∀ a mr, heap[a]? = some mr → ∃ mr', r.1[a]? = some mr' ∧
      mr'.filterFunc = mr.filterFunc ∧ mr'.pattern = mr.pattern ∧
      (a ∉ allPtrs ni.handlers.filters → mr'.tree = mr.tree) ∧
      (a ∈ allPtrs ni.handlers.filters →
        ∃ segs, literalPath ni.pfx = some segs ∧ segs ≠ [] ∧
          mr'.tree.routes = mr.tree.routes.map
            (under (repeatSegs ((allPtrs ni.handlers.filters).count a) segs)) ∧
          ((allPtrs ni.handlers.filters).count a = 1 →
            mr'.tree.routes = mr.tree.routes.map (under segs))) := by
  obtain ⟨ni', h1, h0⟩ := NamespaceRef_single n ni heap r hm
  obtain ⟨_, _, _, hfl, _, _, _⟩ := mergeNamespaceRef_some _ _ _ _ _ _ h1
  obtain ⟨hr, hl⟩ := mergeNamespaceRef_filters _ _ _ _ _ _ h1 hnd hflag
  refine ⟨(NamespaceRef_Add n [ni] heap r hm).1, hl, ?_, hr.1, ?_⟩
  · intro x hx
    rw [h0] at hx
    simp only [List.mem_singleton] at hx
    rw [hx, hfl]
  · have hr' : Rerooted ni.pfx (fun a => 1 * (allPtrs ni.handlers.filters).count a)
        heap r.1 := Rerooted_congr _ _ _ _ _ hr (fun _ => (Nat.one_mul _).symm)
    intro a mr ha
    obtain ⟨mr', b1, b2, b3, b4, b5⟩ :=
      Rerooted_entries ni.pfx _ 1 heap r.1 hr' Nat.one_pos a mr ha
    refine ⟨mr', b1, b2, b3, b4, ?_⟩
    intro hin
    obtain ⟨segs, s1, s2, s3⟩ := b5 hin
    rw [Nat.one_mul] at s3
    refine ⟨segs, s1, s2, s3, ?_⟩
    intro hc
    rw [s3, hc]
    simp [repeatSegs]

theorem merge_filters_appended_witness :
    exParentRef.Namespace [exGuardedRef.1] exGuardedRef.2 = some exGuardedRefMerged ∧
    exGuardedRef.1.handlers.filtersAt 1 = [0, 1] ∧
    exGuardedRefMerged.2.1.handlers.filtersAt 1 = [0, 1] ∧
    exGuardedRef.2.map (fun mr => mr.tree.routes.map (fun x => x.1)) =
      [[[.capture]], [[.capture]]] ∧
    exGuardedRefMerged.1.map (fun mr => mr.tree.routes.map (fun x => x.1)) =
      [[[.fixed "v1".toList, .capture]], [[.fixed "v1".toList, .capture]]] ∧
    (AddNamespaceRef exParentRef.handlers [exGuardedRef.1] exGuardedRef.2 =
      some (exGuardedRefMerged.1, exGuardedRefMerged.2.1.handlers, exGuardedRefMerged.2.2) ∧
    (∀ pos, exGuardedRefMerged.2.1.handlers.filtersAt pos =
      exParentRef.handlers.filtersAt pos ++ exGuardedRef.1.handlers.filtersAt pos) ∧
    (∀ ni' ∈ exGuardedRefMerged.2.2,
      ni'.handlers.filters = exGuardedRef.1.handlers.filters) ∧
    exGuardedRefMerged.1.length = exGuardedRef.2.length ∧
    ∀ a mr, exGuardedRef.2[a]? = some mr → ∃ mr', exGuardedRefMerged.1[a]? = some mr' ∧
      mr'.filterFunc = mr.filterFunc ∧ mr'.pattern = mr.pattern ∧
      (a ∉ allPtrs exGuardedRef.1.handlers.filters → mr'.tree = mr.tree) ∧
      (a ∈ allPtrs exGuardedRef.1.handlers.filters →
        ∃ segs, literalPath exGuardedRef.1.pfx = some segs ∧ segs ≠ [] ∧
          mr'.tree.routes = mr.tree.routes.map
            (under (repeatSegs ((allPtrs exGuardedRef.1.handlers.filters).count a) segs)) ∧
          ((allPtrs exGuardedRef.1.handlers.filters).count a = 1 →
            mr'.tree.routes = mr.tree.routes.map (under segs)))) :=
  ⟨by rfl, by decide, by decide, by decide, by decide,
    merge_filters_appended exGuardedRef.2 exParentRef exGuardedRef.1 exGuardedRefMerged
      (by rfl) (by decide) (fun _ => by rfl)⟩

end MergeRefClaims

section MergeRef3

variable {Ctx : Type}

theorem mergeFiltersRef_routers (pfx : GoString) (fl : List (Int × List Nat)) :
    ∀ (heap heap' : List (FilterRouter Ctx)) (h h' : RegisterRef),
      mergeFiltersRef pfx fl (heap, h) = some (heap', h') → h'.routers = h.routers := by
  induction fl with
  | nil =>
    intro heap heap' h h' hm
    simp only [mergeFiltersRef, List.foldlM_nil, Option.pure_def, Option.some.injEq,
      Prod.mk.injEq] at hm
    obtain ⟨rfl, rfl⟩ := hm
    rfl
  | cons e rest ih =>
    obtain ⟨p0, l0⟩ := e
    intro heap heap' h h' hm
    simp only [mergeFiltersRef, List.foldlM_cons] at hm
    cases h1 : mergeFilterListRef pfx p0 l0 (heap, h) with
    | none => simp [h1] at hm
    | some p1 =>
      obtain ⟨heap1, g1⟩ := p1
      simp only [h1, Option.bind_eq_bind, Option.some_bind] at hm
      obtain ⟨_, j2, _, _⟩ := mergeFilterListRef_some pfx p0 l0 _ _ _ _ h1
      rw [ih heap1 heap' g1 h' hm, j2]

theorem mergeNamespaceRef_routers (heap heap' : List (FilterRouter Ctx)) (h h' : RegisterRef)
    (ni ni' : NamespaceRef) (hm : mergeNamespaceRef heap h ni = some (heap', h', ni')) :
    mergeRouters ni.pfx ni.handlers.routers h.routers =
      some (h'.routers, ni'.handlers.routers) := by
  obtain ⟨routers, a1, _, _, _, ht, hf⟩ := mergeNamespaceRef_some _ _ _ _ _ _ hm
  by_cases he : ni.handlers.enableFilter = true
  · rw [mergeFiltersRef_routers _ _ _ _ _ _ (ht he)]
    exact a1
  · have he' : ni.handlers.enableFilter = false := by simpa using he
    rw [(hf he').2]
    exact a1

theorem mergeNamespace_mergeRouters (h h' : ControllerRegister Ctx) (ni ni' : Namespace Ctx)
    (hm : mergeNamespace h ni = some (h', ni')) :
    mergeRouters ni.pfx ni.handlers.routers h.routers =
      some (h'.routers, ni'.handlers.routers) := by
  unfold mergeNamespace at hm
  cases h1 : mergeRouters ni.pfx ni.handlers.routers h.routers with
  | none => simp [h1] at hm
  | some p1 =>
    obtain ⟨r1, c1⟩ := p1
    by_cases hf : ni.handlers.enableFilter = true
    · cases h2 : mergeFilters ni.pfx ni.handlers.filters { h with routers := r1 } with
      | none => simp [h1, hf, h2] at hm
      | some p2 =>
        obtain ⟨g2, f2⟩ := p2
        simp [h1, hf, h2] at hm
        obtain ⟨rfl, rfl⟩ := hm
        have hr : g2.routers = r1 := mergeFilters_routers _ _ _ _ _ h2
        simp [hr]
    · have hf' : ni.handlers.enableFilter = false := by simpa using hf
      simp [h1, hf'] at hm
      obtain ⟨rfl, rfl⟩ := hm
      rfl

/-- The trees per method after a merge are the same whether the filter entries are
held as values or as pointers: both forms of the merge run the loop `mergeRouters`
on the trees of the namespace and of the receiving registry. -/
theorem mergeNamespace_routers_agree (h h' : ControllerRegister Ctx) (ni ni' : Namespace Ctx)
    (hm : mergeNamespace h ni = some (h', ni'))
    (heap heap' : List (FilterRouter Ctx)) (hR hR' : RegisterRef) (niR niR' : NamespaceRef)
    (hmR : mergeNamespaceRef heap hR niR = some (heap', hR', niR'))
    (e1 : hR.routers = h.routers) (e2 : niR.pfx = ni.pfx)
    (e3 : niR.handlers.routers = ni.handlers.routers) :
    hR'.routers = h'.routers ∧ niR'.handlers.routers = ni'.handlers.routers := by
  have a := mergeNamespace_mergeRouters h h' ni ni' hm
  have b := mergeNamespaceRef_routers heap heap' hR hR' niR niR' hmR
  rw [e1, e2, e3, a] at b
  simp only [Option.some.injEq, Prod.mk.injEq] at b
  exact ⟨b.1.symm, b.2.symm⟩

end MergeRef3

section MergeRefClaims2

variable {Ctx : Type}

/-- C8: merging is not idempotent.  When a namespace is merged into the same parent
twice, by `Namespace.Namespace` as by `AddNamespace`, every tree of the parent for a
method of the namespace holds the routes of the namespace twice, the second copy
after the first, and every filter list of the parent holds the entries of the
merged namespace twice, the second block after the first: a tree of that namespace
with a route and a filter list of that namespace with an entry make the second
merge change the parent.  The entries are the same objects in both blocks, and the tree of
each is held under the segments of the prefix twice over for each place the entry
has in the lists of the namespace. -/
theorem merge_twice (heap : List (FilterRouter Ctx)) (n ni : NamespaceRef)
    (r1 : List (FilterRouter Ctx) × NamespaceRef × List NamespaceRef)
    (hm1 : n.Namespace [ni] heap = some r1)
    (r2 : List (FilterRouter Ctx) × NamespaceRef × List NamespaceRef)
    (hm2 : r1.2.1.Namespace r1.2.2 r1.1 = some r2)
    (hndR : (mapKeys ni.handlers.routers).Nodup)
    (hndF : (mapKeys ni.handlers.filters).Nodup)
    (hflag : (∃ pos, ni.handlers.filtersAt pos ≠ []) → ni.handlers.enableFilter = true) :
    AddNamespaceRef n.handlers [ni] heap = some (r1.1, r1.2.1.handlers, r1.2.2) ∧
    AddNamespaceRef r1.2.1.handlers r1.2.2 r1.1 = some (r2.1, r2.2.1.handlers, r2.2.2) ∧
    (∀ k v, mapGet ni.handlers.routers k = some v →
      ∃ t1 t2 segs, mapGet r1.2.1.handlers.routers k = some t1 ∧
        mapGet r2.2.1.handlers.routers k = some t2 ∧ literalPath ni.pfx = some segs ∧
        t1.routes = routesOf (mapGet n.handlers.routers k) ++
          v.routes.map (prefixed ni.pfx segs) ∧
        t2.routes = t1.routes ++ v.routes.map (prefixed ni.pfx segs) ∧
        (v.routes ≠ [] → t2.routes ≠ t1.routes)) ∧
    (∀ pos,
      r1.2.1.handlers.filtersAt pos =
        n.handlers.filtersAt pos ++ ni.handlers.filtersAt pos ∧
      r2.2.1.handlers.filtersAt pos =
        n.handlers.filtersAt pos ++ ni.handlers.filtersAt pos ++ ni.handlers.filtersAt pos ∧
      (ni.handlers.filtersAt pos ≠ [] →
        r2.2.1.handlers.filtersAt pos ≠ r1.2.1.handlers.filtersAt pos)) ∧
    r2.1.length = heap.length ∧
    ∀ a mr, heap[a]? = some mr → ∃ mr', r2.1[a]? = some mr' ∧
      mr'.filterFunc = mr.filterFunc ∧ mr'.pattern = mr.pattern ∧
      (a ∉ allPtrs ni.handlers.filters → mr'.tree = mr.tree) ∧
      (a ∈ allPtrs ni.handlers.filters →
        ∃ segs, literalPath ni.pfx = some segs ∧ segs ≠ [] ∧
          mr'.tree.routes = mr.tree.routes.map
            (under (repeatSegs (2 * (allPtrs ni.handlers.filters).count a) segs))) := by
  obtain ⟨ni', h1, h0⟩ := NamespaceRef_single n ni heap r1 hm1
  obtain ⟨_, _, hp, hfl, hen, _, _⟩ := mergeNamespaceRef_some _ _ _ _ _ _ h1
  have hmr1 := mergeNamespaceRef_routers _ _ _ _ _ _ h1
  obtain ⟨hr1, hl1⟩ := mergeNamespaceRef_filters _ _ _ _ _ _ h1 hndF hflag
  have hadd2 := (NamespaceRef_Add r1.2.1 r1.2.2 r1.1 r2 hm2).1
  rw [h0] at hm2
  obtain ⟨ni'', g1, _⟩ := NamespaceRef_single r1.2.1 ni' r1.1 r2 hm2
  have hmr2 := mergeNamespaceRef_routers _ _ _ _ _ _ g1
  have hndF' : (mapKeys ni'.handlers.filters).Nodup := by
    rw [hfl]
    exact hndF
  have hflag' : (∃ pos, ni'.handlers.filtersAt pos ≠ []) →
      ni'.handlers.enableFilter = true := by
    rintro ⟨q, hq⟩
    rw [hen]
    apply hflag
    refine ⟨q, ?_⟩
    simpa only [RegisterRef.filtersAt, hfl] using hq
  obtain ⟨hr2, hl2⟩ := mergeNamespaceRef_filters _ _ _ _ _ _ g1 hndF' hflag'
  rw [hp, hfl] at hr2
  have hni : ∀ pos, ni'.handlers.filtersAt pos = ni.handlers.filtersAt pos := by
    intro pos
    simp only [RegisterRef.filtersAt, hfl]
  obtain ⟨hcs, _⟩ := mergeRouters_some ni.pfx _ _ _ _ hndR hmr1
  have hndR' : (mapKeys ni'.handlers.routers).Nodup := by
    rw [hcs, mapKeys_map_snd _ (fun t => addPrefix t ni.pfx)]
    exact hndR
  refine ⟨(NamespaceRef_Add n [ni] heap r1 hm1).1, hadd2, ?_, ?_, hr2.1.trans hr1.1, ?_⟩
  · intro k v hv
    obtain ⟨t1, segs, a1, a2, _, a3⟩ := mergeRouters_entry _ _ _ _ _ hndR hmr1 k v hv
    have hv' : mapGet ni'.handlers.routers k = some (addPrefix v ni.pfx) := by
      rw [hcs, mapGet_map_snd _ (fun t => addPrefix t ni.pfx), hv]
      rfl
    obtain ⟨t2, segs', b1, b2, _, b3⟩ := mergeRouters_entry _ _ _ _ _ hndR' hmr2 k _ hv'
    rw [hp] at b2 b3
    rw [a2] at b2
    cases b2
    have e2 : t2.routes = t1.routes ++ v.routes.map (prefixed ni.pfx segs) := by
      rw [b3, a1, prefixed_addPrefix_routes]
      rfl
    refine ⟨t1, t2, segs, a1, b1, a2, a3, e2, ?_⟩
    intro hne heq
    rw [e2] at heq
    have hlen := congrArg List.length heq
    simp only [List.length_append, List.length_map] at hlen
    have : v.routes.length = 0 := by omega
    exact hne (List.length_eq_zero.mp this)
  · intro pos
    have e2 : r2.2.1.handlers.filtersAt pos =
        n.handlers.filtersAt pos ++ ni.handlers.filtersAt pos ++ ni.handlers.filtersAt pos := by
      rw [hl2 pos, hl1 pos, hni pos]
    refine ⟨hl1 pos, e2, ?_⟩
    intro hne heq
    rw [e2, hl1 pos] at heq
    have hlen := congrArg List.length heq
    simp only [List.length_append] at hlen
    have : (ni.handlers.filtersAt pos).length = 0 := by omega
    exact hne (List.length_eq_zero.mp this)
  · have hr : Rerooted ni.pfx (fun a => 2 * (allPtrs ni.handlers.filters).count a)
        heap r2.1 :=
      Rerooted_congr _ _ _ _ _ (Rerooted_trans _ _ _ _ _ _ hr1 hr2) (fun _ => by omega)
    exact Rerooted_entries ni.pfx _ 2 heap r2.1 hr (by decide)

theorem merge_twice_witness :
    exParentRef.Namespace [exGuardedRef.1] exGuardedRef.2 = some exGuardedRefMerged ∧
    exGuardedRefMerged.2.1.Namespace exGuardedRefMerged.2.2 exGuardedRefMerged.1 =
      some exGuardedRefTwice ∧
    patternsOf (mapGet exGuardedRefTwice.2.1.handlers.routers "GET".toList) =
      ["/v1/shop/:id".toList, "/v1/shop/:id".toList] ∧
    exGuardedRef.1.handlers.filtersAt 1 = [0, 1] ∧
    exGuardedRefMerged.2.1.handlers.filtersAt 1 = [0, 1] ∧
    exGuardedRefTwice.2.1.handlers.filtersAt 1 = [0, 1, 0, 1] ∧
    exGuardedRefMerged.1.map (fun mr => mr.tree.routes.map (fun x => x.1)) =
      [[[.fixed "v1".toList, .capture]], [[.fixed "v1".toList, .capture]]] ∧
    exGuardedRefTwice.1.map (fun mr => mr.tree.routes.map (fun x => x.1)) =
      [[[.fixed "v1".toList, .fixed "v1".toList, .capture]],
        [[.fixed "v1".toList, .fixed "v1".toList, .capture]]] ∧
    (AddNamespaceRef exParentRef.handlers [exGuardedRef.1] exGuardedRef.2 =
      some (exGuardedRefMerged.1, exGuardedRefMerged.2.1.handlers, exGuardedRefMerged.2.2) ∧
    AddNamespaceRef exGuardedRefMerged.2.1.handlers exGuardedRefMerged.2.2
        exGuardedRefMerged.1 =
      some (exGuardedRefTwice.1, exGuardedRefTwice.2.1.handlers, exGuardedRefTwice.2.2) ∧
    (∀ k v, mapGet exGuardedRef.1.handlers.routers k = some v →
      ∃ t1 t2 segs, mapGet exGuardedRefMerged.2.1.handlers.routers k = some t1 ∧
        mapGet exGuardedRefTwice.2.1.handlers.routers k = some t2 ∧
        literalPath exGuardedRef.1.pfx = some segs ∧
        t1.routes = routesOf (mapGet exParentRef.handlers.routers k) ++
          v.routes.map (prefixed exGuardedRef.1.pfx segs) ∧
        t2.routes = t1.routes ++ v.routes.map (prefixed exGuardedRef.1.pfx segs) ∧
        (v.routes ≠ [] → t2.routes ≠ t1.routes)) ∧
    (∀ pos,
      exGuardedRefMerged.2.1.handlers.filtersAt pos =
        exParentRef.handlers.filtersAt pos ++ exGuardedRef.1.handlers.filtersAt pos ∧
      exGuardedRefTwice.2.1.handlers.filtersAt pos =
        exParentRef.handlers.filtersAt pos ++ exGuardedRef.1.handlers.filtersAt pos ++
          exGuardedRef.1.handlers.filtersAt pos ∧
      (exGuardedRef.1.handlers.filtersAt pos ≠ [] →
        exGuardedRefTwice.2.1.handlers.filtersAt pos ≠
          exGuardedRefMerged.2.1.handlers.filtersAt pos)) ∧
    exGuardedRefTwice.1.length = exGuardedRef.2.length ∧
    ∀ a mr, exGuardedRef.2[a]? = some mr → ∃ mr', exGuardedRefTwice.1[a]? = some mr' ∧
      mr'.filterFunc = mr.filterFunc ∧ mr'.pattern = mr.pattern ∧
      (a ∉ allPtrs exGuardedRef.1.handlers.filters → mr'.tree = mr.tree) ∧
      (a ∈ allPtrs exGuardedRef.1.handlers.filters →
        ∃ segs, literalPath exGuardedRef.1.pfx = some segs ∧ segs ≠ [] ∧
          mr'.tree.routes = mr.tree.routes.map
            (under (repeatSegs (2 * (allPtrs exGuardedRef.1.handlers.filters).count a)
              segs)))) :=
  ⟨by rfl, by rfl, by decide, by decide, by decide, by decide, by decide, by decide,
    merge_twice exGuardedRef.2 exParentRef exGuardedRef.1 exGuardedRefMerged (by rfl)
      exGuardedRefTwice (by rfl) (by decide) (by decide) (fun _ => by rfl)⟩

end MergeRefClaims2

end Goweb
